import Mathlib

/-!
# Verification of `apstndb/lox` (`lox.go`)

A shallow embedding of the generic helpers of `lox.go` together with the library
routines they are built from (`github.com/samber/lo` and the Go standard `slices`
package), followed by theorems about them.

Conventions of the embedding:

* a Go slice `[]T` is a `List T`; a function that mutates its slice argument in place
  returns the new contents;
* a Go `map[K]V` is a `GoMap K V`: the list of its bindings, no two keys of which are
  `==`, in the order a `range` loop happens to visit them; an operation that panics at run
  time (a map access with a key that cannot be hashed) returns `none`;
* Go `int` is `Int` (or `Nat` for slice indices, which are never negative);
* the zero value of a Go type `T` is `GoZero.zero : T`;
* a `comparable` type is a type with decidable equality and the two predicates of
  `GoComparable`, which tell where the operator `==` departs from it;
* a type of `constraints.Ordered` is a `GoOrdered` type: its operator `<` is a linear order
  on the values other than NaN and is false as soon as one side is NaN;
* the functions that sort take as first argument the pseudo-random step `next` of the sort
  of the standard library;
* a callback is a function; where its effects matter (a panic, the number and the order of
  the calls) the helper is also given for callbacks in a monad.
-/

set_option autoImplicit false


/-! ## Go runtime notions -/

/-- Zero value of a Go type (`var zero T`). -/
class GoZero (T : Type) where
  /-- The value of a declared but unassigned variable of the type. -/
  zero : T

instance : GoZero Int := ⟨0⟩
instance : GoZero Nat := ⟨0⟩
instance : GoZero String := ⟨""⟩
instance : GoZero Bool := ⟨false⟩
instance : GoZero Unit := ⟨()⟩

/-- The operator `==` of a Go `comparable` type, given by the two ways in which it departs
from identity of values. -/
class GoComparable (K : Type) where
  /-- Whether `x == x` holds: it fails for a floating-point NaN and for a composite value
  that holds one. -/
  selfEqual : K → Bool
  /-- Whether `x` can be hashed as a map key: it fails for an interface value whose dynamic
  type is not comparable (a slice, a map, a function); a map operation with such a key
  panics. -/
  hashable : K → Bool

/-- Go `x == y` on hashable values: the two are the same value, and that value is equal to
itself. -/
def goEq {K : Type} [DecidableEq K] [GoComparable K] (x y : K) : Bool :=
  decide (x = y) && GoComparable.selfEqual x

/-- The operators `<` and `!=` of a type of `constraints.Ordered` (integers, floats,
strings): `lt x y` is `x < y` and `isNaN x` is `x != x`.  On the values other than NaN `<` is
a strict linear order; a comparison with NaN is false. -/
class GoOrdered (R : Type) where
  /-- Go `x < y`. -/
  lt : R → R → Bool
  /-- Go `x != x`: true for a floating-point NaN only. -/
  isNaN : R → Bool
  /-- No value is below itself. -/
  lt_irrefl : ∀ x, lt x x = false
  /-- The operator `<` is transitive. -/
  lt_trans : ∀ x y z, lt x y = true → lt y z = true → lt x z = true
  /-- Two values other than NaN are comparable. -/
  lt_total : ∀ x y, isNaN x = false → isNaN y = false → lt x y = true ∨ x = y ∨ lt y x = true
  /-- NaN is below nothing. -/
  lt_nan_left : ∀ x y, isNaN x = true → lt x y = false
  /-- Nothing is below NaN. -/
  lt_nan_right : ∀ x y, isNaN y = true → lt x y = false

/-- Go `x <= y` on an ordered type: false when one side is NaN, else `!(y < x)`. -/
def GoOrdered.le {R : Type} [GoOrdered R] (x y : R) : Bool :=
  !GoOrdered.lt y x && !GoOrdered.isNaN x && !GoOrdered.isNaN y

/-- An ordered type without NaN (integers, strings), from its linear order. -/
def GoOrdered.ofLinearOrder (R : Type) [LinearOrder R] : GoOrdered R where
  lt a b := decide (a < b)
  isNaN _ := false
  lt_irrefl x := by simp
  lt_trans x y z h₁ h₂ := by
    rw [decide_eq_true_eq] at *
    exact h₁.trans h₂
  lt_total x y _ _ := by
    simp only [decide_eq_true_eq]
    exact lt_trichotomy x y
  lt_nan_left _ _ h := by cases h
  lt_nan_right _ _ h := by cases h

instance : GoOrdered Int := GoOrdered.ofLinearOrder Int
instance : GoOrdered Nat := GoOrdered.ofLinearOrder Nat
instance : GoOrdered String := GoOrdered.ofLinearOrder String

/-- An ordered type is comparable: every value can be hashed, and all but NaN are equal to
themselves. -/
instance {K : Type} [GoOrdered K] : GoComparable K :=
  ⟨fun x => !GoOrdered.isNaN x, fun _ => true⟩

/-- A `float64` as far as `<` and `==` tell: NaN, or the number it denotes (the two zeros,
which are `==`, are one number; the infinities are left out). -/
inductive GoFloat where
  /-- A NaN. -/
  | nan : GoFloat
  /-- A number. -/
  | num (q : Rat) : GoFloat
deriving DecidableEq

instance : GoOrdered GoFloat where
  lt x y :=
    match x, y with
    | GoFloat.num a, GoFloat.num b => decide (a < b)
    | _, _ => false
  isNaN x :=
    match x with
    | GoFloat.nan => true
    | GoFloat.num _ => false
  lt_irrefl x := by cases x <;> simp
  lt_trans x y z h₁ h₂ := by
    cases x <;> cases y <;> cases z <;> simp at *
    exact h₁.trans h₂
  lt_total x y hx hy := by
    cases x <;> cases y <;> simp at *
    exact lt_trichotomy _ _
  lt_nan_left x y h := by cases x <;> cases y <;> simp at *
  lt_nan_right x y h := by cases x <;> cases y <;> simp at *

/-- A value of the interface type `any` used as a key: an `int`, or a `[]int`, whose type is
not comparable. -/
inductive GoAnyKey where
  /-- An `int`. -/
  | int (n : Int) : GoAnyKey
  /-- A `[]int`. -/
  | ints (xs : List Int) : GoAnyKey
deriving DecidableEq

instance : GoComparable GoAnyKey :=
  ⟨fun _ => true, fun x => match x with
    | GoAnyKey.int _ => true
    | GoAnyKey.ints _ => false⟩

/-- A Go `map[K]V`: its bindings, in the order a `range` loop visits them. -/
abbrev GoMap (K : Type) (V : Type) := List (K × V)

namespace GoMap

variable {K : Type} {V : Type}

/-- Search of the binding of a hashable key: the value bound to the first key `==` to `k`. -/
def find [DecidableEq K] [GoComparable K] : GoMap K V → K → Option V
  | [], _ => none
  | (k', v) :: rest, k => if goEq k' k then some v else find rest k

/-- The comma-ok lookup `v, ok := m[k]`.  The outer `none` is the panic on a key that cannot
be hashed; the inner `none` stands for `ok == false`. -/
def lookup [DecidableEq K] [GoComparable K] (m : GoMap K V) (k : K) : Option (Option V) :=
  if GoComparable.hashable k then some (m.find k) else none

/-- Update with a hashable key: overwrite the binding whose key is `==` to `k` when there is
one, else add a binding. -/
def store [DecidableEq K] [GoComparable K] : GoMap K V → K → V → GoMap K V
  | [], k, v => [(k, v)]
  | (k', v') :: rest, k, v =>
    if goEq k' k then (k, v) :: rest else (k', v') :: store rest k v

/-- The assignment `m[k] = v`; `none` is the panic on a key that cannot be hashed. -/
def assign [DecidableEq K] [GoComparable K] (m : GoMap K V) (k : K) (v : V) :
    Option (GoMap K V) :=
  if GoComparable.hashable k then some (m.store k v) else none

/-- The keys of the map, in iteration order. -/
def keys (m : GoMap K V) : List K := m.map Prod.fst

/-- Well-formedness of a map value: no two keys are `==`, and every key can be hashed. -/
def WF [DecidableEq K] [GoComparable K] (m : GoMap K V) : Prop :=
  (m.map Prod.fst).Pairwise (fun k k' => goEq k k' = false) ∧
  ∀ k ∈ m.map Prod.fst, GoComparable.hashable k = true

instance [DecidableEq K] [GoComparable K] (m : GoMap K V) : Decidable m.WF :=
  inferInstanceAs (Decidable (_ ∧ _))

/-- Go `len(m)`: the number of bindings. -/
def size (m : GoMap K V) : Nat := m.length

end GoMap

/-! ## `github.com/samber/lo` -/

namespace lo

variable {T : Type} {R : Type} {K : Type} {V : Type}

/-- Go `lo.Entry[K, V]`. -/
structure Entry (K : Type) (V : Type) where
  /-- The key of the binding. -/
  Key : K
  /-- The value of the binding. -/
  Value : V
deriving DecidableEq, Repr

/-- Go `lo.Empty[T]()`: the zero value of `T`. -/
def Empty (T : Type) [GoZero T] : T := GoZero.zero

/-- Go `lo.IsEmpty(v)`: `zero == v`. -/
def IsEmpty [GoZero T] [DecidableEq T] (v : T) : Bool := decide (GoZero.zero = v)

/-- Go `lo.IsNotEmpty(v)`: `zero != v`. -/
def IsNotEmpty [GoZero T] [DecidableEq T] (v : T) : Bool := !decide (GoZero.zero = v)

/-- Go `lo.Ternary(condition, ifOutput, elseOutput)`. -/
def Ternary (condition : Bool) (ifOutput elseOutput : T) : T :=
  if condition then ifOutput else elseOutput

/-- Go `lo.TernaryF(condition, ifFunc, elseFunc)`: only the selected thunk is called. -/
def TernaryF (condition : Bool) (ifFunc elseFunc : Unit → T) : T :=
  if condition then ifFunc () else elseFunc ()

/-- Loop of `lo.Filter`: `rest` is `collection[i:]`, `result` the slice appended to so far. -/
def Filter.loop (predicate : T → Int → Bool) : List T → Int → List T → List T
  | [], _, result => result
  | x :: rest, i, result =>
    Filter.loop predicate rest (i + 1) (if predicate x i then result ++ [x] else result)

/-- Go `lo.Filter(collection, predicate)`. -/
def Filter (collection : List T) (predicate : T → Int → Bool) : List T :=
  Filter.loop predicate collection 0 []

/-- Loop of `lo.Map`; `result[i] = iteratee(collection[i], i)` fills the result left to right. -/
def Map.loop (iteratee : T → Int → R) : List T → Int → List R → List R
  | [], _, result => result
  | x :: rest, i, result => Map.loop iteratee rest (i + 1) (result ++ [iteratee x i])

/-- Go `lo.Map(collection, iteratee)`. -/
def Map (collection : List T) (iteratee : T → Int → R) : List R :=
  Map.loop iteratee collection 0 []

/-- Loop of `lo.FilterMap`. -/
def FilterMap.loop (callback : T → Int → R × Bool) : List T → Int → List R → List R
  | [], _, result => result
  | x :: rest, i, result =>
    FilterMap.loop callback rest (i + 1)
      (if (callback x i).2 then result ++ [(callback x i).1] else result)

/-- Go `lo.FilterMap(collection, callback)`. -/
def FilterMap (collection : List T) (callback : T → Int → R × Bool) : List R :=
  FilterMap.loop callback collection 0 []

/-- Loop of `lo.Associate`: `result[k] = v` for every element in turn; the loop ends with
the first assignment that panics. -/
def Associate.loop [DecidableEq K] [GoComparable K] (transform : T → K × V) :
    List T → GoMap K V → Option (GoMap K V)
  | [], result => some result
  | x :: rest, result =>
    match result.assign (transform x).1 (transform x).2 with
    | some result => Associate.loop transform rest result
    | none => none

/-- Go `lo.Associate(collection, transform)`; `none` is a panic. -/
def Associate [DecidableEq K] [GoComparable K] (collection : List T) (transform : T → K × V) :
    Option (GoMap K V) :=
  Associate.loop transform collection []

/-- Go `lo.Entries(m)`: one entry per binding, in iteration order. -/
def Entries (m : GoMap K V) : List (Entry K V) :=
  m.map (fun kv => ⟨kv.1, kv.2⟩)

/-- Go `lo.Keys(m)`: the keys, in iteration order. -/
def Keys (m : GoMap K V) : List K :=
  m.map (fun kv => kv.1)

end lo

/-! ## `lox.go`: combinators, predicates, filters -/

namespace lox

variable {T : Type} {R : Type} {K : Type} {V : Type}

/-- Go `Identity(v)`. -/
def Identity (v : T) : T := v

/-- Go `Compose(f, g)`: `func(v) { return f(g(v)) }`. -/
def Compose {T1 : Type} {T2 : Type} {R : Type} (f : T2 → R) (g : T1 → T2) : T1 → R :=
  fun v => f (g v)

/-- Go `Not(f)`. -/
def Not (f : T → Bool) : T → Bool := fun v => !f v

/-- Go `IgnoreSecond(f)`: `func(v, _) { return f(v) }`. -/
def IgnoreSecond {T1 : Type} {T2 : Type} {R : Type} (f : T1 → R) : T1 → T2 → R :=
  fun v _ => f v

/-- Go `IgnoreIndex(f)`. -/
def IgnoreIndex {T1 : Type} {T2 : Type} {R : Type} (f : T1 → R) : T1 → T2 → R :=
  IgnoreSecond f

/-- Go `SliceToSetBy(collection, iteratee)`; `none` is a panic. -/
def SliceToSetBy [DecidableEq K] [GoComparable K] (collection : List V) (iteratee : V → K) :
    Option (GoMap K Unit) :=
  lo.Associate collection (fun item => (iteratee item, ()))

/-- Go `SliceToSet(collection)`; `none` is a panic. -/
def SliceToSet [DecidableEq V] [GoComparable V] (collection : List V) : Option (GoMap V Unit) :=
  SliceToSetBy collection Identity

/-- Go `IfOrEmpty(condition, result)`. -/
def IfOrEmpty [GoZero T] (condition : Bool) (result : T) : T :=
  lo.Ternary condition result (lo.Empty T)

/-- Go `IfOrEmptyF(condition, f)`. -/
def IfOrEmptyF [GoZero T] (condition : Bool) (f : Unit → T) : T :=
  lo.TernaryF condition f (fun _ => lo.Empty T)

/-- Go `FilterWithoutIndex(collection, predicate)`. -/
def FilterWithoutIndex (collection : List V) (predicate : V → Bool) : List V :=
  lo.Filter collection (IgnoreSecond predicate)

/-- Go `MapWithoutIndex(collection, iteratee)`. -/
def MapWithoutIndex (collection : List T) (iteratee : T → R) : List R :=
  lo.Map collection (IgnoreSecond iteratee)

/-- Go `OnlyEmptyBy(collection, iteratee)`. -/
def OnlyEmptyBy [GoZero R] [DecidableEq R] (collection : List T) (iteratee : T → R) : List T :=
  FilterWithoutIndex collection (Compose lo.IsEmpty iteratee)

/-- Go `WithoutEmptyBy(collection, iteratee)`. -/
def WithoutEmptyBy [GoZero R] [DecidableEq R] (collection : List T) (iteratee : T → R) : List T :=
  FilterWithoutIndex collection (Compose lo.IsNotEmpty iteratee)

end lox

/-! ## The Go standard `slices` package: pattern-defeating quicksort

`slices.SortFunc` and `slices.Sort` run the same generated algorithm (`pdqsortCmpFunc` in
`zsortanyfunc.go`, `pdqsortOrdered` in `zsortordered.go`); they differ only in how two
elements are compared, so the embedding takes the comparison `less` as a parameter
(`cmp(x, y) < 0` for `SortFunc`, `cmpLess(x, y)` for `Sort`) and drops the suffix of the
function names.

* A loop whose counter does not simply run down to zero carries a fuel argument bounding
  its iterations; each entry point supplies the fuel, so every function is total.
* The sort only ever reads and swaps slots inside the slice.  The two primitives `swap` and
  `lessAt` are nevertheless total: on an index past the end, where Go would panic, the
  first leaves the slice unchanged and the second answers `false`.
* The pseudo-random step `xorshift.Next` of the package, used by `breakPatterns`, is the
  parameter `next`: nothing proved below depends on the numbers it produces. -/

namespace slices

variable {E : Type}

/-- The swap `data[i], data[j] = data[j], data[i]`. -/
def swap (data : List E) (i j : Nat) : List E :=
  match data[i]?, data[j]? with
  | some x, some y => (data.set i y).set j x
  | _, _ => data

/-- The comparison `less(data[i], data[j])` of two slots. -/
def lessAt (less : E → E → Bool) (data : List E) (i j : Nat) : Bool :=
  match data[i]?, data[j]? with
  | some x, some y => less x y
  | _, _ => false

/-- Inner loop of `insertionSort`: `for j := i; j > a && less(data[j], data[j-1]); j--`. -/
def insertionSort.inner (less : E → E → Bool) (a : Nat) : Nat → List E → List E
  | 0, data => data
  | j + 1, data =>
    if a < j + 1 ∧ lessAt less data (j + 1) j then
      insertionSort.inner less a j (swap data (j + 1) j)
    else data

/-- Outer loop of `insertionSort`: `for i := a + 1; i < b; i++`. -/
def insertionSort.outer (less : E → E → Bool) (a b : Nat) : Nat → Nat → List E → List E
  | 0, _, data => data
  | fuel + 1, i, data =>
    if i < b then
      insertionSort.outer less a b fuel (i + 1) (insertionSort.inner less a i data)
    else data

/-- Go `insertionSort(data, a, b)`: sorts `data[a:b]` by insertion. -/
def insertionSort (less : E → E → Bool) (data : List E) (a b : Nat) : List E :=
  insertionSort.outer less a b (b - a) (a + 1) data

/-- Loop of `siftDown`, started at `root`. -/
def siftDown.loop (less : E → E → Bool) (hi first : Nat) : Nat → Nat → List E → List E
  | 0, _, data => data
  | fuel + 1, root, data =>
    let child := 2 * root + 1
    if child ≥ hi then data
    else
      let child :=
        if child + 1 < hi ∧ lessAt less data (first + child) (first + child + 1) then child + 1
        else child
      if ¬ lessAt less data (first + root) (first + child) then data
      else siftDown.loop less hi first fuel child (swap data (first + root) (first + child))

/-- Go `siftDown(data, lo, hi, first)`: restores the heap property on `data[lo:hi]`. -/
def siftDown (less : E → E → Bool) (data : List E) (lo hi first : Nat) : List E :=
  siftDown.loop less hi first hi lo data

/-- First loop of `heapSort`: `for i := (hi - 1) / 2; i >= 0; i--`. -/
def heapSort.build (less : E → E → Bool) (hi first : Nat) : Nat → List E → List E
  | 0, data => siftDown less data 0 hi first
  | i + 1, data => heapSort.build less hi first i (siftDown less data (i + 1) hi first)

/-- Second loop of `heapSort`: `for i := hi - 1; i >= 0; i--`; the argument is `i + 1`. -/
def heapSort.pop (less : E → E → Bool) (first : Nat) : Nat → List E → List E
  | 0, data => data
  | i + 1, data =>
    heapSort.pop less first i (siftDown less (swap data first (first + i)) 0 i first)

/-- Go `heapSort(data, a, b)`. -/
def heapSort (less : E → E → Bool) (data : List E) (a b : Nat) : List E :=
  let first := a
  let hi := b - a
  heapSort.pop less first hi (heapSort.build less hi first ((hi - 1) / 2) data)

/-- The type `sortedHint` of pivot hints. -/
inductive sortedHint where
  | unknownHint
  | increasingHint
  | decreasingHint
deriving DecidableEq, Repr

/-- Halving loop computing the bit length of `n`. -/
def bitsLen.loop : Nat → Nat → Nat
  | 0, _ => 0
  | fuel + 1, n => if n = 0 then 0 else bitsLen.loop fuel (n / 2) + 1

/-- Go `bits.Len(uint(n))`: the number of bits needed to write `n`, and 0 for `n = 0`. -/
def bitsLen (n : Nat) : Nat := bitsLen.loop n n

/-- Go `nextPowerOfTwo(length)`: `1 << bits.Len(uint(length))`. -/
def nextPowerOfTwo (length : Nat) : Nat := 1 <<< bitsLen length

/-- Loop of `breakPatterns`: `for i := 0; i < 3; i++`; the argument counts the rounds left. -/
def breakPatterns.loop (next : Nat → Nat) (a length modulus idx : Nat) :
    Nat → Nat → Nat → List E → List E
  | 0, _, _, data => data
  | rounds + 1, i, random, data =>
    let random := next random
    let other := random &&& (modulus - 1)
    let other := if other ≥ length then other - length else other
    breakPatterns.loop next a length modulus idx rounds (i + 1) random
      (swap data (idx + i) (a + other))

/-- Go `breakPatterns(data, a, b)`: scatters three elements around the middle. -/
def breakPatterns (next : Nat → Nat) (data : List E) (a b : Nat) : List E :=
  let length := b - a
  if length ≥ 8 then
    let random := length
    let modulus := nextPowerOfTwo length
    let idx := a + (length / 4) * 2 - 1
    breakPatterns.loop next a length modulus idx 3 0 random data
  else data

/-- Go `order2(data, a, b, swaps)`: the two indices ordered by their elements. -/
def order2 (less : E → E → Bool) (data : List E) (a b swaps : Nat) : Nat × Nat × Nat :=
  if lessAt less data b a then (b, a, swaps + 1) else (a, b, swaps)

/-- Go `median(data, a, b, c, swaps)`: the index of the median of three elements. -/
def median (less : E → E → Bool) (data : List E) (a b c swaps : Nat) : Nat × Nat :=
  let (a, b, swaps) := order2 less data a b swaps
  let (b, _, swaps) := order2 less data b c swaps
  let (_, b, swaps) := order2 less data a b swaps
  (b, swaps)

/-- Go `medianAdjacent(data, a, swaps)`. -/
def medianAdjacent (less : E → E → Bool) (data : List E) (a swaps : Nat) : Nat × Nat :=
  median less data (a - 1) a (a + 1) swaps

/-- Go `choosePivot(data, a, b)`: a pivot index in `data[a:b]` and a hint.  The pair `r` holds
the variables `j` and `swaps` after the median computations. -/
def choosePivot (less : E → E → Bool) (data : List E) (a b : Nat) : Nat × sortedHint :=
  let shortestNinther := 50
  let maxSwaps := 4 * 3
  let l := b - a
  let i := a + l / 4 * 1
  let j := a + l / 4 * 2
  let k := a + l / 4 * 3
  let r : Nat × Nat :=
    if l ≥ 8 then
      if l ≥ shortestNinther then
        let mi := medianAdjacent less data i 0
        let mj := medianAdjacent less data j mi.2
        let mk := medianAdjacent less data k mj.2
        median less data mi.1 mj.1 mk.1 mk.2
      else median less data i j k 0
    else (j, 0)
  if r.2 = 0 then (r.1, sortedHint.increasingHint)
  else if r.2 = maxSwaps then (r.1, sortedHint.decreasingHint)
  else (r.1, sortedHint.unknownHint)

/-- Loop of `reverseRange`: `for i < j`. -/
def reverseRange.loop : Nat → Nat → Nat → List E → List E
  | 0, _, _, data => data
  | fuel + 1, i, j, data =>
    if i < j then reverseRange.loop fuel (i + 1) (j - 1) (swap data i j) else data

/-- Go `reverseRange(data, a, b)`. -/
def reverseRange (data : List E) (a b : Nat) : List E :=
  reverseRange.loop (b - a) a (b - 1) data

/-- The scan `for i <= j && less(data[i], data[a]) { i++ }` of `partition`. -/
def partition.up (less : E → E → Bool) (data : List E) (a j : Nat) : Nat → Nat → Nat
  | 0, i => i
  | fuel + 1, i =>
    if i ≤ j ∧ lessAt less data i a then partition.up less data a j fuel (i + 1) else i

/-- The scan `for i <= j && !less(data[j], data[a]) { j-- }` of `partition`; `i` is at
least `a + 1`, so the scan stops before `j` could pass zero. -/
def partition.down (less : E → E → Bool) (data : List E) (a i : Nat) : Nat → Nat
  | 0 => 0
  | j + 1 =>
    if i ≤ j + 1 ∧ ¬ lessAt less data (j + 1) a then partition.down less data a i j else j + 1

/-- Main loop of `partition`; returns the slice and the final `j`. -/
def partition.loop (less : E → E → Bool) (a : Nat) : Nat → Nat → Nat → List E → List E × Nat
  | 0, _, j, data => (data, j)
  | fuel + 1, i, j, data =>
    let i := partition.up less data a j (j + 1 - i) i
    let j := partition.down less data a i j
    if i > j then (data, j)
    else partition.loop less a fuel (i + 1) (j - 1) (swap data i j)

/-- Go `partition(data, a, b, pivot)`: one quicksort partition around `data[pivot]`; returns
the slice, the new pivot index and whether the slice was already partitioned. -/
def partition (less : E → E → Bool) (data : List E) (a b pivot : Nat) : List E × Nat × Bool :=
  let data := swap data a pivot
  let i := a + 1
  let j := b - 1
  let i := partition.up less data a j (j + 1 - i) i
  let j := partition.down less data a i j
  if i > j then (swap data j a, j, true)
  else
    let data := swap data i j
    let i := i + 1
    let j := j - 1
    let (data, j) := partition.loop less a (b - a) i j data
    (swap data j a, j, false)

/-- The scan `for i <= j && !less(data[a], data[i]) { i++ }` of `partitionEqual`. -/
def partitionEqual.up (less : E → E → Bool) (data : List E) (a j : Nat) : Nat → Nat → Nat
  | 0, i => i
  | fuel + 1, i =>
    if i ≤ j ∧ ¬ lessAt less data a i then partitionEqual.up less data a j fuel (i + 1) else i

/-- The scan `for i <= j && less(data[a], data[j]) { j-- }` of `partitionEqual`; `i` is at
least `a + 1`, so the scan stops before `j` could pass zero. -/
def partitionEqual.down (less : E → E → Bool) (data : List E) (a i : Nat) : Nat → Nat
  | 0 => 0
  | j + 1 =>
    if i ≤ j + 1 ∧ lessAt less data a (j + 1) then partitionEqual.down less data a i j
    else j + 1

/-- Main loop of `partitionEqual`; returns the slice and the final `i`. -/
def partitionEqual.loop (less : E → E → Bool) (a : Nat) :
    Nat → Nat → Nat → List E → List E × Nat
  | 0, i, _, data => (data, i)
  | fuel + 1, i, j, data =>
    let i := partitionEqual.up less data a j (j + 1 - i) i
    let j := partitionEqual.down less data a i j
    if i > j then (data, i)
    else partitionEqual.loop less a fuel (i + 1) (j - 1) (swap data i j)

/-- Go `partitionEqual(data, a, b, pivot)`: splits `data[a:b]` into the elements equal to the
pivot followed by the greater ones; returns the slice and the start of the second part. -/
def partitionEqual (less : E → E → Bool) (data : List E) (a b pivot : Nat) : List E × Nat :=
  let data := swap data a pivot
  partitionEqual.loop less a (b - a) (a + 1) (b - 1) data

/-- The scan `for i < b && !less(data[i], data[i-1]) { i++ }` of `partialInsertionSort`. -/
def partialInsertionSort.scan (less : E → E → Bool) (data : List E) (b : Nat) : Nat → Nat → Nat
  | 0, i => i
  | fuel + 1, i =>
    if i < b ∧ ¬ lessAt less data i (i - 1) then
      partialInsertionSort.scan less data b fuel (i + 1)
    else i

/-- The shift `for j := i - 1; j >= 1; j--` of the smaller element to the left. -/
def partialInsertionSort.shiftLeft (less : E → E → Bool) : Nat → List E → List E
  | 0, data => data
  | j + 1, data =>
    if ¬ lessAt less data (j + 1) j then data
    else partialInsertionSort.shiftLeft less j (swap data (j + 1) j)

/-- The shift `for j := i + 1; j < b; j++` of the greater element to the right. -/
def partialInsertionSort.shiftRight (less : E → E → Bool) (b : Nat) : Nat → Nat → List E → List E
  | 0, _, data => data
  | fuel + 1, j, data =>
    if j < b then
      if ¬ lessAt less data j (j - 1) then data
      else partialInsertionSort.shiftRight less b fuel (j + 1) (swap data j (j - 1))
    else data

/-- Loop `for j := 0; j < maxSteps; j++` of `partialInsertionSort`; the first argument
counts the steps left. -/
def partialInsertionSort.loop (less : E → E → Bool) (a b : Nat) :
    Nat → Nat → List E → List E × Bool
  | 0, _, data => (data, false)
  | steps + 1, i, data =>
    let shortestShifting := 50
    let i := partialInsertionSort.scan less data b (b - i) i
    if i = b then (data, true)
    else if b - a < shortestShifting then (data, false)
    else
      let data := swap data i (i - 1)
      let data := if i - a ≥ 2 then partialInsertionSort.shiftLeft less (i - 1) data else data
      let data :=
        if b - i ≥ 2 then partialInsertionSort.shiftRight less b (b - i) (i + 1) data else data
      partialInsertionSort.loop less a b steps i data

/-- Go `partialInsertionSort(data, a, b)`: partially sorts `data[a:b]`; the flag tells whether
the slice is sorted at the end. -/
def partialInsertionSort (less : E → E → Bool) (data : List E) (a b : Nat) : List E × Bool :=
  let maxSteps := 5
  partialInsertionSort.loop less a b maxSteps (a + 1) data

/-- The first half of a round of the loop of `pdqsort`, up to the attempt of a partial
insertion sort: pattern breaking after an unbalanced partition, choice of the pivot,
reversal of a slice that looks decreasing.  Returns the slice, the pivot, the limit, and
whether the slice is known to be sorted (the loop then returns). -/
def pdqsort.choose (less : E → E → Bool) (next : Nat → Nat) (data : List E)
    (a b limit : Nat) (wasBalanced wasPartitioned : Bool) : List E × Nat × Nat × Bool :=
  let data := if ¬ wasBalanced then breakPatterns next data a b else data
  let limit := if ¬ wasBalanced then limit - 1 else limit
  let (pivot, hint) := choosePivot less data a b
  let data := if hint = sortedHint.decreasingHint then reverseRange data a b else data
  let pivot := if hint = sortedHint.decreasingHint then (b - 1) - (pivot - a) else pivot
  let hint := if hint = sortedHint.decreasingHint then sortedHint.increasingHint else hint
  if wasBalanced ∧ wasPartitioned ∧ hint = sortedHint.increasingHint then
    let (data, sorted) := partialInsertionSort less data a b
    (data, pivot, limit, sorted)
  else (data, pivot, limit, false)

/-- Go `pdqsort(data, a, b, limit)`: sorts `data[a:b]`.  The two trailing flags are the local
variables `wasBalanced` and `wasPartitioned` of the loop; every round of the loop and
every recursive call spends one unit of fuel. -/
def pdqsort (less : E → E → Bool) (next : Nat → Nat) :
    Nat → List E → Nat → Nat → Nat → Bool → Bool → List E
  | 0, data, _, _, _, _, _ => data
  | fuel + 1, data, a, b, limit, wasBalanced, wasPartitioned =>
    let maxInsertion := 12
    let length := b - a
    if length ≤ maxInsertion then insertionSort less data a b
    else if limit = 0 then heapSort less data a b
    else
      let (data, pivot, limit, sorted) :=
        pdqsort.choose less next data a b limit wasBalanced wasPartitioned
      if sorted then data
      else if 0 < a ∧ ¬ lessAt less data (a - 1) pivot then
        let (data, mid) := partitionEqual less data a b pivot
        pdqsort less next fuel data mid b limit wasBalanced wasPartitioned
      else
        let (data, mid, alreadyPartitioned) := partition less data a b pivot
        let wasPartitioned := alreadyPartitioned
        let leftLen := mid - a
        let rightLen := b - mid
        let balanceThreshold := length / 8
        if leftLen < rightLen then
          let wasBalanced := decide (leftLen ≥ balanceThreshold)
          let data := pdqsort less next fuel data a mid limit true true
          pdqsort less next fuel data (mid + 1) b limit wasBalanced wasPartitioned
        else
          let wasBalanced := decide (rightLen ≥ balanceThreshold)
          let data := pdqsort less next fuel data (mid + 1) b limit true true
          pdqsort less next fuel data a mid limit wasBalanced wasPartitioned

/-- Go `slices.SortFunc(x, cmp)`: `pdqsortCmpFunc(x, 0, n, bits.Len(uint(n)), cmp)`. -/
def SortFunc (next : Nat → Nat) (x : List E) (cmp : E → E → Int) : List E :=
  let n := x.length
  pdqsort (fun a b => decide (cmp a b < 0)) next (n + 1) x 0 n (bitsLen n) true true

/-- Go `isNaN(x)`: `x != x`. -/
def isNaN [GoOrdered E] (x : E) : Bool := GoOrdered.isNaN x

/-- Go `cmpLess(x, y)`: `(isNaN(x) && !isNaN(y)) || x < y`, so a NaN is less than every
other value. -/
def cmpLess [GoOrdered E] (x y : E) : Bool :=
  (isNaN x && !isNaN y) || GoOrdered.lt x y

/-- Go `slices.Sort(x)`: `pdqsortOrdered(x, 0, n, bits.Len(uint(n)))`, which compares with
`cmpLess`. -/
def SortOrdered [GoOrdered E] (next : Nat → Nat) (x : List E) : List E :=
  let n := x.length
  pdqsort cmpLess next (n + 1) x 0 n (bitsLen n) true true

end slices

/-! ## `lox.go`: ordering helpers and sorted views of maps

The key type `R` of `constraints.Ordered` is a `GoOrdered` type: `<` and `>` are the
operators of Go, false as soon as one side is NaN. -/

namespace lox

variable {T : Type} {R : Type} {K : Type} {V : Type}

/-- The comparison closure handed to `slices.SortFunc` by `SortBy`; the test `ra > rb` of the
source is `rb < ra`.  The answer is 0 as soon as one key is NaN. -/
def SortBy.cmp [GoOrdered R] (f : T → R) (a b : T) : Int :=
  let ra := f a
  let rb := f b
  if GoOrdered.lt ra rb then -1
  else if GoOrdered.lt rb ra then 1
  else 0

/-- Go `SortBy(s, f)`; the result is the content of `s` after the call. -/
def SortBy [GoOrdered R] (next : Nat → Nat) (s : List T) (f : T → R) : List T :=
  slices.SortFunc next s (SortBy.cmp f)

/-- Go `EntryKey(e)`. -/
def EntryKey (e : lo.Entry K V) : K := e.Key

/-- Go `EntriesSortedByKey(m)`. -/
def EntriesSortedByKey [GoOrdered K] (next : Nat → Nat) (m : GoMap K V) : List (lo.Entry K V) :=
  let entries := lo.Entries m
  SortBy next entries EntryKey

/-- Go `ValuesSortedByKey(m)`. -/
def ValuesSortedByKey [GoOrdered K] (next : Nat → Nat) (m : GoMap K V) : List V :=
  let sorted := EntriesSortedByKey next m
  lo.Map sorted (fun item _ => item.Value)

/-- Go `Less(a, b)`. -/
def Less [GoOrdered T] (a b : T) : Bool := GoOrdered.lt a b

/-- Go `KeysSorted(m)`. -/
def KeysSorted [GoOrdered K] (next : Nat → Nat) (m : GoMap K V) : List K :=
  let keys := lo.Keys m
  slices.SortOrdered next keys

end lox

/-! ## Dynamic types

A family `El : Ty → Type` lists the concrete (non-interface) Go types in play and their
values.  An interface value is nil or a value tagged with its dynamic type; the target of a
type switch is a concrete type or an interface type, given by the types implementing it. -/

/-- A value of an interface type such as `any`. -/
inductive GoAny {Ty : Type} (El : Ty → Type) where
  /-- The nil interface value: no dynamic type. -/
  | nil : GoAny El
  /-- A value `x` of dynamic type `t`. -/
  | val (t : Ty) (x : El t) : GoAny El

/-- The type argument of a type switch. -/
inductive GoTarget (Ty : Type) where
  /-- A concrete type. -/
  | concrete (t : Ty) : GoTarget Ty
  /-- An interface type; `implements t` tells whether the concrete type `t` implements it. -/
  | iface (implements : Ty → Bool) : GoTarget Ty

namespace GoTarget

variable {Ty : Type} {El : Ty → Type}

/-- The Go type denoted by a target: what a matching value is narrowed to. -/
def Narrowed (El : Ty → Type) : GoTarget Ty → Type
  | concrete t => El t
  | iface _ => GoAny El

/-- Zero value of the target type: nil for an interface type. -/
def zero [∀ t, GoZero (El t)] : (R : GoTarget Ty) → R.Narrowed El
  | concrete t => (GoZero.zero : El t)
  | iface _ => GoAny.nil

/-- The arm `case R:` of a type switch on `v`: the narrowed value when the arm is taken. -/
def typeCase [DecidableEq Ty] : (R : GoTarget Ty) → GoAny El → Option (R.Narrowed El)
  | _, GoAny.nil => none
  | concrete t, GoAny.val t' x => if h : t' = t then some (h ▸ x) else none
  | iface implements, GoAny.val t' x => if implements t' then some (GoAny.val t' x) else none

end GoTarget

namespace lox

variable {Ty : Type} {El : Ty → Type}

/-- Go `InstanceOf[T](v)`. -/
def InstanceOf [DecidableEq Ty] (T : GoTarget Ty) (v : GoAny El) : Bool :=
  match T.typeCase v with
  | some _ => true
  | none => false

/-- Go `FilterByType[R](elems)`, for `elems` of an interface element type; a slice of a
concrete element type is the case where every element carries that dynamic type. -/
def FilterByType [DecidableEq Ty] [∀ t, GoZero (El t)] (R : GoTarget Ty)
    (elems : List (GoAny El)) : List (R.Narrowed El) :=
  lo.FilterMap elems (fun item _ =>
    match R.typeCase item with
    | some item => (item, true)
    | none => (R.zero, false))

/-- Go `IfInstanceOfF[T, R](v, ifFunc, elseFunc)`. -/
def IfInstanceOfF [DecidableEq Ty] {R : Type} (T : GoTarget Ty) (v : GoAny El)
    (ifFunc : T.Narrowed El → R) (elseFunc : GoAny El → R) : R :=
  match T.typeCase v with
  | some v => ifFunc v
  | none => elseFunc v

end lox

/-! ## A small universe of basic types, for the examples -/

/-- Three basic Go types. -/
inductive BasicType where
  | int
  | string
  | float64
deriving DecidableEq, Repr

/-- Values of the basic types; a `float64` is represented by the rational it denotes. -/
def BasicType.El : BasicType → Type
  | BasicType.int => Int
  | BasicType.string => String
  | BasicType.float64 => Rat

instance : (t : BasicType) → GoZero (BasicType.El t)
  | BasicType.int => ⟨(0 : Int)⟩
  | BasicType.string => ⟨""⟩
  | BasicType.float64 => ⟨(0 : Rat)⟩

/-! ## Vocabulary for the correctness of the sort

The statements about a slice in the middle of a sort speak of slots rather than of
sublists; a slot past the end reads as the default `d`. -/

namespace slices

variable {E : Type} {R : Type}

/-- The slice `data[a:b]` is in ascending order of the key `f`. -/
def RangeSorted [LinearOrder R] (f : E → R) (d : E) (data : List E) (a b : Nat) : Prop :=
  ∀ i j, a ≤ i → i ≤ j → j < b → f (data.getD i d) ≤ f (data.getD j d)

/-- The slice `data'` has the length of `data`, agrees with it outside `[a, b)`, and each of
its elements inside `[a, b)` is an element of `data[a:b]`. -/
def Within (d : E) (a b : Nat) (data data' : List E) : Prop :=
  data'.length = data.length ∧
  (∀ k, k < a ∨ b ≤ k → data'.getD k d = data.getD k d) ∧
  (∀ k, a ≤ k → k < b → ∃ k', a ≤ k' ∧ k' < b ∧ data'.getD k d = data.getD k' d)

/-- Heap order on the nodes `lo ≤ p` of the implicit binary tree stored in
`data[first : first + hi]`: no child has a greater key than its parent. -/
def HeapFrom [LinearOrder R] (f : E → R) (d : E) (data : List E) (first lo hi : Nat) : Prop :=
  ∀ p c, lo ≤ p → (c = 2 * p + 1 ∨ c = 2 * p + 2) → c < hi →
    f (data.getD (first + c) d) ≤ f (data.getD (first + p) d)

end slices

/-! ## Vocabulary for ordered keys -/

namespace GoOrdered

variable {R : Type}

/-- The values of an ordered type other than NaN. -/
def Regular (R : Type) [GoOrdered R] : Type := {r : R // GoOrdered.isNaN r = false}

/-- On the values other than NaN the operator `<` is a linear order. -/
instance [GoOrdered R] : LinearOrder (Regular R) where
  le a b := lt b.1 a.1 = false
  lt a b := lt a.1 b.1 = true
  le_refl a := lt_irrefl a.1
  le_trans a b c hab hbc := by
    show lt c.1 a.1 = false
    have hab : lt b.1 a.1 = false := hab
    have hbc : lt c.1 b.1 = false := hbc
    cases h : lt c.1 a.1 with
    | false => rfl
    | true =>
      rcases lt_total a.1 b.1 a.2 b.2 with h1 | h1 | h1
      · have := lt_trans c.1 a.1 b.1 h h1
        rw [hbc] at this
        cases this
      · rw [← h1, h] at hbc
        cases hbc
      · rw [hab] at h1
        cases h1
  lt_iff_le_not_le a b := by
    show lt a.1 b.1 = true ↔ lt b.1 a.1 = false ∧ ¬ lt a.1 b.1 = false
    constructor
    · intro h
      refine ⟨?_, by rw [h]; simp⟩
      cases h' : lt b.1 a.1 with
      | false => rfl
      | true =>
        have := lt_trans a.1 b.1 a.1 h h'
        rw [lt_irrefl] at this
        cases this
    · rintro ⟨_, h⟩
      simpa using h
  le_antisymm a b hab hba := by
    have hab : lt b.1 a.1 = false := hab
    have hba : lt a.1 b.1 = false := hba
    rcases lt_total a.1 b.1 a.2 b.2 with h1 | h1 | h1
    · rw [hba] at h1
      cases h1
    · exact Subtype.ext h1
    · rw [hab] at h1
      cases h1
  le_total a b := by
    show lt b.1 a.1 = false ∨ lt a.1 b.1 = false
    cases h : lt b.1 a.1 with
    | false => exact Or.inl rfl
    | true =>
      refine Or.inr ?_
      cases h' : lt a.1 b.1 with
      | false => rfl
      | true =>
        have := lt_trans a.1 b.1 a.1 h' h
        rw [lt_irrefl] at this
        cases this
  decidableLE a b := inferInstanceAs (Decidable (lt b.1 a.1 = false))
  decidableLT a b := inferInstanceAs (Decidable (lt a.1 b.1 = true))
  decidableEq a b :=
    decidable_of_iff (lt a.1 b.1 = false ∧ lt b.1 a.1 = false) (by
      constructor
      · rintro ⟨h1, h2⟩
        rcases lt_total a.1 b.1 a.2 b.2 with h | h | h
        · rw [h1] at h
          cases h
        · exact Subtype.ext h
        · rw [h2] at h
          cases h
      · rintro rfl
        exact ⟨lt_irrefl _, lt_irrefl _⟩)

/-- The place of a value in the order of `cmpLess`: a NaN comes below every other value. -/
def rank [GoOrdered R] (x : R) : WithBot (Regular R) :=
  if h : isNaN x = false then WithBot.some ⟨x, h⟩ else ⊥

end GoOrdered

/-! ## Callbacks with effects

A Go callback may do more than return a value: it may panic, and each of its invocations
is an event.  The helpers that take callbacks are therefore also given for callbacks in a
monad `m`; the definitions above are the case of pure callbacks.  A callback that logs its
invocations makes the number and the order of the calls observable. -/

namespace lo

variable {T : Type} {m : Type → Type}

/-- Go `lo.TernaryF(condition, ifFunc, elseFunc)` for thunks with effects: only the selected
thunk runs. -/
def TernaryFM (condition : Bool) (ifFunc elseFunc : Unit → m T) : m T :=
  if condition then ifFunc () else elseFunc ()

end lo

namespace lox

variable {T : Type} {R : Type} {m : Type → Type}

/-- Go `IfOrEmptyF(condition, f)` for a thunk `f` with effects; the other thunk handed to
`lo.TernaryF` is `lo.Empty[T]`, which has none. -/
def IfOrEmptyFM [Monad m] [GoZero T] (condition : Bool) (f : Unit → m T) : m T :=
  lo.TernaryFM condition f (fun _ => pure (lo.Empty T))

/-- Go `Compose(f, g)` for functions with effects: in `f(g(v))` the argument `g(v)` is
evaluated before `f` is called. -/
def ComposeM [Monad m] {T1 : Type} {T2 : Type} (f : T2 → m R) (g : T1 → m T2) : T1 → m R :=
  fun v => do
    let w ← g v
    f w

/-- The callback `f` instrumented to append `tag` to a log each time it is invoked. -/
def logged {Tag : Type} {A : Type} {B : Type} (tag : Tag) (f : A → B) :
    A → StateM (List Tag) B :=
  fun x => do
    modify (fun log => log ++ [tag])
    pure (f x)

/-- A thunk that panics with the message `msg` when invoked. -/
def panicking (T : Type) (msg : String) : Unit → Except String T :=
  fun _ => Except.error msg

end lox

/-! # Theorems -/

/-! ## The traversal loops of `lo` -/

namespace lo

variable {T : Type} {R : Type} {K : Type} {V : Type}

theorem Filter_loop_ignoreIndex (p : T → Bool) (l : List T) (i : Int) (acc : List T) :
    Filter.loop (lox.IgnoreSecond p) l i acc = acc ++ l.filter p := by
  induction l generalizing i acc with
  | nil => simp [Filter.loop]
  | cons x rest ih =>
    rw [Filter.loop, ih]
    by_cases hx : p x = true <;> simp [lox.IgnoreSecond, hx]

theorem Map_loop_ignoreIndex (g : T → R) (l : List T) (i : Int) (acc : List R) :
    Map.loop (lox.IgnoreSecond g) l i acc = acc ++ l.map g := by
  induction l generalizing i acc with
  | nil => simp [Map.loop]
  | cons x rest ih =>
    rw [Map.loop, ih]
    simp [lox.IgnoreSecond]

theorem Map_loop_const (g : T → R) (l : List T) (i : Int) (acc : List R) :
    Map.loop (fun item _ => g item) l i acc = acc ++ l.map g :=
  Map_loop_ignoreIndex g l i acc

theorem FilterMap_loop_const (callback : T → Int → R × Bool) (g : T → Option R)
    (hnone : ∀ x i, g x = none → (callback x i).2 = false)
    (hsome : ∀ x i r, g x = some r → callback x i = (r, true))
    (l : List T) (i : Int) (acc : List R) :
    FilterMap.loop callback l i acc = acc ++ l.filterMap g := by
  induction l generalizing i acc with
  | nil => simp [FilterMap.loop]
  | cons x rest ih =>
    rw [FilterMap.loop, ih]
    cases hx : g x with
    | none => simp [List.filterMap_cons, hx, hnone x i hx]
    | some r => simp [List.filterMap_cons, hx, hsome x i r hx]

end lo

/-! ## Filters, sets and predicates of `lox` -/

namespace lox

variable {T : Type} {R : Type} {K : Type} {V : Type}

theorem FilterWithoutIndex_eq_filter (collection : List V) (predicate : V → Bool) :
    FilterWithoutIndex collection predicate = collection.filter predicate := by
  simp [FilterWithoutIndex, lo.Filter, lo.Filter_loop_ignoreIndex]

theorem MapWithoutIndex_eq_map (collection : List T) (iteratee : T → R) :
    MapWithoutIndex collection iteratee = collection.map iteratee := by
  simp [MapWithoutIndex, lo.Map, lo.Map_loop_ignoreIndex]

theorem OnlyEmptyBy_eq_filter [GoZero R] [DecidableEq R] (s : List T) (f : T → R) :
    OnlyEmptyBy s f = s.filter (fun e => decide (GoZero.zero = f e)) := by
  simp only [OnlyEmptyBy, FilterWithoutIndex_eq_filter]
  rfl

theorem WithoutEmptyBy_eq_filter [GoZero R] [DecidableEq R] (s : List T) (f : T → R) :
    WithoutEmptyBy s f = s.filter (fun e => !decide (GoZero.zero = f e)) := by
  simp only [WithoutEmptyBy, FilterWithoutIndex_eq_filter]
  rfl

/-- C1: `OnlyEmptyBy(s, f)` and `WithoutEmptyBy(s, f)` partition `s`: both are subsequences
of `s`, they are the two halves of one split of the occurrences of `s` by a predicate (so
every occurrence goes to exactly one of them, and an element of `s` belongs to exactly one
result), their concatenation is a permutation of `s`, and their lengths add up to
`len(s)`. -/
theorem OnlyEmptyBy_WithoutEmptyBy_partition [GoZero R] [DecidableEq R] [DecidableEq T]
    (s : List T) (f : T → R) :
    (OnlyEmptyBy s f).Sublist s ∧ (WithoutEmptyBy s f).Sublist s ∧
    (∃ p : T → Bool, OnlyEmptyBy s f = s.filter p ∧
        WithoutEmptyBy s f = s.filter (fun e => !p e)) ∧
    (∀ x, (OnlyEmptyBy s f).count x + (WithoutEmptyBy s f).count x = s.count x) ∧
    (∀ x ∈ s, (x ∈ OnlyEmptyBy s f ∧ x ∉ WithoutEmptyBy s f) ∨
        (x ∉ OnlyEmptyBy s f ∧ x ∈ WithoutEmptyBy s f)) ∧
    (OnlyEmptyBy s f ++ WithoutEmptyBy s f).Perm s ∧
    (OnlyEmptyBy s f).length + (WithoutEmptyBy s f).length = s.length := by
  have hperm : (OnlyEmptyBy s f ++ WithoutEmptyBy s f).Perm s := by
    rw [OnlyEmptyBy_eq_filter, WithoutEmptyBy_eq_filter]
    exact List.filter_append_perm _ s
  refine ⟨?_, ?_, ⟨fun e => decide (GoZero.zero = f e), OnlyEmptyBy_eq_filter s f,
    WithoutEmptyBy_eq_filter s f⟩, ?_, ?_, hperm, ?_⟩
  · rw [OnlyEmptyBy_eq_filter]; exact List.filter_sublist s
  · rw [WithoutEmptyBy_eq_filter]; exact List.filter_sublist s
  · intro x
    rw [← List.count_append]
    exact hperm.count_eq x
  · intro x hx
    rw [OnlyEmptyBy_eq_filter, WithoutEmptyBy_eq_filter]
    by_cases h : (GoZero.zero : R) = f x <;> simp [List.mem_filter, hx, h]
  · rw [← List.length_append]
    exact hperm.length_eq

end lox

/-! ## Type narrowing -/

namespace lox

variable {Ty : Type} {El : Ty → Type}

theorem FilterByType_eq_filterMap [DecidableEq Ty] [∀ t, GoZero (El t)] (R : GoTarget Ty)
    (elems : List (GoAny El)) :
    FilterByType R elems = elems.filterMap R.typeCase := by
  unfold FilterByType lo.FilterMap
  rw [lo.FilterMap_loop_const _ R.typeCase, List.nil_append]
  · intro x i hx
    simp [hx]
  · intro x i r hx
    simp [hx]

end lox

/-! ## `slices`: every step of the sort is a swap, so the sort permutes the slice -/

namespace slices

variable {E : Type} {R : Type}

theorem cons_set_perm (h y : E) (l : List E) (n : Nat) (hn : l[n]? = some y) :
    (y :: l.set n h).Perm (h :: l) := by
  induction l generalizing n with
  | nil => simp at hn
  | cons z t ih =>
    cases n with
    | zero =>
      simp only [List.getElem?_cons_zero, Option.some.injEq] at hn
      subst hn
      simp only [List.set_cons_zero]
      exact List.Perm.swap _ _ _
    | succ m =>
      simp only [List.getElem?_cons_succ] at hn
      simp only [List.set_cons_succ]
      exact (List.Perm.swap _ _ _).trans (((ih m hn).cons z).trans (List.Perm.swap _ _ _))

theorem swap_perm (data : List E) (i j : Nat) : (swap data i j).Perm data := by
  unfold swap
  induction data generalizing i j with
  | nil => simp
  | cons h t ih =>
    cases i with
    | zero =>
      cases j with
      | zero => simp
      | succ j' =>
        cases hj : t[j']? with
        | none => simp [hj]
        | some y =>
          simp only [List.getElem?_cons_zero, List.getElem?_cons_succ, hj, List.set_cons_zero,
            List.set_cons_succ]
          exact cons_set_perm h y t j' hj
    | succ i' =>
      cases j with
      | zero =>
        cases hi : t[i']? with
        | none => simp [hi]
        | some x =>
          simp only [List.getElem?_cons_zero, List.getElem?_cons_succ, hi, List.set_cons_zero,
            List.set_cons_succ]
          exact cons_set_perm h x t i' hi
      | succ j' =>
        have := ih i' j'
        cases hi : t[i']? with
        | none => simp [hi]
        | some x =>
          cases hj : t[j']? with
          | none => simp [hi, hj]
          | some y =>
            simp only [hi, hj] at this
            simp only [List.getElem?_cons_succ, hi, hj, List.set_cons_succ]
            exact this.cons h

theorem swap_length (data : List E) (i j : Nat) : (swap data i j).length = data.length :=
  (swap_perm data i j).length_eq

theorem insertionSort_inner_perm (less : E → E → Bool) (a j : Nat) (data : List E) :
    (insertionSort.inner less a j data).Perm data := by
  induction j generalizing data with
  | zero => simp [insertionSort.inner]
  | succ j ih =>
    rw [insertionSort.inner]
    split
    · exact (ih _).trans (swap_perm _ _ _)
    · exact List.Perm.refl _

theorem insertionSort_outer_perm (less : E → E → Bool) (a b fuel i : Nat) (data : List E) :
    (insertionSort.outer less a b fuel i data).Perm data := by
  induction fuel generalizing i data with
  | zero => simp [insertionSort.outer]
  | succ fuel ih =>
    rw [insertionSort.outer]
    split
    · exact (ih _ _).trans (insertionSort_inner_perm _ _ _ _)
    · exact List.Perm.refl _

theorem insertionSort_perm (less : E → E → Bool) (data : List E) (a b : Nat) :
    (insertionSort less data a b).Perm data :=
  insertionSort_outer_perm _ _ _ _ _ _

theorem siftDown_loop_perm (less : E → E → Bool) (hi first fuel root : Nat) (data : List E) :
    (siftDown.loop less hi first fuel root data).Perm data := by
  induction fuel generalizing root data with
  | zero => simp [siftDown.loop]
  | succ fuel ih =>
    rw [siftDown.loop]
    simp only
    repeat' split
    all_goals first
      | exact List.Perm.refl _
      | exact (ih _ _).trans (swap_perm _ _ _)

theorem siftDown_perm (less : E → E → Bool) (data : List E) (lo hi first : Nat) :
    (siftDown less data lo hi first).Perm data :=
  siftDown_loop_perm _ _ _ _ _ _

theorem heapSort_build_perm (less : E → E → Bool) (hi first i : Nat) (data : List E) :
    (heapSort.build less hi first i data).Perm data := by
  induction i generalizing data with
  | zero => exact siftDown_perm _ _ _ _ _
  | succ i ih =>
    rw [heapSort.build]
    exact (ih _).trans (siftDown_perm _ _ _ _ _)

theorem heapSort_pop_perm (less : E → E → Bool) (first i : Nat) (data : List E) :
    (heapSort.pop less first i data).Perm data := by
  induction i generalizing data with
  | zero => simp [heapSort.pop]
  | succ i ih =>
    rw [heapSort.pop]
    exact (ih _).trans ((siftDown_perm _ _ _ _ _).trans (swap_perm _ _ _))

theorem heapSort_perm (less : E → E → Bool) (data : List E) (a b : Nat) :
    (heapSort less data a b).Perm data :=
  (heapSort_pop_perm _ _ _ _).trans (heapSort_build_perm _ _ _ _ _)

theorem breakPatterns_loop_perm (next : Nat → Nat) (a length modulus idx rounds i random : Nat)
    (data : List E) :
    (breakPatterns.loop next a length modulus idx rounds i random data).Perm data := by
  induction rounds generalizing i random data with
  | zero => simp [breakPatterns.loop]
  | succ rounds ih =>
    rw [breakPatterns.loop]
    exact (ih _ _ _).trans (swap_perm _ _ _)

theorem breakPatterns_perm (next : Nat → Nat) (data : List E) (a b : Nat) :
    (breakPatterns next data a b).Perm data := by
  unfold breakPatterns
  simp only
  split
  · exact breakPatterns_loop_perm _ _ _ _ _ _ _ _ _
  · exact List.Perm.refl _

theorem reverseRange_loop_perm (fuel i j : Nat) (data : List E) :
    (reverseRange.loop fuel i j data).Perm data := by
  induction fuel generalizing i j data with
  | zero => simp [reverseRange.loop]
  | succ fuel ih =>
    rw [reverseRange.loop]
    split
    · exact (ih _ _ _).trans (swap_perm _ _ _)
    · exact List.Perm.refl _

theorem reverseRange_perm (data : List E) (a b : Nat) : (reverseRange data a b).Perm data :=
  reverseRange_loop_perm _ _ _ _

theorem partition_loop_perm (less : E → E → Bool) (a fuel i j : Nat) (data : List E) :
    (partition.loop less a fuel i j data).1.Perm data := by
  induction fuel generalizing i j data with
  | zero => exact List.Perm.refl _
  | succ fuel ih =>
    rw [partition.loop]
    split
    · exact List.Perm.refl _
    · exact (ih _ _ _).trans (swap_perm _ _ _)

theorem partition_perm (less : E → E → Bool) (data : List E) (a b pivot : Nat) :
    (partition less data a b pivot).1.Perm data := by
  unfold partition
  simp only
  split
  · exact (swap_perm _ _ _).trans (swap_perm _ _ _)
  · exact (swap_perm _ _ _).trans ((partition_loop_perm _ _ _ _ _ _).trans
      ((swap_perm _ _ _).trans (swap_perm _ _ _)))

theorem partitionEqual_loop_perm (less : E → E → Bool) (a fuel i j : Nat) (data : List E) :
    (partitionEqual.loop less a fuel i j data).1.Perm data := by
  induction fuel generalizing i j data with
  | zero => exact List.Perm.refl _
  | succ fuel ih =>
    rw [partitionEqual.loop]
    split
    · exact List.Perm.refl _
    · exact (ih _ _ _).trans (swap_perm _ _ _)

theorem partitionEqual_perm (less : E → E → Bool) (data : List E) (a b pivot : Nat) :
    (partitionEqual less data a b pivot).1.Perm data :=
  (partitionEqual_loop_perm _ _ _ _ _ _).trans (swap_perm _ _ _)

theorem shiftLeft_perm (less : E → E → Bool) (j : Nat) (data : List E) :
    (partialInsertionSort.shiftLeft less j data).Perm data := by
  induction j generalizing data with
  | zero => simp [partialInsertionSort.shiftLeft]
  | succ j ih =>
    rw [partialInsertionSort.shiftLeft]
    split
    · exact List.Perm.refl _
    · exact (ih _).trans (swap_perm _ _ _)

theorem shiftRight_perm (less : E → E → Bool) (b fuel j : Nat) (data : List E) :
    (partialInsertionSort.shiftRight less b fuel j data).Perm data := by
  induction fuel generalizing j data with
  | zero => simp [partialInsertionSort.shiftRight]
  | succ fuel ih =>
    rw [partialInsertionSort.shiftRight]
    split
    · split
      · exact List.Perm.refl _
      · exact (ih _ _).trans (swap_perm _ _ _)
    · exact List.Perm.refl _

theorem partialInsertionSort_loop_perm (less : E → E → Bool) (a b steps i : Nat)
    (data : List E) :
    (partialInsertionSort.loop less a b steps i data).1.Perm data := by
  induction steps generalizing i data with
  | zero => simp [partialInsertionSort.loop]
  | succ steps ih =>
    rw [partialInsertionSort.loop]
    simp only
    split
    · exact List.Perm.refl _
    · split
      · exact List.Perm.refl _
      · refine (ih _ _).trans ?_
        have h1 := swap_perm data
          (partialInsertionSort.scan less data b (b - i) i)
          (partialInsertionSort.scan less data b (b - i) i - 1)
        repeat' split
        all_goals first
          | exact (shiftRight_perm _ _ _ _ _).trans ((shiftLeft_perm _ _ _).trans h1)
          | exact (shiftLeft_perm _ _ _).trans h1
          | exact (shiftRight_perm _ _ _ _ _).trans h1
          | exact h1

theorem partialInsertionSort_perm (less : E → E → Bool) (data : List E) (a b : Nat) :
    (partialInsertionSort less data a b).1.Perm data :=
  partialInsertionSort_loop_perm _ _ _ _ _ _


theorem pdqsort_choose_perm (less : E → E → Bool) (next : Nat → Nat) (data : List E)
    (a b limit : Nat) (wasBalanced wasPartitioned : Bool) :
    (pdqsort.choose less next data a b limit wasBalanced wasPartitioned).1.Perm data := by
  unfold pdqsort.choose
  have h1 : (if ¬ wasBalanced = true then breakPatterns next data a b else data).Perm data := by
    split
    · exact breakPatterns_perm _ _ _ _
    · exact List.Perm.refl _
  generalize (if ¬ wasBalanced = true then breakPatterns next data a b else data) = d1 at h1 ⊢
  simp only
  generalize choosePivot less d1 a b = ph
  obtain ⟨pivot, hint⟩ := ph
  have h2 : (if hint = sortedHint.decreasingHint then reverseRange d1 a b else d1).Perm data := by
    split
    · exact (reverseRange_perm _ _ _).trans h1
    · exact h1
  generalize (if hint = sortedHint.decreasingHint then reverseRange d1 a b else d1) = d2 at h2 ⊢
  simp only
  repeat' split
  all_goals first
    | exact (partialInsertionSort_perm _ _ _ _).trans h2
    | exact h2

theorem pdqsort_perm (less : E → E → Bool) (next : Nat → Nat) (fuel : Nat) (data : List E)
    (a b limit : Nat) (wasBalanced wasPartitioned : Bool) :
    (pdqsort less next fuel data a b limit wasBalanced wasPartitioned).Perm data := by
  induction fuel generalizing data a b limit wasBalanced wasPartitioned with
  | zero => exact List.Perm.refl _
  | succ fuel ih =>
    rw [pdqsort]
    simp only
    split
    · exact insertionSort_perm _ _ _ _
    · split
      · exact heapSort_perm _ _ _ _
      · have hc := pdqsort_choose_perm less next data a b limit wasBalanced wasPartitioned
        generalize pdqsort.choose less next data a b limit wasBalanced wasPartitioned = r at hc ⊢
        obtain ⟨d1, pivot, limit1, sorted⟩ := r
        simp only at hc ⊢
        split
        · exact hc
        · split
          · have hp := partitionEqual_perm less d1 a b pivot
            generalize partitionEqual less d1 a b pivot = r at hp ⊢
            obtain ⟨d2, mid⟩ := r
            exact (ih _ _ _ _ _ _).trans (hp.trans hc)
          · have hp := partition_perm less d1 a b pivot
            generalize partition less d1 a b pivot = r at hp ⊢
            obtain ⟨d2, mid, ap⟩ := r
            simp only at hp ⊢
            split
            · exact (ih _ _ _ _ _ _).trans ((ih _ _ _ _ _ _).trans (hp.trans hc))
            · exact (ih _ _ _ _ _ _).trans ((ih _ _ _ _ _ _).trans (hp.trans hc))

theorem SortFunc_perm (next : Nat → Nat) (x : List E) (cmp : E → E → Int) :
    (SortFunc next x cmp).Perm x :=
  pdqsort_perm _ _ _ _ _ _ _ _ _

theorem SortOrdered_perm [GoOrdered E] (next : Nat → Nat) (x : List E) :
    (SortOrdered next x).Perm x :=
  pdqsort_perm _ _ _ _ _ _ _ _ _

end slices

namespace lox

variable {T : Type} {R : Type}

/-- C4: `SortBy(s, f)` only reorders `s`: the slice after the call is a permutation of
the slice before it, so it has the same length and holds every element as often as
before. -/
theorem SortBy_perm [GoOrdered R] (next : Nat → Nat) (s : List T) (f : T → R) :
    (SortBy next s f).Perm s ∧ (SortBy next s f).length = s.length ∧
    (∀ x, x ∈ SortBy next s f ↔ x ∈ s) ∧
    (∀ p : T → Bool, (SortBy next s f).countP p = s.countP p) := by
  have h : (SortBy next s f).Perm s := slices.SortFunc_perm next s (SortBy.cmp f)
  exact ⟨h, h.length_eq, fun x => h.mem_iff, fun p => h.countP_eq p⟩

end lox

/-! ## Stability: insertion sort keeps equal keys in order, the quicksort partition does not -/
namespace slices
variable {E : Type}

theorem swap_cons_succ (h : E) (t : List E) (i j : Nat) :
    swap (h :: t) (i + 1) (j + 1) = h :: swap t i j := by
  unfold swap
  simp only [List.getElem?_cons_succ]
  cases t[i]? <;> cases t[j]? <;> simp

theorem swap_adjacent_filter (p : E → Bool) (data : List E) (j : Nat)
    (hnot : ∀ x y, data[j]? = some x → data[j + 1]? = some y → ¬ (p x = true ∧ p y = true)) :
    (swap data (j + 1) j).filter p = data.filter p := by
  induction data generalizing j with
  | nil => simp [swap]
  | cons h t ih =>
    cases j with
    | zero =>
      cases t with
      | nil => simp [swap]
      | cons y r =>
        have := hnot h y (by simp) (by simp)
        cases hh : p h <;> cases hy : p y <;> simp_all [swap, List.filter_cons]
    | succ j' =>
      rw [swap_cons_succ, List.filter_cons, List.filter_cons, ih j']
      intro x y hx hy
      exact hnot x y (by simpa using hx) (by simpa using hy)

theorem lessAt_eq_true (less : E → E → Bool) (data : List E) (i j : Nat)
    (h : lessAt less data i j = true) :
    ∃ x y, data[i]? = some x ∧ data[j]? = some y ∧ less x y = true := by
  unfold lessAt at h
  cases hi : data[i]? with
  | none => simp [hi] at h
  | some x =>
    cases hj : data[j]? with
    | none => simp [hi, hj] at h
    | some y => exact ⟨x, y, rfl, rfl, by simpa [hi, hj] using h⟩

theorem insertionSort_inner_filter (less : E → E → Bool) (p : E → Bool)
    (hp : ∀ x y, less x y = true → ¬ (p x = true ∧ p y = true))
    (a j : Nat) (data : List E) :
    (insertionSort.inner less a j data).filter p = data.filter p := by
  induction j generalizing data with
  | zero => simp [insertionSort.inner]
  | succ j ih =>
    rw [insertionSort.inner]
    split
    · rename_i h
      rw [ih, swap_adjacent_filter]
      intro x y hx hy hxy
      obtain ⟨x', y', hx', hy', hl⟩ := lessAt_eq_true less data (j + 1) j h.2
      rw [hx] at hy'
      rw [hy] at hx'
      cases hx'; cases hy'
      exact hp y x hl ⟨hxy.2, hxy.1⟩
    · rfl

theorem insertionSort_outer_filter (less : E → E → Bool) (p : E → Bool)
    (hp : ∀ x y, less x y = true → ¬ (p x = true ∧ p y = true))
    (a b fuel i : Nat) (data : List E) :
    (insertionSort.outer less a b fuel i data).filter p = data.filter p := by
  induction fuel generalizing i data with
  | zero => simp [insertionSort.outer]
  | succ fuel ih =>
    rw [insertionSort.outer]
    split
    · rw [ih, insertionSort_inner_filter less p hp]
    · rfl

theorem pdqsort_small (less : E → E → Bool) (next : Nat → Nat) (fuel : Nat) (data : List E)
    (a b limit : Nat) (wasBalanced wasPartitioned : Bool) (h : b - a ≤ 12) :
    pdqsort less next (fuel + 1) data a b limit wasBalanced wasPartitioned =
      insertionSort less data a b := by
  rw [pdqsort]
  simp [h]


theorem pdqsort_choose_unknown (less : E → E → Bool) (next : Nat → Nat) (data : List E)
    (a b limit : Nat) (wasPartitioned : Bool) (pivot : Nat)
    (hcp : choosePivot less data a b = (pivot, sortedHint.unknownHint)) :
    pdqsort.choose less next data a b limit true wasPartitioned = (data, pivot, limit, false) := by
  unfold pdqsort.choose
  simp [hcp]

theorem pdqsort_round_partition (less : E → E → Bool) (next : Nat → Nat) (fuel : Nat)
    (data : List E) (a b limit : Nat) (wasBalanced wasPartitioned : Bool)
    (d1 : List E) (pivot limit1 : Nat) (d2 : List E) (mid : Nat) (ap : Bool)
    (hlen : ¬ b - a ≤ 12) (hlim : limit ≠ 0)
    (hc : pdqsort.choose less next data a b limit wasBalanced wasPartitioned =
      (d1, pivot, limit1, false))
    (hpe : ¬ (0 < a ∧ ¬ lessAt less d1 (a - 1) pivot = true))
    (hp : partition less d1 a b pivot = (d2, mid, ap))
    (hlr : ¬ mid - a < b - mid) :
    pdqsort less next (fuel + 1) data a b limit wasBalanced wasPartitioned =
      pdqsort less next fuel (pdqsort less next fuel d2 (mid + 1) b limit1 true true) a mid
        limit1 (decide (b - mid ≥ (b - a) / 8)) ap := by
  rw [pdqsort]
  simp only [hlen, hlim, hc, hp, hpe, hlr, ↓reduceIte, Bool.false_eq_true]

end slices

namespace lox
variable {T R : Type}

theorem SortBy_cmp_neg_iff [GoOrdered R] (f : T → R) (a b : T) :
    SortBy.cmp f a b < 0 ↔ GoOrdered.lt (f a) (f b) = true := by
  unfold SortBy.cmp
  simp only
  split
  · simp [*]
  · split <;> simp [*]

/-- C5 (amended): for every key `k`, the elements of key `k` are after `SortBy(s, f)` the
elements of key `k` of `s` in some order; when `s` has at most twelve elements, the
insertion-sort range of `slices.SortFunc`, they are in the order they had before the call
(on such slices `SortBy` is stable). -/
theorem SortBy_stable_of_length_le [GoOrdered R] [DecidableEq R] (next : Nat → Nat)
    (s : List T) (f : T → R) (k : R) :
    ((SortBy next s f).filter (fun x => decide (f x = k))).Perm
      (s.filter (fun x => decide (f x = k))) ∧
    (s.length ≤ 12 →
      (SortBy next s f).filter (fun x => decide (f x = k)) =
        s.filter (fun x => decide (f x = k))) := by
  refine ⟨(slices.SortFunc_perm next s (SortBy.cmp f)).filter _, fun hlen => ?_⟩
  unfold SortBy slices.SortFunc
  simp only
  rw [slices.pdqsort_small _ _ _ _ _ _ _ _ _ (by omega)]
  apply slices.insertionSort_outer_filter
  intro x y hxy hk
  simp only [decide_eq_true_eq] at hxy hk
  rw [SortBy_cmp_neg_iff] at hxy
  rw [hk.1, hk.2, GoOrdered.lt_irrefl] at hxy
  cases hxy

theorem SortBy_stable_of_length_le_witness :
    ([((1 : Nat), "a"), (0, "b"), (1, "c")] : List (Nat × String)).length ≤ 12 ∧
    (SortBy id [((1 : Nat), "a"), (0, "b"), (1, "c")] Prod.fst).filter
        (fun x => decide (x.1 = 1)) = [(1, "a"), (1, "c")] :=
  ⟨by decide, (SortBy_stable_of_length_le id [((1 : Nat), "a"), (0, "b"), (1, "c")] Prod.fst
    1).2 (by decide)⟩

end lox

namespace lox
open slices

theorem unstable_choosePivot :
    choosePivot (fun a b : Nat × String => decide (SortBy.cmp Prod.fst a b < 0))
      [(0, "a"), (1, "b"), (0, "c"), (1, "d"), (0, "e"), (1, "f"), (0, "g"), (1, "h"), (0,
        "i"), (1, "j"), (0, "k"), (1, "l"), (0, "m")] 0 13 = (3, sortedHint.unknownHint) := by
  decide!

theorem unstable_partition :
    partition (fun a b : Nat × String => decide (SortBy.cmp Prod.fst a b < 0))
      [(0, "a"), (1, "b"), (0, "c"), (1, "d"), (0, "e"), (1, "f"), (0, "g"), (1, "h"), (0,
        "i"), (1, "j"), (0, "k"), (1, "l"), (0, "m")] 0 13 3 =
      ([(0, "i"), (0, "m"), (0, "c"), (0, "a"), (0, "e"), (0, "k"), (0, "g"), (1, "d"), (1,
        "h"), (1, "j"), (1, "f"), (1, "l"), (1, "b")], 7, false) := by
  decide!

theorem unstable_insertionSort_right :
    insertionSort (fun a b : Nat × String => decide (SortBy.cmp Prod.fst a b < 0))
      [(0, "i"), (0, "m"), (0, "c"), (0, "a"), (0, "e"), (0, "k"), (0, "g"), (1, "d"), (1,
        "h"), (1, "j"), (1, "f"), (1, "l"), (1, "b")] (7 + 1) 13 =
      [(0, "i"), (0, "m"), (0, "c"), (0, "a"), (0, "e"), (0, "k"), (0, "g"), (1, "d"), (1,
        "h"), (1, "j"), (1, "f"), (1, "l"), (1, "b")] := by
  decide!

theorem unstable_insertionSort_left :
    insertionSort (fun a b : Nat × String => decide (SortBy.cmp Prod.fst a b < 0))
      [(0, "i"), (0, "m"), (0, "c"), (0, "a"), (0, "e"), (0, "k"), (0, "g"), (1, "d"), (1,
        "h"), (1, "j"), (1, "f"), (1, "l"), (1, "b")] 0 7 =
      [(0, "i"), (0, "m"), (0, "c"), (0, "a"), (0, "e"), (0, "k"), (0, "g"), (1, "d"), (1,
        "h"), (1, "j"), (1, "f"), (1, "l"), (1, "b")] := by
  decide!

theorem SortBy_unstable_run (next : Nat → Nat) :
    SortBy next
      [((0 : Nat), "a"), (1, "b"), (0, "c"), (1, "d"), (0, "e"), (1, "f"), (0, "g"), (1, "h"),
        (0, "i"), (1, "j"), (0, "k"), (1, "l"), (0, "m")] Prod.fst =
      [(0, "i"), (0, "m"), (0, "c"), (0, "a"), (0, "e"), (0, "k"), (0, "g"), (1, "d"), (1,
        "h"), (1, "j"), (1, "f"), (1, "l"), (1, "b")] := by
  have h1 := pdqsort_choose_unknown (fun a b : Nat × String => decide (SortBy.cmp Prod.fst a b < 0)) next
    [(0, "a"), (1, "b"), (0, "c"), (1, "d"), (0, "e"), (1, "f"), (0, "g"), (1, "h"), (0,
        "i"), (1, "j"), (0, "k"), (1, "l"), (0, "m")] 0 13 4 true 3 unstable_choosePivot
  have h2 := pdqsort_round_partition (fun a b : Nat × String => decide (SortBy.cmp Prod.fst a b < 0)) next 13
    [(0, "a"), (1, "b"), (0, "c"), (1, "d"), (0, "e"), (1, "f"), (0, "g"), (1, "h"), (0,
        "i"), (1, "j"), (0, "k"), (1, "l"), (0, "m")] 0 13 4 true true
    [(0, "a"), (1, "b"), (0, "c"), (1, "d"), (0, "e"), (1, "f"), (0, "g"), (1, "h"), (0,
        "i"), (1, "j"), (0, "k"), (1, "l"), (0, "m")] 3 4
    [(0, "i"), (0, "m"), (0, "c"), (0, "a"), (0, "e"), (0, "k"), (0, "g"), (1, "d"), (1,
        "h"), (1, "j"), (1, "f"), (1, "l"), (1, "b")] 7 false
    (by decide) (by decide) h1 (fun h => absurd h.1 (by decide)) unstable_partition (by decide)
  rw [pdqsort_small _ _ 12 _ (7 + 1) 13 _ _ _ (by decide), unstable_insertionSort_right,
    pdqsort_small _ _ 12 _ 0 7 _ _ _ (by decide), unstable_insertionSort_left] at h2
  exact h2

/-- C5 (counterexample): on thirteen elements with keys 0 and 1 alternating, `SortBy`
returns the elements of key 0 in the order i, m, c, a, e, k, g instead of
a, c, e, g, i, k, m, whatever the pseudo-random step `next`: the first quicksort
partition moves equal keys across each other. -/
theorem SortBy_not_stable :
    (∀ next : Nat → Nat,
      SortBy next
        [((0 : Nat), "a"), (1, "b"), (0, "c"), (1, "d"), (0, "e"), (1, "f"), (0, "g"), (1, "h"),
        (0, "i"), (1, "j"), (0, "k"), (1, "l"), (0, "m")]
        Prod.fst =
        [(0, "i"), (0, "m"), (0, "c"), (0, "a"), (0, "e"), (0, "k"), (0, "g"), (1, "d"), (1,
        "h"), (1, "j"), (1, "f"), (1, "l"), (1, "b")]) ∧
    (∀ next : Nat → Nat,
      (SortBy next
        [((0 : Nat), "a"), (1, "b"), (0, "c"), (1, "d"), (0, "e"), (1, "f"), (0, "g"), (1, "h"),
        (0, "i"), (1, "j"), (0, "k"), (1, "l"), (0, "m")]
        Prod.fst).filter (fun x => decide (x.1 = 0)) ≠
      ([((0 : Nat), "a"), (1, "b"), (0, "c"), (1, "d"), (0, "e"), (1, "f"), (0, "g"), (1, "h"),
        (0, "i"), (1, "j"), (0, "k"), (1, "l"), (0, "m")]
        : List (Nat × String)).filter (fun x => decide (x.1 = 0))) := by
  refine ⟨SortBy_unstable_run, fun next => ?_⟩
  rw [SortBy_unstable_run next]
  decide

end lox

/-! ## Correctness of the sort: every slot stays in its range, the range ends up ascending

The comparison `less` is assumed to be `f x < f y` for a key `f` into a linear order.  The
comparison `cmpLess` of `slices.Sort` is of this kind on every ordered type; the closure
built by `SortBy` is of this kind on the elements whose key is not NaN. -/

/-! ## Slots of a slice under `swap` -/

namespace slices

variable {E : Type} {R : Type}

theorem swap_getD (d : E) (data : List E) (i j k : Nat) (hi : i < data.length)
    (hj : j < data.length) :
    (swap data i j).getD k d =
      if k = j then data.getD i d else if k = i then data.getD j d else data.getD k d := by
  unfold swap
  rw [List.getElem?_eq_getElem hi, List.getElem?_eq_getElem hj]
  simp only [List.getD_eq_getElem?_getD, List.getElem?_set, List.length_set]
  by_cases hkj : k = j
  · subst hkj
    simp [hi, hj]
  · by_cases hki : k = i
    · subst hki
      simp [hi, hj, hkj, Ne.symm hkj]
    · simp [hkj, hki, Ne.symm hkj, Ne.symm hki]

theorem lessAt_iff [LinearOrder R] (less : E → E → Bool) (f : E → R)
    (hless : ∀ x y, less x y = decide (f x < f y)) (d : E) (data : List E) (i j : Nat)
    (hi : i < data.length) (hj : j < data.length) :
    lessAt less data i j = true ↔ f (data.getD i d) < f (data.getD j d) := by
  unfold lessAt
  rw [List.getElem?_eq_getElem hi, List.getElem?_eq_getElem hj]
  simp [hless, List.getD_eq_getElem, hi, hj]

theorem Within_refl (d : E) (a b : Nat) (data : List E) : Within d a b data data :=
  ⟨rfl, fun _ _ => rfl, fun k hk hk' => ⟨k, hk, hk', rfl⟩⟩

theorem Within_trans (d : E) (a b : Nat) (data data' data'' : List E)
    (h : Within d a b data data') (h' : Within d a b data' data'') :
    Within d a b data data'' := by
  obtain ⟨h1, h2, h3⟩ := h
  obtain ⟨h1', h2', h3'⟩ := h'
  refine ⟨h1'.trans h1, fun k hk => (h2' k hk).trans (h2 k hk), fun k hk hk' => ?_⟩
  obtain ⟨k', hk1, hk2, e⟩ := h3' k hk hk'
  obtain ⟨k'', hk3, hk4, e'⟩ := h3 k' hk1 hk2
  exact ⟨k'', hk3, hk4, e.trans e'⟩

theorem Within_mono (d : E) (a b a' b' : Nat) (data data' : List E)
    (h : Within d a b data data') (ha : a' ≤ a) (hb : b ≤ b') :
    Within d a' b' data data' := by
  obtain ⟨h1, h2, h3⟩ := h
  refine ⟨h1, fun k hk => h2 k (by omega), fun k hk hk' => ?_⟩
  by_cases hin : a ≤ k ∧ k < b
  · obtain ⟨k', hk1, hk2, e⟩ := h3 k hin.1 hin.2
    exact ⟨k', by omega, by omega, e⟩
  · exact ⟨k, hk, hk', h2 k (by omega)⟩

theorem Within_swap (d : E) (a b : Nat) (data : List E) (i j : Nat)
    (hi : a ≤ i) (hi' : i < b) (hj : a ≤ j) (hj' : j < b) (hb : b ≤ data.length) :
    Within d a b data (swap data i j) := by
  have hil : i < data.length := by omega
  have hjl : j < data.length := by omega
  refine ⟨swap_length _ _ _, fun k hk => ?_, fun k hk hk' => ?_⟩
  · rw [swap_getD d data i j k hil hjl, if_neg (by omega), if_neg (by omega)]
  · rw [swap_getD d data i j k hil hjl]
    by_cases hkj : k = j
    · exact ⟨i, hi, hi', by rw [if_pos hkj]⟩
    · by_cases hki : k = i
      · exact ⟨j, hj, hj', by rw [if_neg hkj, if_pos hki]⟩
      · exact ⟨k, hk, hk', by rw [if_neg hkj, if_neg hki]⟩

theorem Within_all (d : E) (a b : Nat) (data data' : List E) (h : Within d a b data data')
    (P : E → Prop) (hP : ∀ k, a ≤ k → k < b → P (data.getD k d)) :
    ∀ k, a ≤ k → k < b → P (data'.getD k d) := by
  intro k hk hk'
  obtain ⟨k', hk1, hk2, e⟩ := h.2.2 k hk hk'
  rw [e]
  exact hP k' hk1 hk2

theorem Within_outside (d : E) (a b : Nat) (data data' : List E) (h : Within d a b data data')
    (k : Nat) (hk : k < a ∨ b ≤ k) : data'.getD k d = data.getD k d :=
  h.2.1 k hk

theorem Within_length (d : E) (a b : Nat) (data data' : List E) (h : Within d a b data data') :
    data'.length = data.length :=
  h.1


/-! ## Insertion sort -/

theorem insertionSort_inner_spec [LinearOrder R] (less : E → E → Bool) (f : E → R)
    (hless : ∀ x y, less x y = decide (f x < f y)) (d : E) (a i : Nat) (j : Nat)
    (data : List E) (haj : a ≤ j) (hji : j ≤ i) (hi : i < data.length)
    (S1 : ∀ p q, a ≤ p → p ≤ q → q < j → f (data.getD p d) ≤ f (data.getD q d))
    (S2 : ∀ p q, j ≤ p → p ≤ q → q ≤ i → f (data.getD p d) ≤ f (data.getD q d))
    (S3 : ∀ p q, a ≤ p → p < j → j < q → q ≤ i → f (data.getD p d) ≤ f (data.getD q d)) :
    Within d a (i + 1) data (insertionSort.inner less a j data) ∧
      RangeSorted f d (insertionSort.inner less a j data) a (i + 1) := by
  induction j generalizing data with
  | zero =>
    refine ⟨Within_refl _ _ _ _, ?_⟩
    intro p q hp hpq hq
    exact S2 p q (by omega) hpq (by omega)
  | succ j ih =>
    rw [insertionSort.inner]
    split
    · rename_i hc
      have hlt : f (data.getD (j + 1) d) < f (data.getD j d) :=
        (lessAt_iff less f hless d data (j + 1) j (by omega) (by omega)).1 hc.2
      have hsw := swap_getD d data (j + 1) j
      have hl : (swap data (j + 1) j).length = data.length := swap_length _ _ _
      have hj1 : j + 1 < data.length := by omega
      have hj0 : j < data.length := by omega
      obtain ⟨hw, hs⟩ := ih (swap data (j + 1) j) (by omega) (by omega) (by omega)
        (by
          intro p q hp hpq hq
          rw [hsw p hj1 hj0, hsw q hj1 hj0]
          split_ifs <;> first
            | (exfalso; omega)
            | exact S1 _ _ (by omega) (by omega) (by omega))
        (by
          intro p q hp hpq hq
          rw [hsw p hj1 hj0, hsw q hj1 hj0]
          split_ifs <;> first
            | (exfalso; omega)
            | exact le_refl _
            | exact le_of_lt hlt
            | exact S2 _ _ (by omega) (by omega) (by omega)
            | exact S3 _ _ (by omega) (by omega) (by omega) (by omega))
        (by
          intro p q hp hpj hjq hq
          rw [hsw p hj1 hj0, hsw q hj1 hj0]
          split_ifs <;> first
            | (exfalso; omega)
            | exact S1 _ _ (by omega) (by omega) (by omega)
            | exact S3 _ _ (by omega) (by omega) (by omega) (by omega))
      exact ⟨Within_trans d a (i + 1) _ _ _
        (Within_swap d a (i + 1) data (j + 1) j (by omega) (by omega) (by omega) (by omega)
          (by omega)) hw, hs⟩
    · rename_i hc
      refine ⟨Within_refl _ _ _ _, ?_⟩
      intro p q hp hpq hq
      by_cases h1 : q < j + 1
      · exact S1 p q hp hpq h1
      · by_cases h2 : j + 1 ≤ p
        · exact S2 p q h2 hpq (by omega)
        · have hle : f (data.getD j d) ≤ f (data.getD (j + 1) d) := by
            have : ¬ lessAt less data (j + 1) j = true := fun h => hc ⟨by omega, h⟩
            rw [lessAt_iff less f hless d data (j + 1) j (by omega) (by omega)] at this
            exact not_lt.1 this
          exact (S1 p j hp (by omega) (by omega)).trans
            (hle.trans (S2 (j + 1) q (by omega) (by omega) (by omega)))

theorem insertionSort_outer_spec [LinearOrder R] (less : E → E → Bool) (f : E → R)
    (hless : ∀ x y, less x y = decide (f x < f y)) (d : E) (a b fuel i : Nat)
    (data : List E) (hai : a < i) (hib : i ≤ b) (hb : b ≤ data.length) (hfuel : b ≤ fuel + i)
    (hs : RangeSorted f d data a i) :
    Within d a b data (insertionSort.outer less a b fuel i data) ∧
      RangeSorted f d (insertionSort.outer less a b fuel i data) a b := by
  induction fuel generalizing i data with
  | zero =>
    have : i = b := by omega
    subst this
    exact ⟨Within_refl _ _ _ _, hs⟩
  | succ fuel ih =>
    rw [insertionSort.outer]
    split
    · rename_i hlt
      obtain ⟨hw, hs'⟩ := insertionSort_inner_spec less f hless d a i i data (by omega)
        (le_refl _) (by omega) (fun p q hp hpq hq => hs p q hp hpq hq)
        (fun p q hp hpq hq => by
          have : p = q := by omega
          rw [this])
        (fun p q _ _ hq hq' => by omega)
      have hl := Within_length d _ _ _ _ hw
      obtain ⟨hw2, hs2⟩ := ih (i + 1) (insertionSort.inner less a i data) (by omega) (by omega)
        (by omega) (by omega) hs'
      exact ⟨Within_trans d a b _ _ _ (Within_mono d a (i + 1) a b _ _ hw (le_refl _) (by omega))
        hw2, hs2⟩
    · have : i = b := by omega
      subst this
      exact ⟨Within_refl _ _ _ _, hs⟩

theorem insertionSort_spec [LinearOrder R] (less : E → E → Bool) (f : E → R)
    (hless : ∀ x y, less x y = decide (f x < f y)) (d : E) (a b : Nat) (data : List E)
    (hab : a ≤ b) (hb : b ≤ data.length) :
    Within d a b data (insertionSort less data a b) ∧
      RangeSorted f d (insertionSort less data a b) a b := by
  unfold insertionSort
  by_cases h : a = b
  · subst h
    simp only [Nat.sub_self, insertionSort.outer]
    exact ⟨Within_refl _ _ _ _, fun p q hp hpq hq => by omega⟩
  · exact insertionSort_outer_spec less f hless d a b (b - a) (a + 1) data (by omega) (by omega)
      hb (by omega) (fun p q hp hpq hq => by
        have : p = q := by omega
        rw [this])


/-! ## Partition around a pivot -/

theorem partition_up_spec [LinearOrder R] (less : E → E → Bool) (f : E → R)
    (hless : ∀ x y, less x y = decide (f x < f y)) (d : E) (data : List E) (a j fuel i : Nat)
    (ha : a < data.length) (hj : j < data.length) (hfuel : j + 1 ≤ fuel + i) :
    i ≤ partition.up less data a j fuel i ∧
    (i ≤ j + 1 → partition.up less data a j fuel i ≤ j + 1) ∧
    (∀ k, i ≤ k → k < partition.up less data a j fuel i →
      f (data.getD k d) < f (data.getD a d)) ∧
    (partition.up less data a j fuel i ≤ j →
      f (data.getD a d) ≤ f (data.getD (partition.up less data a j fuel i) d)) := by
  induction fuel generalizing i with
  | zero =>
    simp only [partition.up]
    exact ⟨le_refl _, fun h => h, fun k h1 h2 => by omega, fun h => by omega⟩
  | succ fuel ih =>
    rw [partition.up]
    split
    · rename_i hc
      obtain ⟨h1, h2, h3, h4⟩ := ih (i + 1) (by omega)
      refine ⟨by omega, fun _ => h2 (by omega), fun k hk hk' => ?_, h4⟩
      by_cases hki : k = i
      · subst hki
        exact (lessAt_iff less f hless d data k a (by omega) ha).1 hc.2
      · exact h3 k (by omega) hk'
    · rename_i hc
      refine ⟨le_refl _, fun h => h, fun k h1 h2 => by omega, fun h => ?_⟩
      have : ¬ lessAt less data i a = true := fun h' => hc ⟨h, h'⟩
      rw [lessAt_iff less f hless d data i a (by omega) ha] at this
      exact not_lt.1 this

theorem partition_down_spec [LinearOrder R] (less : E → E → Bool) (f : E → R)
    (hless : ∀ x y, less x y = decide (f x < f y)) (d : E) (data : List E) (a i j : Nat)
    (ha : a < data.length) (hj : j < data.length) (hi : 1 ≤ i) :
    partition.down less data a i j ≤ j ∧
    (i ≤ j + 1 → i ≤ partition.down less data a i j + 1) ∧
    (∀ k, partition.down less data a i j < k → k ≤ j →
      f (data.getD a d) ≤ f (data.getD k d)) ∧
    (i ≤ partition.down less data a i j →
      f (data.getD (partition.down less data a i j) d) < f (data.getD a d)) := by
  induction j with
  | zero =>
    simp only [partition.down]
    exact ⟨le_refl _, fun h => h, fun k h1 h2 => by omega, fun h => by omega⟩
  | succ j ih =>
    rw [partition.down]
    split
    · rename_i hc
      obtain ⟨h1, h2, h3, h4⟩ := ih (by omega)
      refine ⟨by omega, fun _ => ?_, fun k hk hk' => ?_, h4⟩
      · by_cases hij : i ≤ j
        · exact h2 (by omega)
        · omega
      · by_cases hkj : k = j + 1
        · subst hkj
          have := hc.2
          rw [lessAt_iff less f hless d data (j + 1) a hj ha] at this
          exact not_lt.1 this
        · exact h3 k hk (by omega)
    · rename_i hc
      refine ⟨le_refl _, fun h => h, fun k h1 h2 => by omega, fun h => ?_⟩
      have : ¬ ¬ lessAt less data (j + 1) a = true := fun h' => hc ⟨h, h'⟩
      rw [lessAt_iff less f hless d data (j + 1) a hj ha] at this
      exact not_not.1 this

theorem partition_loop_spec [LinearOrder R] (less : E → E → Bool) (f : E → R)
    (hless : ∀ x y, less x y = decide (f x < f y)) (d : E) (a b fuel i j : Nat)
    (data : List E) (hb : b ≤ data.length) (hai : a + 1 ≤ i) (hjb : j < b) (hij : i ≤ j + 1)
    (hfuel : j + 2 ≤ fuel + i)
    (L : ∀ k, a + 1 ≤ k → k < i → f (data.getD k d) < f (data.getD a d))
    (U : ∀ k, j < k → k < b → f (data.getD a d) ≤ f (data.getD k d)) :
    Within d (a + 1) b data (partition.loop less a fuel i j data).1 ∧
    a ≤ (partition.loop less a fuel i j data).2 ∧
    (partition.loop less a fuel i j data).2 < b ∧
    (∀ k, a + 1 ≤ k → k ≤ (partition.loop less a fuel i j data).2 →
      f ((partition.loop less a fuel i j data).1.getD k d) < f (data.getD a d)) ∧
    (∀ k, (partition.loop less a fuel i j data).2 < k → k < b →
      f (data.getD a d) ≤ f ((partition.loop less a fuel i j data).1.getD k d)) := by
  induction fuel generalizing i j data with
  | zero => omega
  | succ fuel ih =>
    rw [partition.loop]
    obtain ⟨u1, u2, u3, u4⟩ := partition_up_spec less f hless d data a j (j + 1 - i) i
      (by omega) (by omega) (by omega)
    generalize partition.up less data a j (j + 1 - i) i = i' at u1 u2 u3 u4 ⊢
    obtain ⟨d1, d2, d3, d4⟩ := partition_down_spec less f hless d data a i' j
      (by omega) (by omega) (by omega)
    generalize partition.down less data a i' j = j' at d1 d2 d3 d4 ⊢
    have u2' := u2 hij
    have d2' := d2 u2'
    split
    · rename_i hc
      refine ⟨Within_refl _ _ _ _, by omega, by omega, fun k hk hk' => ?_, fun k hk hk' => ?_⟩
      · by_cases hki : k < i
        · exact L k hk hki
        · exact u3 k (by omega) (by omega)
      · by_cases hkj : k ≤ j
        · exact d3 k hk hkj
        · exact U k (by omega) hk'
    · rename_i hc
      have hle : i' ≤ j' := by omega
      have h4 := u4 (by omega)
      have h5 := d4 hle
      have hne : i' ≠ j' := by
        intro h
        rw [h] at h4
        exact absurd h5 (not_lt.2 h4)
      have hil : i' < data.length := by omega
      have hjl : j' < data.length := by omega
      have hsw := swap_getD d data i' j'
      have hw := Within_swap d (a + 1) b data i' j' (by omega) (by omega) (by omega) (by omega) hb
      have hla : (swap data i' j').getD a d = data.getD a d := hw.2.1 a (by omega)
      obtain ⟨r1, r2, r3, r4, r5⟩ := ih (i' + 1) (j' - 1) (swap data i' j')
        (by rw [swap_length]; exact hb) (by omega) (by omega) (by omega) (by omega)
        (by
          intro k hk hk'
          rw [hla, hsw k hil hjl]
          split_ifs
          · exfalso; omega
          · exact h5
          · by_cases hki : k < i
            · exact L _ (by omega) (by omega)
            · exact u3 _ (by omega) (by omega))
        (by
          intro k hk hk'
          rw [hla, hsw k hil hjl]
          split_ifs
          · exact h4
          · exfalso; omega
          · by_cases hki : k ≤ j
            · exact d3 _ (by omega) (by omega)
            · exact U _ (by omega) (by omega))
      rw [hla] at r4 r5
      exact ⟨Within_trans d _ _ _ _ _ hw r1, r2, by omega, r4, r5⟩

theorem partition_eq_loop (less : E → E → Bool) (data : List E) (a b pivot : Nat) :
    (partition less data a b pivot).1 =
      swap (partition.loop less a (b - a + 1) (a + 1) (b - 1) (swap data a pivot)).1
        (partition.loop less a (b - a + 1) (a + 1) (b - 1) (swap data a pivot)).2 a ∧
    (partition less data a b pivot).2.1 =
      (partition.loop less a (b - a + 1) (a + 1) (b - 1) (swap data a pivot)).2 := by
  unfold partition
  rw [partition.loop]
  simp only
  split <;> simp

theorem partition_spec [LinearOrder R] (less : E → E → Bool) (f : E → R)
    (hless : ∀ x y, less x y = decide (f x < f y)) (d : E) (a b pivot : Nat)
    (data : List E) (hb : b ≤ data.length) (hap : a ≤ pivot) (hpb : pivot < b) :
    Within d a b data (partition less data a b pivot).1 ∧
    a ≤ (partition less data a b pivot).2.1 ∧
    (partition less data a b pivot).2.1 < b ∧
    (∀ k, a ≤ k → k < (partition less data a b pivot).2.1 →
      f ((partition less data a b pivot).1.getD k d) <
        f ((partition less data a b pivot).1.getD (partition less data a b pivot).2.1 d)) ∧
    (∀ k, (partition less data a b pivot).2.1 < k → k < b →
      f ((partition less data a b pivot).1.getD (partition less data a b pivot).2.1 d) ≤
        f ((partition less data a b pivot).1.getD k d)) := by
  obtain ⟨e1, e2⟩ := partition_eq_loop less data a b pivot
  rw [e1, e2]
  have hw0 := Within_swap d a b data a pivot (le_refl _) (by omega) hap hpb hb
  have hl0 : (swap data a pivot).length = data.length := swap_length _ _ _
  obtain ⟨r1, r2, r3, r4, r5⟩ := partition_loop_spec less f hless d a b (b - a + 1) (a + 1)
    (b - 1) (swap data a pivot) (by omega) (le_refl _) (by omega) (by omega) (by omega)
    (fun k hk hk' => by omega) (fun k hk hk' => by omega)
  generalize partition.loop less a (b - a + 1) (a + 1) (b - 1) (swap data a pivot) = r
    at r1 r2 r3 r4 r5 ⊢
  obtain ⟨d2, mid⟩ := r
  simp only at r1 r2 r3 r4 r5 ⊢
  have hl2 : d2.length = data.length := r1.1.trans hl0
  have hsw := swap_getD d d2 mid a
  have hml : mid < d2.length := by omega
  have hal : a < d2.length := by omega
  have hda : d2.getD a d = (swap data a pivot).getD a d := r1.2.1 a (by omega)
  rw [← hda] at r4 r5
  refine ⟨Within_trans d a b _ _ _ hw0 (Within_trans d a b _ _ _
    (Within_mono d (a + 1) b a b _ _ r1 (by omega) (le_refl _))
    (Within_swap d a b d2 mid a r2 r3 (le_refl _) (by omega) (by omega))), r2, r3, ?_, ?_⟩
  · intro k hk hk'
    rw [hsw k hml hal, hsw mid hml hal]
    split_ifs <;> first
      | (exfalso; omega)
      | exact r4 _ (by omega) (by omega)
  · intro k hk hk'
    rw [hsw k hml hal, hsw mid hml hal]
    split_ifs <;> first
      | (exfalso; omega)
      | exact r5 _ (by omega) (by omega)
      | (subst_vars; exact r5 _ (by omega) (by omega))


/-! ## Partition into elements equal to the pivot and greater ones -/

theorem partitionEqual_up_spec [LinearOrder R] (less : E → E → Bool) (f : E → R)
    (hless : ∀ x y, less x y = decide (f x < f y)) (d : E) (data : List E) (a j fuel i : Nat)
    (ha : a < data.length) (hj : j < data.length) (hfuel : j + 1 ≤ fuel + i) :
    i ≤ partitionEqual.up less data a j fuel i ∧
    (i ≤ j + 1 → partitionEqual.up less data a j fuel i ≤ j + 1) ∧
    (∀ k, i ≤ k → k < partitionEqual.up less data a j fuel i →
      f (data.getD k d) ≤ f (data.getD a d)) ∧
    (partitionEqual.up less data a j fuel i ≤ j →
      f (data.getD a d) < f (data.getD (partitionEqual.up less data a j fuel i) d)) := by
  induction fuel generalizing i with
  | zero =>
    simp only [partitionEqual.up]
    exact ⟨le_refl _, fun h => h, fun k h1 h2 => by omega, fun h => by omega⟩
  | succ fuel ih =>
    rw [partitionEqual.up]
    split
    · rename_i hc
      obtain ⟨h1, h2, h3, h4⟩ := ih (i + 1) (by omega)
      refine ⟨by omega, fun _ => h2 (by omega), fun k hk hk' => ?_, h4⟩
      by_cases hki : k = i
      · subst hki
        have := hc.2
        rw [lessAt_iff less f hless d data a k ha (by omega)] at this
        exact not_lt.1 this
      · exact h3 k (by omega) hk'
    · rename_i hc
      refine ⟨le_refl _, fun h => h, fun k h1 h2 => by omega, fun h => ?_⟩
      have : ¬ ¬ lessAt less data a i = true := fun h' => hc ⟨h, h'⟩
      rw [lessAt_iff less f hless d data a i ha (by omega)] at this
      exact not_not.1 this

theorem partitionEqual_down_spec [LinearOrder R] (less : E → E → Bool) (f : E → R)
    (hless : ∀ x y, less x y = decide (f x < f y)) (d : E) (data : List E) (a i j : Nat)
    (ha : a < data.length) (hj : j < data.length) (hi : 1 ≤ i) :
    partitionEqual.down less data a i j ≤ j ∧
    (i ≤ j + 1 → i ≤ partitionEqual.down less data a i j + 1) ∧
    (∀ k, partitionEqual.down less data a i j < k → k ≤ j →
      f (data.getD a d) < f (data.getD k d)) ∧
    (i ≤ partitionEqual.down less data a i j →
      f (data.getD (partitionEqual.down less data a i j) d) ≤ f (data.getD a d)) := by
  induction j with
  | zero =>
    simp only [partitionEqual.down]
    exact ⟨le_refl _, fun h => h, fun k h1 h2 => by omega, fun h => by omega⟩
  | succ j ih =>
    rw [partitionEqual.down]
    split
    · rename_i hc
      obtain ⟨h1, h2, h3, h4⟩ := ih (by omega)
      refine ⟨by omega, fun _ => ?_, fun k hk hk' => ?_, h4⟩
      · by_cases hij : i ≤ j
        · exact h2 (by omega)
        · omega
      · by_cases hkj : k = j + 1
        · subst hkj
          exact (lessAt_iff less f hless d data a (j + 1) ha hj).1 hc.2
        · exact h3 k hk (by omega)
    · rename_i hc
      refine ⟨le_refl _, fun h => h, fun k h1 h2 => by omega, fun h => ?_⟩
      have : ¬ lessAt less data a (j + 1) = true := fun h' => hc ⟨h, h'⟩
      rw [lessAt_iff less f hless d data a (j + 1) ha hj] at this
      exact not_lt.1 this

theorem partitionEqual_loop_spec [LinearOrder R] (less : E → E → Bool) (f : E → R)
    (hless : ∀ x y, less x y = decide (f x < f y)) (d : E) (a b fuel i j : Nat)
    (data : List E) (hb : b ≤ data.length) (hai : a + 1 ≤ i) (hjb : j < b) (hij : i ≤ j + 1)
    (hfuel : j + 2 ≤ fuel + i)
    (L : ∀ k, a + 1 ≤ k → k < i → f (data.getD k d) ≤ f (data.getD a d))
    (U : ∀ k, j < k → k < b → f (data.getD a d) < f (data.getD k d)) :
    Within d (a + 1) b data (partitionEqual.loop less a fuel i j data).1 ∧
    a + 1 ≤ (partitionEqual.loop less a fuel i j data).2 ∧
    (partitionEqual.loop less a fuel i j data).2 ≤ b ∧
    (∀ k, a + 1 ≤ k → k < (partitionEqual.loop less a fuel i j data).2 →
      f ((partitionEqual.loop less a fuel i j data).1.getD k d) ≤ f (data.getD a d)) ∧
    (∀ k, (partitionEqual.loop less a fuel i j data).2 ≤ k → k < b →
      f (data.getD a d) < f ((partitionEqual.loop less a fuel i j data).1.getD k d)) := by
  induction fuel generalizing i j data with
  | zero => omega
  | succ fuel ih =>
    rw [partitionEqual.loop]
    obtain ⟨u1, u2, u3, u4⟩ := partitionEqual_up_spec less f hless d data a j (j + 1 - i) i
      (by omega) (by omega) (by omega)
    generalize partitionEqual.up less data a j (j + 1 - i) i = i' at u1 u2 u3 u4 ⊢
    obtain ⟨d1, d2, d3, d4⟩ := partitionEqual_down_spec less f hless d data a i' j
      (by omega) (by omega) (by omega)
    generalize partitionEqual.down less data a i' j = j' at d1 d2 d3 d4 ⊢
    have u2' := u2 hij
    have d2' := d2 u2'
    split
    · rename_i hc
      refine ⟨Within_refl _ _ _ _, by omega, by omega, fun k hk hk' => ?_, fun k hk hk' => ?_⟩
      · by_cases hki : k < i
        · exact L k hk hki
        · exact u3 k (by omega) (by omega)
      · by_cases hkj : k ≤ j
        · exact d3 k (by omega) hkj
        · exact U k (by omega) hk'
    · rename_i hc
      have hle : i' ≤ j' := by omega
      have h4 := u4 (by omega)
      have h5 := d4 hle
      have hne : i' ≠ j' := by
        intro h
        rw [h] at h4
        exact absurd h4 (not_lt.2 h5)
      have hil : i' < data.length := by omega
      have hjl : j' < data.length := by omega
      have hsw := swap_getD d data i' j'
      have hw := Within_swap d (a + 1) b data i' j' (by omega) (by omega) (by omega) (by omega) hb
      have hla : (swap data i' j').getD a d = data.getD a d := hw.2.1 a (by omega)
      obtain ⟨r1, r2, r3, r4, r5⟩ := ih (i' + 1) (j' - 1) (swap data i' j')
        (by rw [swap_length]; exact hb) (by omega) (by omega) (by omega) (by omega)
        (by
          intro k hk hk'
          rw [hla, hsw k hil hjl]
          split_ifs
          · exfalso; omega
          · exact h5
          · by_cases hki : k < i
            · exact L _ (by omega) (by omega)
            · exact u3 _ (by omega) (by omega))
        (by
          intro k hk hk'
          rw [hla, hsw k hil hjl]
          split_ifs
          · exact h4
          · exfalso; omega
          · by_cases hki : k ≤ j
            · exact d3 _ (by omega) (by omega)
            · exact U _ (by omega) (by omega))
      rw [hla] at r4 r5
      exact ⟨Within_trans d _ _ _ _ _ hw r1, r2, r3, r4, r5⟩

theorem partitionEqual_spec [LinearOrder R] (less : E → E → Bool) (f : E → R)
    (hless : ∀ x y, less x y = decide (f x < f y)) (d : E) (a b pivot : Nat)
    (data : List E) (hb : b ≤ data.length) (hap : a ≤ pivot) (hpb : pivot < b) :
    Within d a b data (partitionEqual less data a b pivot).1 ∧
    a < (partitionEqual less data a b pivot).2 ∧
    (partitionEqual less data a b pivot).2 ≤ b ∧
    (∀ k, a ≤ k → k < (partitionEqual less data a b pivot).2 →
      f ((partitionEqual less data a b pivot).1.getD k d) ≤ f (data.getD pivot d)) ∧
    (∀ k, (partitionEqual less data a b pivot).2 ≤ k → k < b →
      f (data.getD pivot d) < f ((partitionEqual less data a b pivot).1.getD k d)) := by
  unfold partitionEqual
  simp only
  have hw0 := Within_swap d a b data a pivot (le_refl _) (by omega) hap hpb hb
  have hl0 : (swap data a pivot).length = data.length := swap_length _ _ _
  have hpk : (swap data a pivot).getD a d = data.getD pivot d := by
    rw [swap_getD d data a pivot a (by omega) (by omega)]
    split_ifs with h h2
    · rw [h]
    · rfl
    · exact absurd rfl h2
  obtain ⟨r1, r2, r3, r4, r5⟩ := partitionEqual_loop_spec less f hless d a b (b - a) (a + 1)
    (b - 1) (swap data a pivot) (by omega) (le_refl _) (by omega) (by omega) (by omega)
    (fun k hk hk' => by omega) (fun k hk hk' => by omega)
  generalize partitionEqual.loop less a (b - a) (a + 1) (b - 1) (swap data a pivot) = r
    at r1 r2 r3 r4 r5 ⊢
  obtain ⟨d2, mid⟩ := r
  simp only at r1 r2 r3 r4 r5 ⊢
  rw [hpk] at r4 r5
  refine ⟨Within_trans d a b _ _ _ hw0
    (Within_mono d (a + 1) b a b _ _ r1 (by omega) (le_refl _)), by omega, r3, ?_, r5⟩
  intro k hk hk'
  by_cases hka : k = a
  · subst hka
    rw [r1.2.1 k (by omega), hpk]
  · exact r4 k (by omega) hk'


/-! ## Heap sort -/

theorem siftDown_loop_spec [LinearOrder R] (less : E → E → Bool) (f : E → R)
    (hless : ∀ x y, less x y = decide (f x < f y)) (d : E) (hi first lo fuel root : Nat)
    (data : List E) (hlen : first + hi ≤ data.length) (hlo : lo ≤ root)
    (hfuel : hi ≤ fuel + root)
    (H1 : ∀ p c, lo ≤ p → p ≠ root → (c = 2 * p + 1 ∨ c = 2 * p + 2) → c < hi →
      f (data.getD (first + c) d) ≤ f (data.getD (first + p) d))
    (H2 : ∀ p c, lo ≤ p → (root = 2 * p + 1 ∨ root = 2 * p + 2) →
      (c = 2 * root + 1 ∨ c = 2 * root + 2) → c < hi →
      f (data.getD (first + c) d) ≤ f (data.getD (first + p) d)) :
    Within d (first + lo) (first + hi) data (siftDown.loop less hi first fuel root data) ∧
      HeapFrom f d (siftDown.loop less hi first fuel root data) first lo hi := by
  induction fuel generalizing root data with
  | zero =>
    refine ⟨Within_refl _ _ _ _, ?_⟩
    intro p c hp hc hc'
    by_cases hpr : p = root
    · omega
    · exact H1 p c hp hpr hc hc'
  | succ fuel ih =>
    rw [siftDown.loop]
    simp only
    split
    · refine ⟨Within_refl _ _ _ _, ?_⟩
      intro p c hp hc hc'
      by_cases hpr : p = root
      · omega
      · exact H1 p c hp hpr hc hc'
    · rename_i hch
      have hch' : 2 * root + 1 < hi := by omega
      -- the greater child
      have hmax : ∃ ch, (ch = 2 * root + 1 ∨ ch = 2 * root + 2) ∧ ch < hi ∧
          (if 2 * root + 1 + 1 < hi ∧
              lessAt less data (first + (2 * root + 1)) (first + (2 * root + 1) + 1) = true
            then 2 * root + 1 + 1 else 2 * root + 1) = ch ∧
          f (data.getD (first + (2 * root + 1)) d) ≤ f (data.getD (first + ch) d) ∧
          (2 * root + 2 < hi →
            f (data.getD (first + (2 * root + 2)) d) ≤ f (data.getD (first + ch) d)) := by
        split
        · rename_i h
          have hl := (lessAt_iff less f hless d data (first + (2 * root + 1))
            (first + (2 * root + 1) + 1) (by omega) (by omega)).1 h.2
          exact ⟨2 * root + 2, Or.inr rfl, by omega, rfl, le_of_lt hl, fun _ => le_refl _⟩
        · rename_i h
          refine ⟨2 * root + 1, Or.inl rfl, hch', rfl, le_refl _, fun h2 => ?_⟩
          have : ¬ lessAt less data (first + (2 * root + 1)) (first + (2 * root + 1) + 1) = true :=
            fun h' => h ⟨by omega, h'⟩
          rw [lessAt_iff less f hless d data _ _ (by omega) (by omega)] at this
          exact not_lt.1 this
      obtain ⟨ch, hch1, hch2, hcheq, hm1, hm2⟩ := hmax
      rw [hcheq]
      split
      · rename_i hnl
        rw [lessAt_iff less f hless d data _ _ (by omega) (by omega)] at hnl
        have hle := not_lt.1 hnl
        refine ⟨Within_refl _ _ _ _, ?_⟩
        intro p c hp hc hc'
        by_cases hpr : p = root
        · subst hpr
          rcases hc with hc | hc
          · subst hc; exact hm1.trans hle
          · subst hc; exact (hm2 hc').trans hle
        · exact H1 p c hp hpr hc hc'
      · rename_i hnl
        have hlt : f (data.getD (first + root) d) < f (data.getD (first + ch) d) := by
          have := not_not.1 hnl
          exact (lessAt_iff less f hless d data _ _ (by omega) (by omega)).1 this
        have hrl : first + root < data.length := by omega
        have hcl : first + ch < data.length := by omega
        have hsw := swap_getD d data (first + root) (first + ch)
        have hw := Within_swap d (first + lo) (first + hi) data (first + root) (first + ch)
          (by omega) (by omega) (by omega) (by omega) hlen
        obtain ⟨r1, r2⟩ := ih ch (swap data (first + root) (first + ch))
          (by rw [swap_length]; exact hlen) (by omega) (by omega)
          (by
            intro p c hp hpc hc hc'
            rw [hsw _ hrl hcl, hsw _ hrl hcl]
            split_ifs <;> first
              | (exfalso; omega)
              | exact le_of_lt hlt
              | exact H2 _ _ hp (by omega) hch1 hch2
              | exact H1 _ _ hp (by omega) hc hc'
              | (have h2 : c = 2 * root + 1 ∨ c = 2 * root + 2 := by omega
                 rcases h2 with h2 | h2
                 · subst h2; exact hm1
                 · subst h2; exact hm2 hc'))
          (by
            intro p c hp hpc hc hc'
            have hpr : p = root := by omega
            subst hpr
            rw [hsw _ hrl hcl, hsw _ hrl hcl]
            split_ifs <;> first
              | (exfalso; omega)
              | exact H1 ch c (by omega) (by omega) hc hc')
        exact ⟨Within_trans d _ _ _ _ _ hw r1, r2⟩

theorem siftDown_spec [LinearOrder R] (less : E → E → Bool) (f : E → R)
    (hless : ∀ x y, less x y = decide (f x < f y)) (d : E) (hi first lo : Nat)
    (data : List E) (hlen : first + hi ≤ data.length)
    (H : HeapFrom f d data first (lo + 1) hi) :
    Within d (first + lo) (first + hi) data (siftDown less data lo hi first) ∧
      HeapFrom f d (siftDown less data lo hi first) first lo hi := by
  unfold siftDown
  apply siftDown_loop_spec less f hless d hi first lo hi lo data hlen (le_refl _) (by omega)
  · intro p c hp hpr hc hc'
    exact H p c (by omega) hc hc'
  · intro p c hp hpr hc hc'
    omega

theorem heapSort_build_spec [LinearOrder R] (less : E → E → Bool) (f : E → R)
    (hless : ∀ x y, less x y = decide (f x < f y)) (d : E) (hi first i : Nat)
    (data : List E) (hlen : first + hi ≤ data.length)
    (H : HeapFrom f d data first (i + 1) hi) :
    Within d first (first + hi) data (heapSort.build less hi first i data) ∧
      HeapFrom f d (heapSort.build less hi first i data) first 0 hi := by
  induction i generalizing data with
  | zero =>
    rw [heapSort.build]
    exact siftDown_spec less f hless d hi first 0 data hlen H
  | succ i ih =>
    rw [heapSort.build]
    obtain ⟨h1, h2⟩ := siftDown_spec less f hless d hi first (i + 1) data hlen H
    obtain ⟨h3, h4⟩ := ih (siftDown less data (i + 1) hi first)
      (by rw [h1.1]; exact hlen) h2
    exact ⟨Within_trans d _ _ _ _ _
      (Within_mono d _ _ first (first + hi) _ _ h1 (by omega) (le_refl _)) h3, h4⟩

theorem HeapFrom_root_max [LinearOrder R] (f : E → R) (d : E) (data : List E)
    (first n : Nat) (H : HeapFrom f d data first 0 n) (k : Nat) (hk : k < n) :
    f (data.getD (first + k) d) ≤ f (data.getD (first + 0) d) := by
  induction k using Nat.strong_induction_on with
  | _ k ih =>
    by_cases h0 : k = 0
    · subst h0; exact le_refl _
    · have h1 := H ((k - 1) / 2) k (Nat.zero_le _) (by omega) hk
      exact h1.trans (ih ((k - 1) / 2) (by omega) (by omega))

theorem heapSort_pop_spec [LinearOrder R] (less : E → E → Bool) (f : E → R)
    (hless : ∀ x y, less x y = decide (f x < f y)) (d : E) (hi first n : Nat)
    (data : List E) (hlen : first + hi ≤ data.length) (hn : n ≤ hi)
    (H : HeapFrom f d data first 0 n)
    (S : RangeSorted f d data (first + n) (first + hi))
    (X : ∀ p q, p < n → n ≤ q → q < hi →
      f (data.getD (first + p) d) ≤ f (data.getD (first + q) d)) :
    Within d first (first + hi) data (heapSort.pop less first n data) ∧
      RangeSorted f d (heapSort.pop less first n data) first (first + hi) := by
  induction n generalizing data with
  | zero =>
    rw [heapSort.pop]
    exact ⟨Within_refl _ _ _ _, S⟩
  | succ i ih =>
    rw [heapSort.pop]
    have hfl : first < data.length := by omega
    have hil : first + i < data.length := by omega
    have hsw := swap_getD d data first (first + i)
    have hw1 := Within_swap d first (first + hi) data first (first + i) (le_refl _) (by omega)
      (by omega) (by omega) hlen
    have hmax := HeapFrom_root_max f d data first (i + 1) H
    simp only [Nat.add_zero] at hmax
    -- the slots after the swap
    have k1 : ∀ k, k < i → f ((swap data first (first + i)).getD (first + k) d) ≤
        f (data.getD first d) := by
      intro k hk
      rw [hsw _ hfl hil]
      split_ifs
      · exfalso; omega
      · exact hmax i (by omega)
      · exact hmax k (by omega)
    have k2 : (swap data first (first + i)).getD (first + i) d = data.getD first d := by
      rw [hsw _ hfl hil, if_pos rfl]
    have k3 : ∀ k, i < k → (swap data first (first + i)).getD (first + k) d =
        data.getD (first + k) d := by
      intro k hk
      rw [hsw _ hfl hil, if_neg (by omega), if_neg (by omega)]
    have k4 : ∀ k, k < i → ∃ k', k' < i + 1 ∧
        (swap data first (first + i)).getD (first + k) d = data.getD (first + k') d := by
      intro k hk
      rw [hsw _ hfl hil]
      split_ifs
      · exfalso; omega
      · exact ⟨i, by omega, rfl⟩
      · exact ⟨k, by omega, rfl⟩
    obtain ⟨h1, h2⟩ := siftDown_spec less f hless d i first 0 (swap data first (first + i))
      (by rw [swap_length]; omega)
      (by
        intro p c hp hc hc'
        rw [hsw _ hfl hil, hsw _ hfl hil, if_neg (by omega), if_neg (by omega),
          if_neg (by omega), if_neg (by omega)]
        exact H p c (Nat.zero_le _) hc (by omega))
    simp only [Nat.add_zero] at h1
    generalize siftDown less (swap data first (first + i)) 0 i first = data2 at h1 h2 ⊢
    have o1 : ∀ k, i ≤ k → data2.getD (first + k) d =
        (swap data first (first + i)).getD (first + k) d :=
      fun k hk => h1.2.1 (first + k) (Or.inr (by omega))
    have o2 : ∀ k, k < i → ∃ k', k' < i ∧ data2.getD (first + k) d =
        (swap data first (first + i)).getD (first + k') d := by
      intro k hk
      obtain ⟨k', hk1, hk2, e⟩ := h1.2.2 (first + k) (by omega) (by omega)
      exact ⟨k' - first, by omega, by rw [e]; congr 2; omega⟩
    obtain ⟨h3, h4⟩ := ih data2 (by rw [h1.1, swap_length]; exact hlen) (by omega) h2
      (by
        intro p q hp hpq hq
        have hp' : p = first + (p - first) := by omega
        have hq' : q = first + (q - first) := by omega
        rw [hp', hq', o1 _ (by omega), o1 _ (by omega)]
        by_cases hpi : p - first = i
        · rw [hpi, k2]
          by_cases hqi : q - first = i
          · rw [hqi, k2]
          · rw [k3 _ (by omega)]
            have := X 0 (q - first) (by omega) (by omega) (by omega)
            simpa using this
        · rw [k3 _ (by omega), k3 _ (by omega)]
          have := S p q (by omega) hpq hq
          rw [hp', hq'] at this
          simpa using this)
      (by
        intro p q hp hq hq'
        obtain ⟨p', hp1, e⟩ := o2 p hp
        rw [e, o1 q hq]
        by_cases hqi : q = i
        · subst hqi
          rw [k2]
          exact k1 p' hp1
        · rw [k3 q (by omega)]
          obtain ⟨p'', hp2, e2⟩ := k4 p' hp1
          rw [e2]
          exact X p'' q hp2 (by omega) hq')
    exact ⟨Within_trans d _ _ _ _ _ hw1 (Within_trans d _ _ _ _ _
      (Within_mono d _ _ first (first + hi) _ _ h1 (le_refl _) (by omega)) h3), h4⟩

theorem heapSort_spec [LinearOrder R] (less : E → E → Bool) (f : E → R)
    (hless : ∀ x y, less x y = decide (f x < f y)) (d : E) (a b : Nat) (data : List E)
    (hab : a ≤ b) (hb : b ≤ data.length) :
    Within d a b data (heapSort less data a b) ∧
      RangeSorted f d (heapSort less data a b) a b := by
  unfold heapSort
  simp only
  have hb' : a + (b - a) = b := by omega
  obtain ⟨h1, h2⟩ := heapSort_build_spec less f hless d (b - a) a ((b - a - 1) / 2) data
    (by omega) (by
      intro p c hp hc hc'
      omega)
  obtain ⟨h3, h4⟩ := heapSort_pop_spec less f hless d (b - a) a (b - a)
    (heapSort.build less (b - a) a ((b - a - 1) / 2) data) (by rw [h1.1]; omega) (le_refl _) h2
    (fun p q hp hpq hq => by omega) (fun p q hp hq hq' => by omega)
  rw [hb'] at h1 h3 h4
  exact ⟨Within_trans d _ _ _ _ _ h1 h3, h4⟩


/-! ## Pattern breaking, reversal, choice of the pivot -/

theorem bitsLen_loop_pow (fuel n : Nat) (hn : 0 < n) (hfuel : n ≤ fuel) :
    2 ^ bitsLen.loop fuel n ≤ 2 * n := by
  induction fuel generalizing n with
  | zero => omega
  | succ fuel ih =>
    rw [bitsLen.loop, if_neg (by omega)]
    by_cases h1 : n / 2 = 0
    · have : bitsLen.loop fuel (n / 2) = 0 := by
        rw [h1]
        cases fuel <;> simp [bitsLen.loop]
      rw [this]
      simp
      omega
    · have := ih (n / 2) (by omega) (by omega)
      rw [pow_succ]
      omega

theorem nextPowerOfTwo_le (n : Nat) (hn : 0 < n) : nextPowerOfTwo n ≤ 2 * n := by
  unfold nextPowerOfTwo bitsLen
  rw [Nat.one_shiftLeft]
  exact bitsLen_loop_pow n n hn (le_refl _)

theorem breakPatterns_loop_within (d : E) (next : Nat → Nat) (a b length modulus idx : Nat)
    (rounds i random : Nat) (data : List E) (hb : b ≤ data.length) (hlen : a + length = b)
    (hpos : 0 < length) (hmod : modulus ≤ 2 * length) (hidx : a ≤ idx) (hidx' : idx + 2 < b)
    (hi : rounds + i ≤ 3) :
    Within d a b data (breakPatterns.loop next a length modulus idx rounds i random data) := by
  induction rounds generalizing i random data with
  | zero => exact Within_refl _ _ _ _
  | succ rounds ih =>
    rw [breakPatterns.loop]
    have hand : next random &&& (modulus - 1) ≤ modulus - 1 := Nat.and_le_right
    have hother : (if next random &&& (modulus - 1) ≥ length
        then (next random &&& (modulus - 1)) - length
        else next random &&& (modulus - 1)) < length := by
      split <;> omega
    exact Within_trans d a b _ _ _
      (Within_swap d a b data _ _ (by omega) (by omega) (by omega) (by omega) hb)
      (ih (i + 1) _ _ (by rw [swap_length]; exact hb) (by omega))

theorem breakPatterns_within (d : E) (next : Nat → Nat) (a b : Nat) (data : List E)
    (hab : a ≤ b) (hb : b ≤ data.length) :
    Within d a b data (breakPatterns next data a b) := by
  unfold breakPatterns
  simp only
  split
  · rename_i h
    exact breakPatterns_loop_within d next a b (b - a) (nextPowerOfTwo (b - a))
      (a + (b - a) / 4 * 2 - 1) 3 0 (b - a) data hb (by omega) (by omega)
      (nextPowerOfTwo_le _ (by omega)) (by omega) (by omega) (by omega)
  · exact Within_refl _ _ _ _

theorem reverseRange_loop_within (d : E) (a b fuel i j : Nat) (data : List E)
    (hb : b ≤ data.length) (hi : a ≤ i) (hj : j < b) :
    Within d a b data (reverseRange.loop fuel i j data) := by
  induction fuel generalizing i j data with
  | zero => exact Within_refl _ _ _ _
  | succ fuel ih =>
    rw [reverseRange.loop]
    split
    · exact Within_trans d a b _ _ _
        (Within_swap d a b data i j hi (by omega) (by omega) hj hb)
        (ih (i + 1) (j - 1) _ (by rw [swap_length]; exact hb) (by omega) (by omega))
    · exact Within_refl _ _ _ _

theorem reverseRange_within (d : E) (a b : Nat) (data : List E) (hab : a < b)
    (hb : b ≤ data.length) : Within d a b data (reverseRange data a b) :=
  reverseRange_loop_within d a b (b - a) a (b - 1) data hb (le_refl _) (by omega)

theorem order2_fst (less : E → E → Bool) (data : List E) (a b swaps : Nat) :
    ((order2 less data a b swaps).1 = a ∧ (order2 less data a b swaps).2.1 = b) ∨
    ((order2 less data a b swaps).1 = b ∧ (order2 less data a b swaps).2.1 = a) := by
  unfold order2
  split
  · exact Or.inr ⟨rfl, rfl⟩
  · exact Or.inl ⟨rfl, rfl⟩

theorem median_mem (less : E → E → Bool) (data : List E) (a b c swaps : Nat) :
    (median less data a b c swaps).1 = a ∨ (median less data a b c swaps).1 = b ∨
      (median less data a b c swaps).1 = c := by
  unfold median
  simp only
  have h1 := order2_fst less data a b swaps
  generalize order2 less data a b swaps = r1 at h1 ⊢
  obtain ⟨a1, b1, s1⟩ := r1
  simp only at h1 ⊢
  have h2 := order2_fst less data b1 c s1
  generalize order2 less data b1 c s1 = r2 at h2 ⊢
  obtain ⟨b2, c2, s2⟩ := r2
  simp only at h2 ⊢
  have h3 := order2_fst less data a1 b2 s2
  generalize order2 less data a1 b2 s2 = r3 at h3 ⊢
  obtain ⟨a3, b3, s3⟩ := r3
  simp only at h3 ⊢
  omega

theorem choosePivot_bounds (less : E → E → Bool) (data : List E) (a b : Nat) (hab : a < b) :
    a ≤ (choosePivot less data a b).1 ∧ (choosePivot less data a b).1 < b := by
  have key : ∀ r : Nat × Nat, (a ≤ r.1 ∧ r.1 < b) →
      a ≤ (if r.2 = 0 then (r.1, sortedHint.increasingHint)
        else if r.2 = 4 * 3 then (r.1, sortedHint.decreasingHint)
        else (r.1, sortedHint.unknownHint)).1 ∧
      (if r.2 = 0 then (r.1, sortedHint.increasingHint)
        else if r.2 = 4 * 3 then (r.1, sortedHint.decreasingHint)
        else (r.1, sortedHint.unknownHint)).1 < b := by
    intro r hr
    split
    · exact hr
    · split <;> exact hr
  unfold choosePivot
  apply key
  split
  · rename_i h8
    split
    · rename_i h50
      simp only [medianAdjacent]
      have m1 := median_mem less data (a + (b - a) / 4 * 1 - 1) (a + (b - a) / 4 * 1)
        (a + (b - a) / 4 * 1 + 1) 0
      generalize median less data (a + (b - a) / 4 * 1 - 1) (a + (b - a) / 4 * 1)
        (a + (b - a) / 4 * 1 + 1) 0 = r1 at m1 ⊢
      have m2 := median_mem less data (a + (b - a) / 4 * 2 - 1) (a + (b - a) / 4 * 2)
        (a + (b - a) / 4 * 2 + 1) r1.2
      generalize median less data (a + (b - a) / 4 * 2 - 1) (a + (b - a) / 4 * 2)
        (a + (b - a) / 4 * 2 + 1) r1.2 = r2 at m2 ⊢
      have m3 := median_mem less data (a + (b - a) / 4 * 3 - 1) (a + (b - a) / 4 * 3)
        (a + (b - a) / 4 * 3 + 1) r2.2
      generalize median less data (a + (b - a) / 4 * 3 - 1) (a + (b - a) / 4 * 3)
        (a + (b - a) / 4 * 3 + 1) r2.2 = r3 at m3 ⊢
      have m4 := median_mem less data r1.1 r2.1 r3.1 r3.2
      omega
    · have m4 := median_mem less data (a + (b - a) / 4 * 1) (a + (b - a) / 4 * 2)
        (a + (b - a) / 4 * 3) 0
      omega
  · simp only
    omega


/-! ## Partial insertion sort -/

theorem partialInsertionSort_scan_spec [LinearOrder R] (less : E → E → Bool) (f : E → R)
    (hless : ∀ x y, less x y = decide (f x < f y)) (d : E) (data : List E) (b fuel i : Nat)
    (hb : b ≤ data.length) (hi : 1 ≤ i) (hib : i ≤ b) :
    i ≤ partialInsertionSort.scan less data b fuel i ∧
    partialInsertionSort.scan less data b fuel i ≤ b ∧
    (∀ k, i ≤ k → k < partialInsertionSort.scan less data b fuel i →
      f (data.getD (k - 1) d) ≤ f (data.getD k d)) := by
  induction fuel generalizing i with
  | zero =>
    simp only [partialInsertionSort.scan]
    exact ⟨le_refl _, hib, fun k h1 h2 => by omega⟩
  | succ fuel ih =>
    rw [partialInsertionSort.scan]
    split
    · rename_i hc
      obtain ⟨h1, h2, h3⟩ := ih (i + 1) (by omega) (by omega)
      refine ⟨by omega, h2, fun k hk hk' => ?_⟩
      by_cases hki : k = i
      · subst hki
        have := hc.2
        rw [lessAt_iff less f hless d data k (k - 1) (by omega) (by omega)] at this
        exact not_lt.1 this
      · exact h3 k (by omega) hk'
    · exact ⟨le_refl _, hib, fun k h1 h2 => by omega⟩

theorem shiftLeft_eq_inner [LinearOrder R] (less : E → E → Bool) (f : E → R)
    (hless : ∀ x y, less x y = decide (f x < f y)) (d : E) (a j : Nat) (data : List E)
    (haj : a ≤ j) (hj : j < data.length)
    (hleft : 0 < a → ∀ k, a ≤ k → k ≤ j → f (data.getD (a - 1) d) ≤ f (data.getD k d)) :
    partialInsertionSort.shiftLeft less j data = insertionSort.inner less a j data := by
  induction j generalizing data with
  | zero => rfl
  | succ j ih =>
    rw [partialInsertionSort.shiftLeft, insertionSort.inner]
    by_cases hc : lessAt less data (j + 1) j = true
    · have hlt := (lessAt_iff less f hless d data (j + 1) j hj (by omega)).1 hc
      have haj' : a < j + 1 := by
        by_contra hcon
        have ha : a = j + 1 := by omega
        have := hleft (by omega) (j + 1) (by omega) (le_refl _)
        rw [ha] at this
        simp only [Nat.add_sub_cancel] at this
        exact absurd hlt (not_lt.2 this)
      rw [if_neg (not_not.2 hc), if_pos ⟨haj', hc⟩]
      apply ih _ (by omega) (by rw [swap_length]; omega)
      intro ha k hk hk'
      rw [swap_getD d data (j + 1) j _ hj (by omega), swap_getD d data (j + 1) j _ hj (by omega),
        if_neg (by omega), if_neg (by omega)]
      split_ifs
      · exact hleft ha (j + 1) (by omega) (le_refl _)
      · exfalso; omega
      · exact hleft ha k hk (by omega)
    · rw [if_pos hc, if_neg (fun h => hc h.2)]

theorem shiftRight_within (less : E → E → Bool) (d : E) (lo b fuel j : Nat)
    (data : List E) (hb : b ≤ data.length) (hj : lo + 1 ≤ j) :
    Within d lo b data (partialInsertionSort.shiftRight less b fuel j data) := by
  induction fuel generalizing j data with
  | zero => exact Within_refl _ _ _ _
  | succ fuel ih =>
    rw [partialInsertionSort.shiftRight]
    split
    · split
      · exact Within_refl _ _ _ _
      · exact Within_trans d lo b _ _ _
          (Within_swap d lo b data j (j - 1) (by omega) (by omega) (by omega) (by omega) hb)
          (ih (j + 1) _ (by rw [swap_length]; exact hb) (by omega))
    · exact Within_refl _ _ _ _

theorem RangeSorted_of_within_outside [LinearOrder R] (f : E → R) (d : E) (lo hi a b : Nat)
    (data data' : List E) (h : Within d lo hi data data') (hs : RangeSorted f d data a b)
    (hdis : b ≤ lo ∨ hi ≤ a) : RangeSorted f d data' a b := by
  intro p q hp hpq hq
  rw [h.2.1 p (by omega), h.2.1 q (by omega)]
  exact hs p q hp hpq hq

theorem partialInsertionSort_loop_spec [LinearOrder R] (less : E → E → Bool) (f : E → R)
    (hless : ∀ x y, less x y = decide (f x < f y)) (d : E) (a b steps i : Nat)
    (data : List E) (hb : b ≤ data.length) (hai : a + 1 ≤ i) (hib : i ≤ b)
    (hs : RangeSorted f d data a i)
    (hleft : 0 < a → ∀ k, a ≤ k → k < b → f (data.getD (a - 1) d) ≤ f (data.getD k d)) :
    Within d a b data (partialInsertionSort.loop less a b steps i data).1 ∧
    ((partialInsertionSort.loop less a b steps i data).2 = true →
      RangeSorted f d (partialInsertionSort.loop less a b steps i data).1 a b) := by
  induction steps generalizing i data with
  | zero =>
    rw [partialInsertionSort.loop]
    exact ⟨Within_refl _ _ _ _, fun h => by simp at h⟩
  | succ steps ih =>
    rw [partialInsertionSort.loop]
    simp only
    obtain ⟨s1, s2, s3⟩ := partialInsertionSort_scan_spec less f hless d data b (b - i) i hb
      (by omega) hib
    generalize partialInsertionSort.scan less data b (b - i) i = i' at s1 s2 s3 ⊢
    have hs' : RangeSorted f d data a i' := by
      intro p q hp hpq hq
      -- ascending steps from `p` to `q`
      have step : ∀ n, p + n < i' → f (data.getD p d) ≤ f (data.getD (p + n) d) := by
        intro n
        induction n with
        | zero => intro _; exact le_refl _
        | succ n ihn =>
          intro hn
          by_cases hlt : p + n + 1 < i
          · exact hs p (p + (n + 1)) hp (by omega) (by omega)
          · have h1 := ihn (by omega)
            have h2 := s3 (p + (n + 1)) (by omega) hn
            have e : p + (n + 1) - 1 = p + n := by omega
            rw [e] at h2
            exact h1.trans h2
      have := step (q - p) (by omega)
      have e : p + (q - p) = q := by omega
      rw [e] at this
      exact this
    split
    · rename_i hib'
      subst hib'
      exact ⟨Within_refl _ _ _ _, fun _ => hs'⟩
    · rename_i hne
      split
      · exact ⟨Within_refl _ _ _ _, fun h => by simp at h⟩
      · have hi'b : i' < b := by omega
        have hw1 := Within_swap d a b data i' (i' - 1) (by omega) hi'b (by omega) (by omega) hb
        have hl1 : (swap data i' (i' - 1)).length = data.length := swap_length _ _ _
        have hleft1 : 0 < a → ∀ k, a ≤ k → k < b →
            f ((swap data i' (i' - 1)).getD (a - 1) d) ≤ f ((swap data i' (i' - 1)).getD k d) := by
          intro ha k hk hk'
          rw [hw1.2.1 (a - 1) (by omega)]
          exact Within_all d a b _ _ hw1 (fun x => f (data.getD (a - 1) d) ≤ f x)
            (hleft ha) k hk hk'
        -- the sorted prefix after the swap and the shift to the left
        have hleftpart : ∃ data2, Within d a b (swap data i' (i' - 1)) data2 ∧
            (if i' - a ≥ 2 then partialInsertionSort.shiftLeft less (i' - 1)
                (swap data i' (i' - 1)) else swap data i' (i' - 1)) = data2 ∧
            RangeSorted f d data2 a i' := by
          split
          · rename_i h2
            rw [shiftLeft_eq_inner less f hless d a (i' - 1) _ (by omega) (by omega)
              (fun ha k hk hk' => hleft1 ha k hk (by omega))]
            obtain ⟨w, s⟩ := insertionSort_inner_spec less f hless d a (i' - 1) (i' - 1)
              (swap data i' (i' - 1)) (by omega) (le_refl _) (by omega)
              (by
                intro p q hp hpq hq
                rw [swap_getD d data i' (i' - 1) p (by omega) (by omega),
                  swap_getD d data i' (i' - 1) q (by omega) (by omega)]
                split_ifs <;> first
                  | (exfalso; omega)
                  | exact hs' _ _ hp hpq (by omega))
              (by
                intro p q hp hpq hq
                have : p = q := by omega
                rw [this])
              (fun p q _ _ hq hq' => by omega)
            have e : i' - 1 + 1 = i' := by omega
            rw [e] at w s
            exact ⟨_, Within_mono d a i' a b _ _ w (le_refl _) (by omega), rfl, s⟩
          · rename_i h2
            refine ⟨_, Within_refl _ _ _ _, rfl, ?_⟩
            intro p q hp hpq hq
            have : p = q := by omega
            rw [this]
        obtain ⟨data2, hw2, e2, hs2⟩ := hleftpart
        rw [e2]
        have hl2 : data2.length = data.length := hw2.1.trans hl1
        have hrightpart : ∃ data3, Within d i' b data2 data3 ∧
            (if b - i' ≥ 2 then partialInsertionSort.shiftRight less b (b - i') (i' + 1) data2
              else data2) = data3 := by
          split
          · exact ⟨_, shiftRight_within less d i' b _ _ data2 (by omega) (le_refl _), rfl⟩
          · exact ⟨_, Within_refl _ _ _ _, rfl⟩
        obtain ⟨data3, hw3, e3⟩ := hrightpart
        rw [e3]
        have hw13 : Within d a b data data3 :=
          Within_trans d a b _ _ _ hw1 (Within_trans d a b _ _ _ hw2
            (Within_mono d i' b a b _ _ hw3 (by omega) (le_refl _)))
        obtain ⟨r1, r2⟩ := ih i' data3 (by rw [hw13.1]; exact hb) (by omega) s2
          (RangeSorted_of_within_outside f d i' b a i' data2 data3 hw3 hs2 (Or.inl (le_refl _)))
          (by
            intro ha k hk hk'
            rw [hw13.2.1 (a - 1) (by omega)]
            exact Within_all d a b _ _ hw13 (fun x => f (data.getD (a - 1) d) ≤ f x)
              (hleft ha) k hk hk')
        exact ⟨Within_trans d a b _ _ _ hw13 r1, r2⟩


/-! ## The quicksort loop -/

theorem partialInsertionSort_spec [LinearOrder R] (less : E → E → Bool) (f : E → R)
    (hless : ∀ x y, less x y = decide (f x < f y)) (d : E) (a b : Nat)
    (data : List E) (hab : a < b) (hb : b ≤ data.length)
    (hleft : 0 < a → ∀ k, a ≤ k → k < b → f (data.getD (a - 1) d) ≤ f (data.getD k d)) :
    Within d a b data (partialInsertionSort less data a b).1 ∧
    ((partialInsertionSort less data a b).2 = true →
      RangeSorted f d (partialInsertionSort less data a b).1 a b) := by
  unfold partialInsertionSort
  exact partialInsertionSort_loop_spec less f hless d a b 5 (a + 1) data hb (le_refl _)
    (by omega) (fun p q hp hpq hq => by
      have : p = q := by omega
      rw [this]) hleft

theorem leftBound_within [LinearOrder R] (f : E → R) (d : E) (a b : Nat) (data data' : List E)
    (h : Within d a b data data')
    (hleft : 0 < a → ∀ k, a ≤ k → k < b → f (data.getD (a - 1) d) ≤ f (data.getD k d)) :
    0 < a → ∀ k, a ≤ k → k < b → f (data'.getD (a - 1) d) ≤ f (data'.getD k d) := by
  intro ha k hk hk'
  rw [h.2.1 (a - 1) (by omega)]
  exact Within_all d a b _ _ h (fun x => f (data.getD (a - 1) d) ≤ f x) (hleft ha) k hk hk'

theorem RangeSorted_join [LinearOrder R] (f : E → R) (d : E) (a mid b : Nat) (data : List E)
    (hs1 : RangeSorted f d data a mid) (hs2 : RangeSorted f d data (mid + 1) b)
    (h1 : ∀ k, a ≤ k → k < mid → f (data.getD k d) ≤ f (data.getD mid d))
    (h2 : ∀ k, mid < k → k < b → f (data.getD mid d) ≤ f (data.getD k d)) :
    RangeSorted f d data a b := by
  intro p q hp hpq hq
  by_cases hqm : q < mid
  · exact hs1 p q hp hpq hqm
  · by_cases hpm : mid < p
    · exact hs2 p q (by omega) hpq hq
    · by_cases hpe : p = mid
      · subst hpe
        by_cases hqe : q = p
        · subst hqe; exact le_refl _
        · exact h2 q (by omega) hq
      · by_cases hqe : q = mid
        · subst hqe
          exact h1 p hp (by omega)
        · exact (h1 p hp (by omega)).trans (h2 q (by omega) hq)

theorem pdqsort_choose_spec [LinearOrder R] (less : E → E → Bool) (f : E → R)
    (hless : ∀ x y, less x y = decide (f x < f y)) (d : E) (next : Nat → Nat)
    (data : List E) (a b limit : Nat) (wasBalanced wasPartitioned : Bool)
    (hab : a < b) (hb : b ≤ data.length)
    (hleft : 0 < a → ∀ k, a ≤ k → k < b → f (data.getD (a - 1) d) ≤ f (data.getD k d)) :
    Within d a b data (pdqsort.choose less next data a b limit wasBalanced wasPartitioned).1 ∧
    a ≤ (pdqsort.choose less next data a b limit wasBalanced wasPartitioned).2.1 ∧
    (pdqsort.choose less next data a b limit wasBalanced wasPartitioned).2.1 < b ∧
    ((pdqsort.choose less next data a b limit wasBalanced wasPartitioned).2.2.2 = true →
      RangeSorted f d
        (pdqsort.choose less next data a b limit wasBalanced wasPartitioned).1 a b) := by
  unfold pdqsort.choose
  have h1 : Within d a b data
      (if ¬ wasBalanced = true then breakPatterns next data a b else data) := by
    split
    · exact breakPatterns_within d next a b data (by omega) hb
    · exact Within_refl _ _ _ _
  generalize (if ¬ wasBalanced = true then breakPatterns next data a b else data) = d1 at h1 ⊢
  simp only
  have hp := choosePivot_bounds less d1 a b hab
  generalize choosePivot less d1 a b = ph at hp ⊢
  obtain ⟨pivot, hint⟩ := ph
  simp only at hp ⊢
  have h2 : Within d a b data
      (if hint = sortedHint.decreasingHint then reverseRange d1 a b else d1) := by
    split
    · exact Within_trans d a b _ _ _ h1 (reverseRange_within d a b d1 hab (by rw [h1.1]; exact hb))
    · exact h1
  generalize (if hint = sortedHint.decreasingHint then reverseRange d1 a b else d1) = d2 at h2 ⊢
  have hp2 : a ≤ (if hint = sortedHint.decreasingHint then b - 1 - (pivot - a) else pivot) ∧
      (if hint = sortedHint.decreasingHint then b - 1 - (pivot - a) else pivot) < b := by
    split <;> omega
  generalize (if hint = sortedHint.decreasingHint then b - 1 - (pivot - a) else pivot) = pivot2
    at hp2 ⊢
  generalize (if hint = sortedHint.decreasingHint then sortedHint.increasingHint else hint)
    = hint2
  split
  · obtain ⟨w, s⟩ := partialInsertionSort_spec less f hless d a b d2 hab (by rw [h2.1]; exact hb)
      (leftBound_within f d a b data d2 h2 hleft)
    exact ⟨Within_trans d a b _ _ _ h2 w, hp2.1, hp2.2, s⟩
  · exact ⟨h2, hp2.1, hp2.2, fun h => by simp at h⟩

theorem pdqsort_spec [LinearOrder R] (less : E → E → Bool) (f : E → R)
    (hless : ∀ x y, less x y = decide (f x < f y)) (d : E) (next : Nat → Nat) (fuel : Nat)
    (data : List E) (a b limit : Nat) (wasBalanced wasPartitioned : Bool)
    (hab : a ≤ b) (hb : b ≤ data.length) (hfuel : b - a < fuel)
    (hleft : 0 < a → ∀ k, a ≤ k → k < b → f (data.getD (a - 1) d) ≤ f (data.getD k d)) :
    Within d a b data (pdqsort less next fuel data a b limit wasBalanced wasPartitioned) ∧
      RangeSorted f d (pdqsort less next fuel data a b limit wasBalanced wasPartitioned) a b := by
  induction fuel generalizing data a b limit wasBalanced wasPartitioned with
  | zero => omega
  | succ fuel ih =>
    rw [pdqsort]
    simp only
    split
    · exact insertionSort_spec less f hless d a b data hab hb
    · rename_i hlen
      split
      · exact heapSort_spec less f hless d a b data hab hb
      · obtain ⟨c1, c2, c3, c4⟩ := pdqsort_choose_spec less f hless d next data a b limit
          wasBalanced wasPartitioned (by omega) hb hleft
        generalize pdqsort.choose less next data a b limit wasBalanced wasPartitioned = r
          at c1 c2 c3 c4 ⊢
        obtain ⟨d1, pivot, limit1, sorted⟩ := r
        simp only at c1 c2 c3 c4 ⊢
        have hb1 : b ≤ d1.length := by rw [c1.1]; exact hb
        have hleft1 := leftBound_within f d a b data d1 c1 hleft
        split
        · rename_i hs
          exact ⟨c1, c4 hs⟩
        · split
          · -- no element of the slice is smaller than the pivot
            rename_i hpe
            have ha : 0 < a := hpe.1
            have hpk : f (d1.getD pivot d) ≤ f (d1.getD (a - 1) d) := by
              have := hpe.2
              rw [lessAt_iff less f hless d d1 (a - 1) pivot (by omega) (by omega)] at this
              exact not_lt.1 this
            obtain ⟨e1, e2, e3, e4, e5⟩ := partitionEqual_spec less f hless d a b pivot d1 hb1
              c2 c3
            generalize partitionEqual less d1 a b pivot = r at e1 e2 e3 e4 e5 ⊢
            obtain ⟨d2, mid⟩ := r
            simp only at e1 e2 e3 e4 e5 ⊢
            have hlow : ∀ k, a ≤ k → k < b → f (d1.getD pivot d) ≤ f (d2.getD k d) :=
              Within_all d a b _ _ e1 (fun x => f (d1.getD pivot d) ≤ f x)
                (fun k hk hk' => hpk.trans (hleft1 ha k hk hk'))
            obtain ⟨r1, r2⟩ := ih d2 mid b limit1 wasBalanced wasPartitioned e3
              (by rw [e1.1]; exact hb1) (by omega)
              (fun _ k hk hk' => (e4 (mid - 1) (by omega) (by omega)).trans
                (le_of_lt (e5 k hk hk')))
            generalize pdqsort less next fuel d2 mid b limit1 wasBalanced wasPartitioned = d3
              at r1 r2 ⊢
            refine ⟨Within_trans d a b _ _ _ c1 (Within_trans d a b _ _ _ e1
              (Within_mono d mid b a b _ _ r1 (by omega) (le_refl _))), ?_⟩
            intro p q hp hpq hq
            by_cases hpm : mid ≤ p
            · exact r2 p q hpm hpq hq
            · rw [r1.2.1 p (by omega)]
              by_cases hqm : mid ≤ q
              · have := Within_all d mid b _ _ r1 (fun x => f (d1.getD pivot d) < f x) e5 q hqm hq
                exact (e4 p hp (by omega)).trans (le_of_lt this)
              · rw [r1.2.1 q (by omega)]
                exact (e4 p hp (by omega)).trans (hlow q (by omega) hq)
          · obtain ⟨e1, e2, e3, e4, e5⟩ := partition_spec less f hless d a b pivot d1 hb1 c2 c3
            generalize partition less d1 a b pivot = r at e1 e2 e3 e4 e5 ⊢
            obtain ⟨d2, mid, ap⟩ := r
            simp only at e1 e2 e3 e4 e5 ⊢
            have hb2 : b ≤ d2.length := by rw [e1.1]; exact hb1
            have hleft2 := leftBound_within f d a b d1 d2 e1 hleft1
            have hw02 : Within d a b data d2 := Within_trans d a b _ _ _ c1 e1
            split
            · -- the left part first
              obtain ⟨l1, l2⟩ := ih d2 a mid limit1 true true e2 (by omega) (by omega)
                (fun ha k hk hk' => hleft2 ha k hk (by omega))
              generalize pdqsort less next fuel d2 a mid limit1 true true = d3 at l1 l2 ⊢
              have g3 : ∀ k, mid ≤ k → d3.getD k d = d2.getD k d :=
                fun k hk => l1.2.1 k (Or.inr hk)
              obtain ⟨r1, r2⟩ := ih d3 (mid + 1) b limit1 (decide (mid - a ≥ (b - a) / 8)) ap
                (by omega) (by rw [l1.1]; exact hb2) (by omega)
                (fun _ k hk hk' => by
                  rw [g3 k (by omega), g3 (mid + 1 - 1) (by omega)]
                  exact e5 k (by omega) hk')
              generalize pdqsort less next fuel d3 (mid + 1) b limit1
                (decide (mid - a ≥ (b - a) / 8)) ap = d4 at r1 r2 ⊢
              have g4 : ∀ k, k ≤ mid → d4.getD k d = d3.getD k d :=
                fun k hk => r1.2.1 k (Or.inl (by omega))
              refine ⟨Within_trans d a b _ _ _ hw02 (Within_trans d a b _ _ _
                (Within_mono d a mid a b _ _ l1 (le_refl _) (by omega))
                (Within_mono d (mid + 1) b a b _ _ r1 (by omega) (le_refl _))), ?_⟩
              apply RangeSorted_join f d a mid b d4
              · exact RangeSorted_of_within_outside f d (mid + 1) b a mid d3 d4 r1 l2
                  (Or.inl (by omega))
              · exact r2
              · intro k hk hk'
                rw [g4 k (by omega), g4 mid (le_refl _), g3 mid (le_refl _)]
                exact le_of_lt (Within_all d a mid _ _ l1 (fun x => f x < f (d2.getD mid d))
                  e4 k hk hk')
              · intro k hk hk'
                rw [g4 mid (le_refl _), g3 mid (le_refl _)]
                exact Within_all d (mid + 1) b _ _ r1 (fun x => f (d2.getD mid d) ≤ f x)
                  (fun k hk hk' => by rw [g3 k (by omega)]; exact e5 k (by omega) hk')
                  k (by omega) hk'
            · -- the right part first
              obtain ⟨r1, r2⟩ := ih d2 (mid + 1) b limit1 true true (by omega) hb2 (by omega)
                (fun _ k hk hk' => by
                  have e : mid + 1 - 1 = mid := by omega
                  rw [e]
                  exact e5 k (by omega) hk')
              generalize pdqsort less next fuel d2 (mid + 1) b limit1 true true = d3 at r1 r2 ⊢
              have g3 : ∀ k, k ≤ mid → d3.getD k d = d2.getD k d :=
                fun k hk => r1.2.1 k (Or.inl (by omega))
              obtain ⟨l1, l2⟩ := ih d3 a mid limit1 (decide (b - mid ≥ (b - a) / 8)) ap
                e2 (by rw [r1.1]; omega) (by omega)
                (fun ha k hk hk' => by
                  rw [g3 k (by omega), g3 (a - 1) (by omega)]
                  exact hleft2 ha k hk (by omega))
              generalize pdqsort less next fuel d3 a mid limit1
                (decide (b - mid ≥ (b - a) / 8)) ap = d4 at l1 l2 ⊢
              have g4 : ∀ k, mid ≤ k → d4.getD k d = d3.getD k d :=
                fun k hk => l1.2.1 k (Or.inr hk)
              refine ⟨Within_trans d a b _ _ _ hw02 (Within_trans d a b _ _ _
                (Within_mono d (mid + 1) b a b _ _ r1 (by omega) (le_refl _))
                (Within_mono d a mid a b _ _ l1 (le_refl _) (by omega))), ?_⟩
              apply RangeSorted_join f d a mid b d4
              · exact l2
              · exact RangeSorted_of_within_outside f d a mid (mid + 1) b d3 d4 l1 r2
                  (Or.inr (by omega))
              · intro k hk hk'
                rw [g4 mid (le_refl _), g3 mid (le_refl _)]
                exact le_of_lt (Within_all d a mid _ _ l1 (fun x => f x < f (d2.getD mid d))
                  (fun k hk hk' => by rw [g3 k (by omega)]; exact e4 k hk hk') k hk hk')
              · intro k hk hk'
                rw [g4 mid (le_refl _), g3 mid (le_refl _), g4 k (by omega)]
                exact Within_all d (mid + 1) b _ _ r1 (fun x => f (d2.getD mid d) ≤ f x)
                  (fun k hk hk' => e5 k (by omega) hk') k (by omega) hk'

end slices

/-! ## The sort commutes with a map of the elements -/

namespace slices

variable {E : Type} {E' : Type}

theorem swap_map (g : E' → E) (l : List E') (i j : Nat) :
    swap (l.map g) i j = (swap l i j).map g := by
  unfold swap
  simp only [List.getElem?_map]
  cases l[i]? <;> cases l[j]? <;> simp [List.map_set]

theorem lessAt_map (less : E → E → Bool) (g : E' → E) (l : List E') (i j : Nat) :
    lessAt less (l.map g) i j = lessAt (fun x y => less (g x) (g y)) l i j := by
  unfold lessAt
  simp only [List.getElem?_map]
  cases l[i]? <;> cases l[j]? <;> simp

theorem insertionSort_inner_map (less : E → E → Bool) (g : E' → E) (a j : Nat) (l : List E') :
    insertionSort.inner less a j (l.map g) =
      (insertionSort.inner (fun x y => less (g x) (g y)) a j l).map g := by
  induction j generalizing l with
  | zero => simp [insertionSort.inner]
  | succ j ih =>
    rw [insertionSort.inner, insertionSort.inner, lessAt_map, swap_map, ih]
    split <;> rfl

theorem insertionSort_outer_map (less : E → E → Bool) (g : E' → E) (a b fuel i : Nat)
    (l : List E') :
    insertionSort.outer less a b fuel i (l.map g) =
      (insertionSort.outer (fun x y => less (g x) (g y)) a b fuel i l).map g := by
  induction fuel generalizing i l with
  | zero => simp [insertionSort.outer]
  | succ fuel ih =>
    rw [insertionSort.outer, insertionSort.outer, insertionSort_inner_map, ih]
    split <;> rfl

theorem insertionSort_map (less : E → E → Bool) (g : E' → E) (l : List E') (a b : Nat) :
    insertionSort less (l.map g) a b =
      (insertionSort (fun x y => less (g x) (g y)) l a b).map g :=
  insertionSort_outer_map less g a b _ _ l

theorem siftDown_loop_map (less : E → E → Bool) (g : E' → E) (hi first fuel root : Nat)
    (l : List E') :
    siftDown.loop less hi first fuel root (l.map g) =
      (siftDown.loop (fun x y => less (g x) (g y)) hi first fuel root l).map g := by
  induction fuel generalizing root l with
  | zero => simp [siftDown.loop]
  | succ fuel ih =>
    rw [siftDown.loop, siftDown.loop]
    simp only [lessAt_map, swap_map, ih]
    split_ifs <;> rfl

theorem siftDown_map (less : E → E → Bool) (g : E' → E) (l : List E') (lo hi first : Nat) :
    siftDown less (l.map g) lo hi first =
      (siftDown (fun x y => less (g x) (g y)) l lo hi first).map g :=
  siftDown_loop_map less g hi first _ _ l

theorem heapSort_build_map (less : E → E → Bool) (g : E' → E) (hi first i : Nat)
    (l : List E') :
    heapSort.build less hi first i (l.map g) =
      (heapSort.build (fun x y => less (g x) (g y)) hi first i l).map g := by
  induction i generalizing l with
  | zero => simp [heapSort.build, siftDown_map]
  | succ i ih => rw [heapSort.build, heapSort.build, siftDown_map, ih]

theorem heapSort_pop_map (less : E → E → Bool) (g : E' → E) (first i : Nat) (l : List E') :
    heapSort.pop less first i (l.map g) =
      (heapSort.pop (fun x y => less (g x) (g y)) first i l).map g := by
  induction i generalizing l with
  | zero => simp [heapSort.pop]
  | succ i ih => rw [heapSort.pop, heapSort.pop, swap_map, siftDown_map, ih]

theorem heapSort_map (less : E → E → Bool) (g : E' → E) (l : List E') (a b : Nat) :
    heapSort less (l.map g) a b = (heapSort (fun x y => less (g x) (g y)) l a b).map g := by
  unfold heapSort
  simp only [heapSort_build_map, heapSort_pop_map]

theorem breakPatterns_loop_map (g : E' → E) (next : Nat → Nat) (a length modulus idx : Nat)
    (rounds i random : Nat) (l : List E') :
    breakPatterns.loop next a length modulus idx rounds i random (l.map g) =
      (breakPatterns.loop next a length modulus idx rounds i random l).map g := by
  induction rounds generalizing i random l with
  | zero => simp [breakPatterns.loop]
  | succ rounds ih =>
    rw [breakPatterns.loop, breakPatterns.loop]
    simp only [swap_map, ih]

theorem breakPatterns_map (g : E' → E) (next : Nat → Nat) (l : List E') (a b : Nat) :
    breakPatterns next (l.map g) a b = (breakPatterns next l a b).map g := by
  unfold breakPatterns
  simp only [breakPatterns_loop_map]
  split <;> rfl

theorem order2_map (less : E → E → Bool) (g : E' → E) (l : List E') (a b swaps : Nat) :
    order2 less (l.map g) a b swaps = order2 (fun x y => less (g x) (g y)) l a b swaps := by
  unfold order2
  rw [lessAt_map]

theorem median_map (less : E → E → Bool) (g : E' → E) (l : List E') (a b c swaps : Nat) :
    median less (l.map g) a b c swaps = median (fun x y => less (g x) (g y)) l a b c swaps := by
  unfold median
  simp only [order2_map]

theorem medianAdjacent_map (less : E → E → Bool) (g : E' → E) (l : List E') (a swaps : Nat) :
    medianAdjacent less (l.map g) a swaps =
      medianAdjacent (fun x y => less (g x) (g y)) l a swaps := by
  unfold medianAdjacent
  rw [median_map]

theorem choosePivot_map (less : E → E → Bool) (g : E' → E) (l : List E') (a b : Nat) :
    choosePivot less (l.map g) a b = choosePivot (fun x y => less (g x) (g y)) l a b := by
  unfold choosePivot
  simp only [median_map, medianAdjacent_map]

theorem reverseRange_loop_map (g : E' → E) (fuel i j : Nat) (l : List E') :
    reverseRange.loop fuel i j (l.map g) = (reverseRange.loop fuel i j l).map g := by
  induction fuel generalizing i j l with
  | zero => simp [reverseRange.loop]
  | succ fuel ih =>
    rw [reverseRange.loop, reverseRange.loop, swap_map, ih]
    split <;> rfl

theorem reverseRange_map (g : E' → E) (l : List E') (a b : Nat) :
    reverseRange (l.map g) a b = (reverseRange l a b).map g :=
  reverseRange_loop_map g _ _ _ l

theorem partition_up_map (less : E → E → Bool) (g : E' → E) (l : List E') (a j fuel i : Nat) :
    partition.up less (l.map g) a j fuel i =
      partition.up (fun x y => less (g x) (g y)) l a j fuel i := by
  induction fuel generalizing i with
  | zero => simp [partition.up]
  | succ fuel ih => rw [partition.up, partition.up, lessAt_map, ih]

theorem partition_down_map (less : E → E → Bool) (g : E' → E) (l : List E') (a i j : Nat) :
    partition.down less (l.map g) a i j =
      partition.down (fun x y => less (g x) (g y)) l a i j := by
  induction j with
  | zero => simp [partition.down]
  | succ j ih => rw [partition.down, partition.down, lessAt_map, ih]

theorem partition_loop_map (less : E → E → Bool) (g : E' → E) (a fuel i j : Nat)
    (l : List E') :
    partition.loop less a fuel i j (l.map g) =
      ((partition.loop (fun x y => less (g x) (g y)) a fuel i j l).1.map g,
        (partition.loop (fun x y => less (g x) (g y)) a fuel i j l).2) := by
  induction fuel generalizing i j l with
  | zero => simp [partition.loop]
  | succ fuel ih =>
    rw [partition.loop, partition.loop]
    simp only [partition_up_map, partition_down_map, swap_map, ih]
    split <;> rfl

theorem partition_map (less : E → E → Bool) (g : E' → E) (l : List E') (a b pivot : Nat) :
    partition less (l.map g) a b pivot =
      ((partition (fun x y => less (g x) (g y)) l a b pivot).1.map g,
        (partition (fun x y => less (g x) (g y)) l a b pivot).2) := by
  unfold partition
  simp only [swap_map, partition_up_map, partition_down_map, partition_loop_map]
  split <;> rfl

theorem partitionEqual_up_map (less : E → E → Bool) (g : E' → E) (l : List E')
    (a j fuel i : Nat) :
    partitionEqual.up less (l.map g) a j fuel i =
      partitionEqual.up (fun x y => less (g x) (g y)) l a j fuel i := by
  induction fuel generalizing i with
  | zero => simp [partitionEqual.up]
  | succ fuel ih => rw [partitionEqual.up, partitionEqual.up, lessAt_map, ih]

theorem partitionEqual_down_map (less : E → E → Bool) (g : E' → E) (l : List E')
    (a i j : Nat) :
    partitionEqual.down less (l.map g) a i j =
      partitionEqual.down (fun x y => less (g x) (g y)) l a i j := by
  induction j with
  | zero => simp [partitionEqual.down]
  | succ j ih => rw [partitionEqual.down, partitionEqual.down, lessAt_map, ih]

theorem partitionEqual_loop_map (less : E → E → Bool) (g : E' → E) (a fuel i j : Nat)
    (l : List E') :
    partitionEqual.loop less a fuel i j (l.map g) =
      ((partitionEqual.loop (fun x y => less (g x) (g y)) a fuel i j l).1.map g,
        (partitionEqual.loop (fun x y => less (g x) (g y)) a fuel i j l).2) := by
  induction fuel generalizing i j l with
  | zero => simp [partitionEqual.loop]
  | succ fuel ih =>
    rw [partitionEqual.loop, partitionEqual.loop]
    simp only [partitionEqual_up_map, partitionEqual_down_map, swap_map, ih]
    split <;> rfl

theorem partitionEqual_map (less : E → E → Bool) (g : E' → E) (l : List E')
    (a b pivot : Nat) :
    partitionEqual less (l.map g) a b pivot =
      ((partitionEqual (fun x y => less (g x) (g y)) l a b pivot).1.map g,
        (partitionEqual (fun x y => less (g x) (g y)) l a b pivot).2) := by
  unfold partitionEqual
  simp only [swap_map, partitionEqual_loop_map]

theorem partialInsertionSort_scan_map (less : E → E → Bool) (g : E' → E) (l : List E')
    (b fuel i : Nat) :
    partialInsertionSort.scan less (l.map g) b fuel i =
      partialInsertionSort.scan (fun x y => less (g x) (g y)) l b fuel i := by
  induction fuel generalizing i with
  | zero => simp [partialInsertionSort.scan]
  | succ fuel ih =>
    rw [partialInsertionSort.scan, partialInsertionSort.scan, lessAt_map, ih]

theorem shiftLeft_map (less : E → E → Bool) (g : E' → E) (j : Nat) (l : List E') :
    partialInsertionSort.shiftLeft less j (l.map g) =
      (partialInsertionSort.shiftLeft (fun x y => less (g x) (g y)) j l).map g := by
  induction j generalizing l with
  | zero => simp [partialInsertionSort.shiftLeft]
  | succ j ih =>
    rw [partialInsertionSort.shiftLeft, partialInsertionSort.shiftLeft, lessAt_map, swap_map,
      ih]
    split <;> rfl

theorem shiftRight_map (less : E → E → Bool) (g : E' → E) (b fuel j : Nat) (l : List E') :
    partialInsertionSort.shiftRight less b fuel j (l.map g) =
      (partialInsertionSort.shiftRight (fun x y => less (g x) (g y)) b fuel j l).map g := by
  induction fuel generalizing j l with
  | zero => simp [partialInsertionSort.shiftRight]
  | succ fuel ih =>
    rw [partialInsertionSort.shiftRight, partialInsertionSort.shiftRight, lessAt_map,
      swap_map, ih]
    split
    · split <;> rfl
    · rfl

theorem partialInsertionSort_loop_map (less : E → E → Bool) (g : E' → E) (a b steps i : Nat)
    (l : List E') :
    partialInsertionSort.loop less a b steps i (l.map g) =
      ((partialInsertionSort.loop (fun x y => less (g x) (g y)) a b steps i l).1.map g,
        (partialInsertionSort.loop (fun x y => less (g x) (g y)) a b steps i l).2) := by
  induction steps generalizing i l with
  | zero => simp [partialInsertionSort.loop]
  | succ steps ih =>
    rw [partialInsertionSort.loop, partialInsertionSort.loop]
    simp only [partialInsertionSort_scan_map, swap_map]
    split
    · rfl
    · split
      · rfl
      · split <;> split <;> simp only [shiftLeft_map, shiftRight_map, ih]

theorem partialInsertionSort_map (less : E → E → Bool) (g : E' → E) (l : List E')
    (a b : Nat) :
    partialInsertionSort less (l.map g) a b =
      ((partialInsertionSort (fun x y => less (g x) (g y)) l a b).1.map g,
        (partialInsertionSort (fun x y => less (g x) (g y)) l a b).2) :=
  partialInsertionSort_loop_map less g a b _ _ l

theorem pdqsort_choose_map (less : E → E → Bool) (g : E' → E) (next : Nat → Nat)
    (l : List E') (a b limit : Nat) (wasBalanced wasPartitioned : Bool) :
    pdqsort.choose less next (l.map g) a b limit wasBalanced wasPartitioned =
      ((pdqsort.choose (fun x y => less (g x) (g y)) next l a b limit wasBalanced
          wasPartitioned).1.map g,
        (pdqsort.choose (fun x y => less (g x) (g y)) next l a b limit wasBalanced
          wasPartitioned).2) := by
  unfold pdqsort.choose
  cases wasBalanced <;>
    simp only [breakPatterns_map, choosePivot_map, Bool.false_eq_true, not_false_eq_true,
      not_true_eq_false, if_true, if_false, false_and, true_and] <;>
    split_ifs <;>
    simp only [reverseRange_map, partialInsertionSort_map]

theorem pdqsort_map (less : E → E → Bool) (g : E' → E) (next : Nat → Nat) (fuel : Nat)
    (l : List E') (a b limit : Nat) (wasBalanced wasPartitioned : Bool) :
    pdqsort less next fuel (l.map g) a b limit wasBalanced wasPartitioned =
      (pdqsort (fun x y => less (g x) (g y)) next fuel l a b limit wasBalanced
        wasPartitioned).map g := by
  induction fuel generalizing l a b limit wasBalanced wasPartitioned with
  | zero => simp [pdqsort]
  | succ fuel ih =>
    rw [pdqsort, pdqsort]
    simp only [insertionSort_map, heapSort_map, pdqsort_choose_map, lessAt_map,
      partitionEqual_map, partition_map, ih]
    split
    · rfl
    · split
      · rfl
      · split
        · rfl
        · split
          · rfl
          · split <;> rfl

end slices

/-! ## The order of the keys other than NaN -/

namespace GoOrdered

variable {R : Type}

theorem rank_of_regular [GoOrdered R] (x : R) (h : isNaN x = false) :
    rank x = WithBot.some ⟨x, h⟩ := by
  unfold rank
  rw [dif_pos h]

theorem rank_of_nan [GoOrdered R] (x : R) (h : isNaN x = true) : rank x = ⊥ := by
  unfold rank
  rw [dif_neg (by rw [h]; simp)]

theorem rank_lt_iff [GoOrdered R] (x y : R) :
    rank x < rank y ↔ slices.cmpLess x y = true := by
  unfold slices.cmpLess slices.isNaN
  cases hx : isNaN x <;> cases hy : isNaN y
  · rw [rank_of_regular x hx, rank_of_regular y hy]
    simp only [Bool.false_and, Bool.false_or]
    exact WithBot.coe_lt_coe
  · rw [rank_of_regular x hx, rank_of_nan y hy, lt_nan_right x y hy]
    simp
  · rw [rank_of_nan x hx, rank_of_regular y hy, lt_nan_left x y hx]
    simp only [Bool.not_false, Bool.and_self, Bool.or_false, iff_true]
    exact WithBot.bot_lt_coe _
  · rw [rank_of_nan x hx, rank_of_nan y hy, lt_nan_left x y hx]
    simp

theorem rank_le_iff [GoOrdered R] (x y : R) :
    rank x ≤ rank y ↔ slices.cmpLess y x = false := by
  rw [← not_lt, rank_lt_iff]
  simp

theorem cmpLess_of_regular [GoOrdered R] (x y : R) (hx : isNaN x = false) :
    slices.cmpLess x y = lt x y := by
  unfold slices.cmpLess slices.isNaN
  rw [hx]
  simp

theorem le_iff_of_regular [GoOrdered R] (x y : R) (hx : isNaN x = false)
    (hy : isNaN y = false) : le x y = true ↔ lt y x = false := by
  unfold le
  rw [hx, hy]
  simp

theorem lt_asymm [GoOrdered R] (x y : R) (h : lt x y = true) : lt y x = false := by
  cases h' : lt y x with
  | false => rfl
  | true =>
    have := lt_trans x y x h h'
    rw [lt_irrefl] at this
    cases this

end GoOrdered

/-! ## The sorted result as a list

The result of a sort depends only on how the comparison answers on the elements of the
slice, so the correctness of the sort carries over to a comparison that is a linear order on
these elements. -/

namespace slices

variable {E : Type} {R : Type}

theorem pdqsort_congr (less less' : E → E → Bool) (next : Nat → Nat) (fuel : Nat)
    (x : List E) (a b limit : Nat) (wasBalanced wasPartitioned : Bool)
    (h : ∀ u ∈ x, ∀ v ∈ x, less u v = less' u v) :
    pdqsort less next fuel x a b limit wasBalanced wasPartitioned =
      pdqsort less' next fuel x a b limit wasBalanced wasPartitioned := by
  have hx : x.attach.map Subtype.val = x := List.attach_map_subtype_val x
  have e : (fun u v : {e // e ∈ x} => less u.1 v.1) = (fun u v => less' u.1 v.1) := by
    funext u v
    exact h u.1 u.2 v.1 v.2
  calc pdqsort less next fuel x a b limit wasBalanced wasPartitioned
      = pdqsort less next fuel (x.attach.map Subtype.val) a b limit wasBalanced
          wasPartitioned := by rw [hx]
    _ = (pdqsort (fun u v : {e // e ∈ x} => less u.1 v.1) next fuel x.attach a b limit
          wasBalanced wasPartitioned).map Subtype.val := pdqsort_map less _ next fuel _ _ _ _ _ _
    _ = (pdqsort (fun u v : {e // e ∈ x} => less' u.1 v.1) next fuel x.attach a b limit
          wasBalanced wasPartitioned).map Subtype.val := by rw [e]
    _ = pdqsort less' next fuel (x.attach.map Subtype.val) a b limit wasBalanced
          wasPartitioned := (pdqsort_map less' _ next fuel _ _ _ _ _ _).symm
    _ = pdqsort less' next fuel x a b limit wasBalanced wasPartitioned := by rw [hx]

theorem pdqsort_pairwise [LinearOrder R] (less : E → E → Bool) (f : E → R)
    (hless : ∀ x y, less x y = decide (f x < f y)) (next : Nat → Nat) (x : List E)
    (limit : Nat) :
    (pdqsort less next (x.length + 1) x 0 x.length limit true true).Pairwise
      (fun u v => f u ≤ f v) := by
  cases x with
  | nil =>
    have h := pdqsort_perm less next ([] : List E).length.succ [] 0 ([] : List E).length
      limit true true
    rw [List.perm_nil] at h
    rw [h]
    exact List.Pairwise.nil
  | cons d t =>
    obtain ⟨hw, hs⟩ := pdqsort_spec less f hless d next ((d :: t).length + 1) (d :: t) 0
      (d :: t).length limit true true (Nat.zero_le _) (le_refl _) (by omega)
      (fun h => absurd h (lt_irrefl 0))
    rw [List.pairwise_iff_getElem]
    intro i j hi hj hij
    have := hs i j (Nat.zero_le _) (by omega) (by rw [← hw.1]; exact hj)
    rw [List.getD_eq_getElem _ d hi, List.getD_eq_getElem _ d hj] at this
    exact this

theorem pdqsort_pairwise_regular [GoOrdered R] (less : E → E → Bool) (f : E → R)
    (next : Nat → Nat) (x : List E) (limit : Nat)
    (hx : ∀ u ∈ x, GoOrdered.isNaN (f u) = false)
    (hless : ∀ u ∈ x, ∀ v ∈ x, less u v = GoOrdered.lt (f u) (f v)) :
    (pdqsort less next (x.length + 1) x 0 x.length limit true true).Pairwise
      (fun u v => GoOrdered.lt (f v) (f u) = false) := by
  have hc := pdqsort_congr less (fun u v => decide (GoOrdered.rank (f u) < GoOrdered.rank (f v)))
    next (x.length + 1) x 0 x.length limit true true (fun u hu v hv => by
      show less u v = decide (GoOrdered.rank (f u) < GoOrdered.rank (f v))
      rw [hless u hu v hv]
      simp only [GoOrdered.rank_lt_iff, GoOrdered.cmpLess_of_regular _ _ (hx u hu),
        Bool.decide_eq_true])
  rw [hc]
  have hp := pdqsort_perm (fun u v => decide (GoOrdered.rank (f u) < GoOrdered.rank (f v)))
    next (x.length + 1) x 0 x.length limit true true
  have h := pdqsort_pairwise (fun u v => decide (GoOrdered.rank (f u) < GoOrdered.rank (f v)))
    (fun u => GoOrdered.rank (f u)) (fun _ _ => rfl) next x limit
  refine h.imp_of_mem (fun {u v} hu hv huv => ?_)
  rw [GoOrdered.rank_le_iff, GoOrdered.cmpLess_of_regular _ _ (hx v (hp.mem_iff.1 hv))] at huv
  exact huv

theorem SortFunc_pairwise_regular [GoOrdered R] (next : Nat → Nat) (x : List E)
    (cmp : E → E → Int) (f : E → R)
    (hcmp : ∀ u v, cmp u v < 0 ↔ GoOrdered.lt (f u) (f v) = true)
    (hx : ∀ u ∈ x, GoOrdered.isNaN (f u) = false) :
    (SortFunc next x cmp).Pairwise (fun u v => GoOrdered.lt (f v) (f u) = false) := by
  unfold SortFunc
  refine pdqsort_pairwise_regular _ f next x _ hx (fun u _ v _ => ?_)
  cases h : GoOrdered.lt (f u) (f v) with
  | true => simpa using (hcmp u v).2 h
  | false =>
    have : ¬ cmp u v < 0 := fun hlt => by
      rw [(hcmp u v).1 hlt] at h
      cases h
    simpa using this

theorem SortOrdered_pairwise [GoOrdered E] (next : Nat → Nat) (x : List E) :
    (SortOrdered next x).Pairwise (fun u v => cmpLess v u = false) := by
  unfold SortOrdered
  have h := pdqsort_pairwise cmpLess (fun u : E => GoOrdered.rank u)
    (fun u v => by
      by_cases hc : cmpLess u v = true
      · rw [hc]
        exact (decide_eq_true ((GoOrdered.rank_lt_iff u v).2 hc)).symm
      · rw [Bool.not_eq_true] at hc
        rw [hc]
        refine (decide_eq_false ?_).symm
        rw [GoOrdered.rank_lt_iff, hc]
        simp) next x (bitsLen x.length)
  exact h.imp (fun {u v} huv => (GoOrdered.rank_le_iff u v).1 huv)

end slices

/-! ## `SortBy` and NaN keys -/

namespace lox

variable {T : Type} {R : Type} {K : Type} {V : Type}

theorem SortBy_pairwise [GoOrdered R] (next : Nat → Nat) (s : List T) (f : T → R)
    (hs : ∀ e ∈ s, GoOrdered.isNaN (f e) = false) :
    (SortBy next s f).Pairwise (fun a b => GoOrdered.lt (f b) (f a) = false) :=
  slices.SortFunc_pairwise_regular next s (SortBy.cmp f) f (SortBy_cmp_neg_iff f) hs

theorem SortBy_small [GoOrdered R] (next : Nat → Nat) (s : List T) (f : T → R)
    (h : s.length ≤ 12) :
    SortBy next s f =
      slices.insertionSort (fun a b => decide (SortBy.cmp f a b < 0)) s 0 s.length := by
  unfold SortBy slices.SortFunc
  exact slices.pdqsort_small _ _ _ _ _ _ _ _ _ (by omega)

theorem SortOrdered_small [GoOrdered T] (next : Nat → Nat) (s : List T) (h : s.length ≤ 12) :
    slices.SortOrdered next s = slices.insertionSort slices.cmpLess s 0 s.length := by
  unfold slices.SortOrdered
  exact slices.pdqsort_small _ _ _ _ _ _ _ _ _ (by omega)

theorem NaN_keys_insertionSort :
    slices.insertionSort (fun a b : GoFloat => decide (SortBy.cmp Identity a b < 0))
      [GoFloat.num 2, GoFloat.nan, GoFloat.num 1, GoFloat.nan, GoFloat.num 0, GoFloat.num 3]
      0 6 =
      [GoFloat.num 2, GoFloat.nan, GoFloat.num 1, GoFloat.nan, GoFloat.num 0, GoFloat.num 3] := by
  decide!

/-- C3 (counterexample): with the `float64` keys 2, NaN, 1, NaN, 0, 3 the closure of `SortBy`
answers 0 for every comparison with a NaN, so `SortBy` leaves the slice as it is, whatever
the pseudo-random step: the adjacent pair (2, NaN) does not satisfy `<=`, and 2 stays before
1 and 0. -/
theorem SortBy_unsorted_with_NaN :
    (∀ next : Nat → Nat,
      SortBy next
        [GoFloat.num 2, GoFloat.nan, GoFloat.num 1, GoFloat.nan, GoFloat.num 0, GoFloat.num 3]
        Identity =
        [GoFloat.num 2, GoFloat.nan, GoFloat.num 1, GoFloat.nan, GoFloat.num 0,
          GoFloat.num 3]) ∧
    (∀ next : Nat → Nat,
      ¬ (SortBy next
        [GoFloat.num 2, GoFloat.nan, GoFloat.num 1, GoFloat.nan, GoFloat.num 0, GoFloat.num 3]
        Identity).Chain' (fun a b => GoOrdered.le (Identity a) (Identity b) = true)) ∧
    GoOrdered.le (GoFloat.num 2) GoFloat.nan = false ∧
    GoOrdered.le (GoFloat.num 2) (GoFloat.num 1) = false := by
  have h : ∀ next : Nat → Nat,
      SortBy next
        [GoFloat.num 2, GoFloat.nan, GoFloat.num 1, GoFloat.nan, GoFloat.num 0, GoFloat.num 3]
        Identity =
        [GoFloat.num 2, GoFloat.nan, GoFloat.num 1, GoFloat.nan, GoFloat.num 0,
          GoFloat.num 3] := by
    intro next
    rw [SortBy_small next _ _ (by decide)]
    exact NaN_keys_insertionSort
  refine ⟨h, fun next => ?_, by decide!, by decide!⟩
  rw [h next]
  intro hc
  exact absurd (List.chain'_cons.1 hc).1 (by decide!)

/-- C3 (amended): when no element of `s` has a NaN key, after `SortBy(s, f)` every adjacent
pair `(a, b)` of the slice satisfies `f(a) <= f(b)`; the slice is in ascending order of `f`
(every earlier element has a key at most that of every later one). -/
theorem SortBy_sorted [GoOrdered R] (next : Nat → Nat) (s : List T) (f : T → R)
    (hs : ∀ e ∈ s, GoOrdered.isNaN (f e) = false) :
    (SortBy next s f).Chain' (fun a b => GoOrdered.le (f a) (f b) = true) ∧
    (SortBy next s f).Pairwise (fun a b => GoOrdered.le (f a) (f b) = true) ∧
    (∀ i j (hi : i < (SortBy next s f).length) (hj : j < (SortBy next s f).length), i ≤ j →
      GoOrdered.le (f ((SortBy next s f).get ⟨i, hi⟩)) (f ((SortBy next s f).get ⟨j, hj⟩))
        = true) := by
  have hp : (SortBy next s f).Perm s := slices.SortFunc_perm next s (SortBy.cmp f)
  have hreg : ∀ e ∈ SortBy next s f, GoOrdered.isNaN (f e) = false :=
    fun e he => hs e (hp.mem_iff.1 he)
  have h : (SortBy next s f).Pairwise (fun a b => GoOrdered.le (f a) (f b) = true) :=
    (SortBy_pairwise next s f hs).imp_of_mem (fun {a b} ha hb hab =>
      (GoOrdered.le_iff_of_regular _ _ (hreg a ha) (hreg b hb)).2 hab)
  refine ⟨List.Pairwise.chain' h, h, fun i j hi hj hij => ?_⟩
  rcases Nat.lt_or_eq_of_le hij with hlt | heq
  · exact List.pairwise_iff_getElem.1 h i j hi hj hlt
  · subst heq
    have hmem := hreg _ (List.get_mem (SortBy next s f) i hi)
    rw [GoOrdered.le_iff_of_regular _ _ hmem hmem]
    exact GoOrdered.lt_irrefl _

theorem SortBy_sorted_witness :
    (∀ e ∈ [GoFloat.num 2, GoFloat.num 1, GoFloat.num 3],
      GoOrdered.isNaN (Identity e) = false) ∧
    (SortBy (fun r => r) [GoFloat.num 2, GoFloat.num 1, GoFloat.num 3] Identity).Chain'
      (fun a b => GoOrdered.le (Identity a) (Identity b) = true) :=
  ⟨by decide, (SortBy_sorted (fun r => r) [GoFloat.num 2, GoFloat.num 1, GoFloat.num 3]
    Identity (by decide)).1⟩

end lox

/-! ## Sorted views of a map -/

namespace GoMap

variable {K : Type} {V : Type}

theorem goEq_iff [DecidableEq K] [GoComparable K] (x y : K) :
    goEq x y = true ↔ x = y ∧ GoComparable.selfEqual x = true := by
  unfold goEq
  simp

theorem goEq_comm [DecidableEq K] [GoComparable K] (x y : K) : goEq x y = goEq y x := by
  unfold goEq
  by_cases h : x = y
  · subst h
    rfl
  · have h' : ¬ y = x := fun e => h e.symm
    simp [h, h']

theorem find_isSome_iff [DecidableEq K] [GoComparable K] (m : GoMap K V) (k : K) :
    (m.find k).isSome = true ↔ k ∈ m.keys ∧ GoComparable.selfEqual k = true := by
  induction m with
  | nil => simp [find, keys]
  | cons e rest ih =>
    obtain ⟨k₀, v₀⟩ := e
    by_cases h : goEq k₀ k = true
    · obtain ⟨h1, h2⟩ := (goEq_iff k₀ k).1 h
      subst h1
      simp [find, keys, h, h2]
    · have hk : k ∈ keys ((k₀, v₀) :: rest) ∧ GoComparable.selfEqual k = true ↔
          k ∈ keys rest ∧ GoComparable.selfEqual k = true := by
        unfold keys
        rw [List.map_cons, List.mem_cons]
        constructor
        · rintro ⟨h1 | h1, h2⟩
          · have h1 : k = k₀ := h1
            exact absurd ((goEq_iff k₀ k).2 ⟨h1.symm, by rw [← h1]; exact h2⟩) h
          · exact ⟨h1, h2⟩
        · rintro ⟨h1, h2⟩
          exact ⟨Or.inr h1, h2⟩
      rw [hk, ← ih]
      simp only [find, h, if_false, Bool.false_eq_true]

theorem find_eq_some_iff [DecidableEq K] [GoComparable K] (m : GoMap K V) (hm : m.WF) (k : K)
    (v : V) (hk : GoComparable.selfEqual k = true) : m.find k = some v ↔ (k, v) ∈ m := by
  induction m with
  | nil => simp [find]
  | cons e rest ih =>
    obtain ⟨k₀, v₀⟩ := e
    obtain ⟨hp, hh⟩ := hm
    rw [List.map_cons, List.pairwise_cons] at hp
    have hrest : WF rest := ⟨hp.2, fun k' hk' => hh k' (by
      rw [List.map_cons]
      exact List.mem_cons_of_mem _ hk')⟩
    by_cases h : k₀ = k
    · subst h
      have hg : goEq k₀ k₀ = true := (goEq_iff _ _).2 ⟨rfl, hk⟩
      have hnot : (k₀, v) ∉ rest := fun hmem => by
        have := hp.1 k₀ (List.mem_map.2 ⟨(k₀, v), hmem, rfl⟩)
        rw [hg] at this
        cases this
      simp only [find, hg, if_true, List.mem_cons, hnot, or_false, Option.some.injEq,
        Prod.mk.injEq, true_and]
      exact eq_comm
    · have hg : ¬ goEq k₀ k = true := fun e => h ((goEq_iff _ _).1 e).1
      have h' : ¬ k = k₀ := fun e => h e.symm
      rw [Bool.not_eq_true] at hg
      simp only [find, hg, Bool.false_eq_true, if_false, ih hrest, List.mem_cons,
        Prod.mk.injEq, h', false_and, false_or]

theorem find_eq_none_of_nan [DecidableEq K] [GoComparable K] (m : GoMap K V) (k : K)
    (hk : GoComparable.selfEqual k = false) : m.find k = none := by
  cases h : m.find k with
  | none => rfl
  | some v =>
    have := ((find_isSome_iff m k).1 (by rw [h]; rfl)).2
    rw [hk] at this
    cases this

theorem lookup_ordered [DecidableEq K] [GoOrdered K] (m : GoMap K V) (k : K) :
    m.lookup k = some (m.find k) := rfl

theorem WF_perm [DecidableEq K] [GoComparable K] (m m' : GoMap K V) (hp : m.Perm m')
    (hm : m.WF) : m'.WF := by
  obtain ⟨h1, h2⟩ := hm
  have hk : (m.map Prod.fst).Perm (m'.map Prod.fst) := hp.map _
  refine ⟨(hk.pairwise_iff (fun {a b} hab => ?_)).1 h1, fun k hk' => h2 k (hk.mem_iff.2 hk')⟩
  rw [goEq_comm]
  exact hab

theorem WF_nodup [DecidableEq K] [GoComparable K] (m : GoMap K V) (hm : m.WF)
    (hk : ∀ k ∈ m.keys, GoComparable.selfEqual k = true) : m.keys.Nodup := by
  unfold keys at *
  refine (hm.1.imp_of_mem (fun {a b} ha _ hab => ?_))
  intro e
  have := (goEq_iff a b).2 ⟨e, hk a ha⟩
  rw [hab] at this
  cases this

end GoMap

namespace lox

variable {K : Type} {V : Type}

theorem selfEqual_of_regular [GoOrdered K] (k : K) (h : GoOrdered.isNaN k = false) :
    GoComparable.selfEqual k = true := by
  show (!GoOrdered.isNaN k) = true
  rw [h]
  rfl

theorem sorted_perm_unique {α : Type} {κ : Type} [GoOrdered κ] (key : α → κ) (l₁ l₂ : List α)
    (hp : l₁.Perm l₂) (h₁ : l₁.Pairwise (fun a b => GoOrdered.lt (key a) (key b) = true))
    (h₂ : l₂.Pairwise (fun a b => GoOrdered.lt (key a) (key b) = true)) : l₁ = l₂ := by
  haveI : IsAntisymm α (fun a b => GoOrdered.lt (key a) (key b) = true) :=
    ⟨fun a b hab hba => by
      rw [GoOrdered.lt_asymm _ _ hab] at hba
      cases hba⟩
  exact List.eq_of_perm_of_sorted hp h₁ h₂

theorem strict_of_pairwise_nodup {α : Type} {κ : Type} [GoOrdered κ] (key : α → κ)
    (l : List α) (h : l.Pairwise (fun a b => GoOrdered.lt (key b) (key a) = false))
    (hn : (l.map key).Nodup) (hreg : ∀ a ∈ l, GoOrdered.isNaN (key a) = false) :
    l.Pairwise (fun a b => GoOrdered.lt (key a) (key b) = true) := by
  rw [List.Nodup, List.pairwise_map] at hn
  refine (h.and hn).imp_of_mem (fun {a b} ha hb hab => ?_)
  rcases GoOrdered.lt_total (key a) (key b) (hreg a ha) (hreg b hb) with h1 | h1 | h1
  · exact h1
  · exact absurd h1 hab.2
  · rw [hab.1] at h1
    cases h1

theorem Entries_map_Key (m : GoMap K V) : (lo.Entries m).map lo.Entry.Key = m.keys := by
  simp [lo.Entries, GoMap.keys, List.map_map, Function.comp_def]

theorem KeysSorted_perm [GoOrdered K] (next : Nat → Nat) (m : GoMap K V) :
    (KeysSorted next m).Perm m.keys :=
  slices.SortOrdered_perm next (lo.Keys m)

theorem KeysSorted_strict [DecidableEq K] [GoOrdered K] (next : Nat → Nat) (m : GoMap K V)
    (hm : m.WF) (hreg : ∀ k ∈ m.keys, GoOrdered.isNaN k = false) :
    (KeysSorted next m).Pairwise (fun a b => GoOrdered.lt a b = true) := by
  have hp := KeysSorted_perm next m
  have hreg' : ∀ k ∈ KeysSorted next m, GoOrdered.isNaN k = false :=
    fun k hk => hreg k (hp.mem_iff.1 hk)
  have hnd : (KeysSorted next m).Nodup :=
    hp.nodup_iff.2 (GoMap.WF_nodup m hm (fun k hk => selfEqual_of_regular k (hreg k hk)))
  apply strict_of_pairwise_nodup (fun k => k) _ _ (by rw [List.map_id']; exact hnd) hreg'
  refine (slices.SortOrdered_pairwise next (lo.Keys m)).imp_of_mem (fun {a b} _ hb hab => ?_)
  rw [GoOrdered.cmpLess_of_regular _ _ (hreg' b hb)] at hab
  exact hab

theorem EntriesSortedByKey_perm [GoOrdered K] (next : Nat → Nat) (m : GoMap K V) :
    (EntriesSortedByKey next m).Perm (lo.Entries m) :=
  slices.SortFunc_perm next (lo.Entries m) (SortBy.cmp EntryKey)

theorem EntriesSortedByKey_keys_perm [GoOrdered K] (next : Nat → Nat) (m : GoMap K V) :
    ((EntriesSortedByKey next m).map lo.Entry.Key).Perm m.keys := by
  rw [← Entries_map_Key m]
  exact (EntriesSortedByKey_perm next m).map _

theorem EntriesSortedByKey_strict [DecidableEq K] [GoOrdered K] (next : Nat → Nat)
    (m : GoMap K V) (hm : m.WF) (hreg : ∀ k ∈ m.keys, GoOrdered.isNaN k = false) :
    (EntriesSortedByKey next m).Pairwise
      (fun e₁ e₂ => GoOrdered.lt e₁.Key e₂.Key = true) := by
  have hkp := EntriesSortedByKey_keys_perm next m
  have hreg₀ : ∀ e ∈ lo.Entries m, GoOrdered.isNaN (EntryKey e) = false := fun e he =>
    hreg _ (by rw [← Entries_map_Key]; exact List.mem_map_of_mem _ he)
  apply strict_of_pairwise_nodup lo.Entry.Key
  · exact SortBy_pairwise next (lo.Entries m) EntryKey hreg₀
  · exact hkp.nodup_iff.2
      (GoMap.WF_nodup m hm (fun k hk => selfEqual_of_regular k (hreg k hk)))
  · intro e he
    exact hreg₀ e ((EntriesSortedByKey_perm next m).mem_iff.1 he)

theorem EntriesSortedByKey_keys [DecidableEq K] [GoOrdered K] (next next' : Nat → Nat)
    (m : GoMap K V) (hm : m.WF) (hreg : ∀ k ∈ m.keys, GoOrdered.isNaN k = false) :
    (EntriesSortedByKey next m).map lo.Entry.Key = KeysSorted next' m := by
  apply sorted_perm_unique (fun k => k)
  · exact (EntriesSortedByKey_keys_perm next m).trans (KeysSorted_perm next' m).symm
  · rw [List.pairwise_map]
    exact EntriesSortedByKey_strict next m hm hreg
  · exact KeysSorted_strict next' m hm hreg

theorem ValuesSortedByKey_eq_map [GoOrdered K] (next : Nat → Nat) (m : GoMap K V) :
    ValuesSortedByKey next m = (EntriesSortedByKey next m).map lo.Entry.Value := by
  unfold ValuesSortedByKey lo.Map
  simp only
  rw [lo.Map_loop_const lo.Entry.Value, List.nil_append]

theorem mem_Entries_iff (m : GoMap K V) (e : lo.Entry K V) :
    e ∈ lo.Entries m ↔ (e.Key, e.Value) ∈ m := by
  unfold lo.Entries
  rw [List.mem_map]
  constructor
  · rintro ⟨kv, hkv, rfl⟩
    exact hkv
  · intro h
    exact ⟨(e.Key, e.Value), h, rfl⟩

theorem lookup_eq_some_iff [DecidableEq K] [GoOrdered K] (m : GoMap K V) (hm : m.WF)
    (hreg : ∀ k ∈ m.keys, GoOrdered.isNaN k = false) (k : K) (v : V) :
    m.lookup k = some (some v) ↔ (k, v) ∈ m := by
  rw [GoMap.lookup_ordered, Option.some.injEq]
  cases hk : GoOrdered.isNaN k with
  | false => exact GoMap.find_eq_some_iff m hm k v (selfEqual_of_regular k hk)
  | true =>
    rw [GoMap.find_eq_none_of_nan m k (by show (!GoOrdered.isNaN k) = false; rw [hk]; rfl)]
    constructor
    · intro h
      cases h
    · intro h
      have := hreg k (List.mem_map.2 ⟨(k, v), h, rfl⟩)
      rw [hk] at this
      cases this

theorem abc_ascending :
    List.Pairwise (fun a b : String => GoOrdered.lt a b = true) ["a", "b", "c"] := by
  decide!

theorem ab_ascending :
    List.Pairwise (fun a b : String => GoOrdered.lt a b = true) ["a", "b"] := by
  decide!

theorem regular_of_linear (l : List String) : ∀ k ∈ l, GoOrdered.isNaN k = false :=
  fun _ _ => rfl

theorem KeysSorted_eq_of_sorted [DecidableEq K] [GoOrdered K] (next : Nat → Nat)
    (m : GoMap K V) (hm : m.WF) (hreg : ∀ k ∈ m.keys, GoOrdered.isNaN k = false)
    (l : List K) (hp : l.Perm m.keys) (hs : l.Pairwise (fun a b => GoOrdered.lt a b = true)) :
    KeysSorted next m = l :=
  sorted_perm_unique (fun k => k) _ _ ((KeysSorted_perm next m).trans hp.symm)
    (KeysSorted_strict next m hm hreg) hs

theorem ValuesSortedByKey_lookup [DecidableEq K] [GoOrdered K] (next : Nat → Nat)
    (m : GoMap K V) (hm : m.WF) (hreg : ∀ k ∈ m.keys, GoOrdered.isNaN k = false) :
    (ValuesSortedByKey next m).map (fun v => some (some v)) =
      (KeysSorted next m).map m.lookup := by
  rw [ValuesSortedByKey_eq_map, ← EntriesSortedByKey_keys next next m hm hreg, List.map_map,
    List.map_map]
  apply List.map_congr_left
  intro e he
  have hmem := (mem_Entries_iff m e).1 ((EntriesSortedByKey_perm next m).mem_iff.1 he)
  exact ((lookup_eq_some_iff m hm hreg e.Key e.Value).2 hmem).symm

end lox

namespace lox

variable {K : Type} {V : Type}

theorem KeysSorted_small [GoOrdered K] (next : Nat → Nat) (m : GoMap K V) (h : m.length ≤ 12) :
    KeysSorted next m = slices.insertionSort slices.cmpLess (lo.Keys m) 0 m.length := by
  unfold KeysSorted
  simp only
  rw [SortOrdered_small next _ (by simpa [lo.Keys] using h)]
  simp [lo.Keys]

theorem EntriesSortedByKey_small [GoOrdered K] (next : Nat → Nat) (m : GoMap K V)
    (h : m.length ≤ 12) :
    EntriesSortedByKey next m =
      slices.insertionSort (fun a b => decide (SortBy.cmp EntryKey a b < 0)) (lo.Entries m) 0
        m.length := by
  unfold EntriesSortedByKey
  simp only
  rw [SortBy_small next _ _ (by simpa [lo.Entries] using h)]
  simp [lo.Entries]

theorem NaN_map_keys_run (next : Nat → Nat) :
    KeysSorted next ([(GoFloat.num 2, "a"), (GoFloat.nan, "b"), (GoFloat.num 1, "c"),
      (GoFloat.nan, "d")] : GoMap GoFloat String) =
      [GoFloat.nan, GoFloat.nan, GoFloat.num 1, GoFloat.num 2] := by
  rw [KeysSorted_small next _ (by decide)]
  decide!

/-- C6 (counterexample): the map `{2: "a", NaN: "b", 1: "c", NaN: "d"}` with `float64` keys
holds two NaN keys.  `KeysSorted` returns `[NaN, NaN, 1, 2]` whatever the pseudo-random step,
which is not strictly ascending: neither `NaN < NaN` nor `NaN < 1` holds. -/
theorem KeysSorted_NaN_not_ascending :
    GoMap.WF ([(GoFloat.num 2, "a"), (GoFloat.nan, "b"), (GoFloat.num 1, "c"),
      (GoFloat.nan, "d")] : GoMap GoFloat String) ∧
    (∀ next : Nat → Nat,
      KeysSorted next ([(GoFloat.num 2, "a"), (GoFloat.nan, "b"), (GoFloat.num 1, "c"),
        (GoFloat.nan, "d")] : GoMap GoFloat String) =
        [GoFloat.nan, GoFloat.nan, GoFloat.num 1, GoFloat.num 2]) ∧
    (∀ next : Nat → Nat,
      ¬ (KeysSorted next ([(GoFloat.num 2, "a"), (GoFloat.nan, "b"), (GoFloat.num 1, "c"),
        (GoFloat.nan, "d")] : GoMap GoFloat String)).Chain'
          (fun a b => GoOrdered.lt a b = true)) ∧
    GoOrdered.lt GoFloat.nan GoFloat.nan = false ∧
    GoOrdered.lt GoFloat.nan (GoFloat.num 1) = false := by
  refine ⟨by decide!, NaN_map_keys_run, fun next => ?_, by decide!, by decide!⟩
  rw [NaN_map_keys_run next]
  intro hc
  exact absurd (List.chain'_cons.1 hc).1 (by decide!)

/-- C6 (amended): `KeysSorted(m)` holds exactly the keys of `m`, the key of each binding once
(so its length is the size of `m`), the NaN keys first and after them the other keys in
strictly ascending order.  When no key of `m` is NaN the result is strictly ascending
and without repetition; for `{"b":2,"a":1,"c":3}` it is `["a","b","c"]` whatever the
iteration order of the map. -/
theorem KeysSorted_spec [DecidableEq K] [GoOrdered K] (next : Nat → Nat) (m : GoMap K V)
    (hm : m.WF) :
    (KeysSorted next m).Perm m.keys ∧
    (KeysSorted next m).length = m.size ∧
    (KeysSorted next m).Pairwise
      (fun a b => GoOrdered.isNaN b = true → GoOrdered.isNaN a = true) ∧
    (KeysSorted next m).Pairwise
      (fun a b => GoOrdered.isNaN a = false → GoOrdered.lt a b = true) ∧
    ((∀ k ∈ m.keys, GoOrdered.isNaN k = false) →
      (∀ k, k ∈ KeysSorted next m ↔ ∃ v, m.lookup k = some (some v)) ∧
      (KeysSorted next m).Nodup ∧
      (KeysSorted next m).Pairwise (fun a b => GoOrdered.lt a b = true)) ∧
    (∀ (next' : Nat → Nat) (m₀ : GoMap String Int),
      m₀.Perm [("b", 2), ("a", 1), ("c", 3)] → KeysSorted next' m₀ = ["a", "b", "c"]) := by
  have hp := KeysSorted_perm next m
  have hs := slices.SortOrdered_pairwise next (lo.Keys m)
  have hd : (KeysSorted next m).Pairwise (fun a b => goEq a b = false) :=
    (hp.pairwise_iff (fun {a b} hab => by rw [GoMap.goEq_comm]; exact hab)).2 hm.1
  have hlen : (KeysSorted next m).length = m.size := by
    rw [hp.length_eq]
    simp [GoMap.keys, GoMap.size]
  refine ⟨hp, hlen, ?_, ?_, fun hreg => ⟨fun k => ?_, ?_, KeysSorted_strict next m hm hreg⟩, ?_⟩
  · refine List.Pairwise.imp (fun {a b} hab hb => ?_) hs
    unfold slices.cmpLess slices.isNaN at hab
    rw [hb] at hab
    cases ha : GoOrdered.isNaN a with
    | true => rfl
    | false =>
      rw [ha] at hab
      simp at hab
  · refine List.Pairwise.imp (fun {a b} hab ha => ?_) (hs.and hd)
    obtain ⟨h1, h2⟩ := hab
    unfold slices.cmpLess slices.isNaN at h1
    rw [ha] at h1
    have hb : GoOrdered.isNaN b = false := by
      cases hb : GoOrdered.isNaN b with
      | false => rfl
      | true =>
        rw [hb] at h1
        simp at h1
    rw [hb] at h1
    simp only [Bool.false_and, Bool.false_or] at h1
    rcases GoOrdered.lt_total a b ha hb with h | h | h
    · exact h
    · have := (GoMap.goEq_iff a b).2 ⟨h, selfEqual_of_regular a ha⟩
      rw [h2] at this
      cases this
    · rw [h1] at h
      cases h
  · rw [hp.mem_iff]
    constructor
    · intro hk
      have hself := selfEqual_of_regular k (hreg k hk)
      have := (GoMap.find_isSome_iff m k).2 ⟨hk, hself⟩
      cases hf : m.find k with
      | none =>
        rw [hf] at this
        cases this
      | some v => exact ⟨v, by rw [GoMap.lookup_ordered, hf]⟩
    · rintro ⟨v, hv⟩
      rw [GoMap.lookup_ordered, Option.some.injEq] at hv
      exact ((GoMap.find_isSome_iff m k).1 (by rw [hv]; rfl)).1
  · exact hp.nodup_iff.2
      (GoMap.WF_nodup m hm (fun k hk => selfEqual_of_regular k (hreg k hk)))
  · intro next' m₀ h₀
    have hm₀ : m₀.WF := GoMap.WF_perm _ m₀ h₀.symm (by decide)
    apply KeysSorted_eq_of_sorted next' m₀ hm₀ (regular_of_linear _)
    · have : (["a", "b", "c"] : List String).Perm
          (GoMap.keys ([("b", 2), ("a", 1), ("c", 3)] : GoMap String Int)) := by
        decide
      exact this.trans (h₀.map Prod.fst).symm
    · exact abc_ascending

theorem KeysSorted_spec_witness :
    GoMap.WF ([(GoFloat.num 2, "b"), (GoFloat.num 1, "a"), (GoFloat.nan, "c")] :
      GoMap GoFloat String) ∧
    (KeysSorted (fun r => r) ([(GoFloat.num 2, "b"), (GoFloat.num 1, "a"),
      (GoFloat.nan, "c")] : GoMap GoFloat String)).Pairwise
      (fun a b => GoOrdered.isNaN a = false → GoOrdered.lt a b = true) :=
  ⟨by decide, (KeysSorted_spec (fun r => r) ([(GoFloat.num 2, "b"), (GoFloat.num 1, "a"),
    (GoFloat.nan, "c")] : GoMap GoFloat String) (by decide)).2.2.2.1⟩

theorem NaN_map_entries_run (next : Nat → Nat) :
    EntriesSortedByKey next ([(GoFloat.num 2, "a"), (GoFloat.nan, "b"), (GoFloat.num 1, "c")] :
      GoMap GoFloat String) =
      [⟨GoFloat.num 2, "a"⟩, ⟨GoFloat.nan, "b"⟩, ⟨GoFloat.num 1, "c"⟩] := by
  rw [EntriesSortedByKey_small next _ (by decide)]
  decide!

/-- C7 (counterexample): for the map `{2: "a", NaN: "b", 1: "c"}` with `float64` keys,
enumerated in this order, the closure of `SortBy` answers 0 for every comparison with the
NaN key, so `EntriesSortedByKey` returns the entries as enumerated whatever the
pseudo-random step: the entry of key 2 comes before the entry of key 1. -/
theorem EntriesSortedByKey_NaN_unordered :
    GoMap.WF ([(GoFloat.num 2, "a"), (GoFloat.nan, "b"), (GoFloat.num 1, "c")] :
      GoMap GoFloat String) ∧
    (∀ next : Nat → Nat,
      EntriesSortedByKey next ([(GoFloat.num 2, "a"), (GoFloat.nan, "b"),
        (GoFloat.num 1, "c")] : GoMap GoFloat String) =
        [⟨GoFloat.num 2, "a"⟩, ⟨GoFloat.nan, "b"⟩, ⟨GoFloat.num 1, "c"⟩]) ∧
    (∀ next : Nat → Nat,
      ¬ (EntriesSortedByKey next ([(GoFloat.num 2, "a"), (GoFloat.nan, "b"),
        (GoFloat.num 1, "c")] : GoMap GoFloat String)).Pairwise
          (fun e₁ e₂ => GoOrdered.le e₁.Key e₂.Key = true)) ∧
    GoOrdered.lt (GoFloat.num 1) (GoFloat.num 2) = true := by
  refine ⟨by decide!, NaN_map_entries_run, fun next => ?_, by decide!⟩
  rw [NaN_map_entries_run next]
  intro hc
  have := (List.pairwise_cons.1 hc).1 ⟨GoFloat.num 1, "c"⟩ (by simp)
  exact absurd this (by decide!)

/-- C7 (amended): `EntriesSortedByKey(m)` holds exactly the (key, value) pairs of `m`, the
pair of each binding once.  When no key of `m` is NaN they are ordered by strictly ascending
key, so no two entries share a key, and the entries are the pairs `(k, m[k])`. -/
theorem EntriesSortedByKey_spec [DecidableEq K] [GoOrdered K] (next : Nat → Nat)
    (m : GoMap K V) (hm : m.WF) :
    (EntriesSortedByKey next m).Perm (lo.Entries m) ∧
    (∀ k v, (⟨k, v⟩ : lo.Entry K V) ∈ EntriesSortedByKey next m ↔ (k, v) ∈ m) ∧
    (EntriesSortedByKey next m).length = m.size ∧
    ((∀ k ∈ m.keys, GoOrdered.isNaN k = false) →
      (∀ k v, (⟨k, v⟩ : lo.Entry K V) ∈ EntriesSortedByKey next m ↔
        m.lookup k = some (some v)) ∧
      (EntriesSortedByKey next m).Nodup ∧
      (EntriesSortedByKey next m).Pairwise
        (fun e₁ e₂ => GoOrdered.lt e₁.Key e₂.Key = true) ∧
      ((EntriesSortedByKey next m).map lo.Entry.Key).Nodup) := by
  have hp := EntriesSortedByKey_perm next m
  refine ⟨hp, fun k v => ?_, ?_, fun hreg => ?_⟩
  · rw [hp.mem_iff, mem_Entries_iff]
  · rw [hp.length_eq]
    simp [lo.Entries, GoMap.size]
  · have hk : ((EntriesSortedByKey next m).map lo.Entry.Key).Nodup :=
      (EntriesSortedByKey_keys_perm next m).nodup_iff.2
        (GoMap.WF_nodup m hm (fun k hk => selfEqual_of_regular k (hreg k hk)))
    refine ⟨fun k v => ?_, List.Nodup.of_map _ hk, EntriesSortedByKey_strict next m hm hreg, hk⟩
    rw [hp.mem_iff, mem_Entries_iff, lookup_eq_some_iff m hm hreg]

theorem EntriesSortedByKey_spec_witness :
    GoMap.WF ([("b", 2), ("a", 1), ("c", 3)] : GoMap String Int) ∧
    (∀ k ∈ GoMap.keys ([("b", 2), ("a", 1), ("c", 3)] : GoMap String Int),
      GoOrdered.isNaN k = false) ∧
    (EntriesSortedByKey (fun r => r)
      ([("b", 2), ("a", 1), ("c", 3)] : GoMap String Int)).Pairwise
      (fun e₁ e₂ => GoOrdered.lt e₁.Key e₂.Key = true) :=
  ⟨by decide, fun _ _ => rfl, ((EntriesSortedByKey_spec (fun r => r)
    ([("b", 2), ("a", 1), ("c", 3)] : GoMap String Int) (by decide)).2.2.2
      (fun _ _ => rfl)).2.2.1⟩

end lox

namespace lox

variable {K : Type} {V : Type}

theorem NaN_map_sorted_keys_run (next : Nat → Nat) :
    KeysSorted next ([(GoFloat.num 2, "a"), (GoFloat.nan, "b"), (GoFloat.num 1, "c")] :
      GoMap GoFloat String) = [GoFloat.nan, GoFloat.num 1, GoFloat.num 2] := by
  rw [KeysSorted_small next _ (by decide)]
  decide!

theorem NaN_map_values_run (next : Nat → Nat) :
    ValuesSortedByKey next ([(GoFloat.num 2, "a"), (GoFloat.nan, "b"), (GoFloat.num 1, "c")] :
      GoMap GoFloat String) = ["a", "b", "c"] := by
  rw [ValuesSortedByKey_eq_map, NaN_map_entries_run next]
  rfl

/-- C8 (counterexample): for the map `{2: "a", NaN: "b", 1: "c"}` with `float64` keys,
enumerated in this order, `ValuesSortedByKey` returns `["a", "b", "c"]`, the values in
iteration order, while `KeysSorted` returns `[NaN, 1, 2]`: the lookup of NaN finds nothing,
`m[1]` is `"c"` and `m[2]` is `"a"`, so no element of the result is the value of the key at
its index. -/
theorem ValuesSortedByKey_NaN_mismatch :
    GoMap.WF ([(GoFloat.num 2, "a"), (GoFloat.nan, "b"), (GoFloat.num 1, "c")] :
      GoMap GoFloat String) ∧
    (∀ next : Nat → Nat,
      ValuesSortedByKey next ([(GoFloat.num 2, "a"), (GoFloat.nan, "b"),
        (GoFloat.num 1, "c")] : GoMap GoFloat String) = ["a", "b", "c"]) ∧
    (∀ next : Nat → Nat,
      KeysSorted next ([(GoFloat.num 2, "a"), (GoFloat.nan, "b"),
        (GoFloat.num 1, "c")] : GoMap GoFloat String) =
        [GoFloat.nan, GoFloat.num 1, GoFloat.num 2]) ∧
    GoMap.lookup ([(GoFloat.num 2, "a"), (GoFloat.nan, "b"), (GoFloat.num 1, "c")] :
      GoMap GoFloat String) GoFloat.nan = some none ∧
    GoMap.lookup ([(GoFloat.num 2, "a"), (GoFloat.nan, "b"), (GoFloat.num 1, "c")] :
      GoMap GoFloat String) (GoFloat.num 1) = some (some "c") ∧
    GoMap.lookup ([(GoFloat.num 2, "a"), (GoFloat.nan, "b"), (GoFloat.num 1, "c")] :
      GoMap GoFloat String) (GoFloat.num 2) = some (some "a") :=
  ⟨by decide!, NaN_map_values_run, NaN_map_sorted_keys_run, by decide!, by decide!,
    by decide!⟩

/-- C8 (amended): `ValuesSortedByKey(m)` has the size of `m`.  When no key of `m` is NaN it
lists the values of `m` in ascending-key order: its i-th element is `m[k_i]` for the i-th
element `k_i` of `KeysSorted(m)`; for `{"b":2,"a":1,"c":3}` it is `[1, 2, 3]`, and for
`{"a":3,"b":1}` it is `[3, 1]` (ordered by key, not by value). -/
theorem ValuesSortedByKey_spec [DecidableEq K] [GoOrdered K] (next : Nat → Nat)
    (m : GoMap K V) (hm : m.WF) :
    (ValuesSortedByKey next m).length = m.size ∧
    ((∀ k ∈ m.keys, GoOrdered.isNaN k = false) →
      (ValuesSortedByKey next m).map (fun v => some (some v)) =
        (KeysSorted next m).map m.lookup ∧
      (∀ i (hi : i < (ValuesSortedByKey next m).length) (hk : i < (KeysSorted next m).length),
        m.lookup ((KeysSorted next m).get ⟨i, hk⟩) =
          some (some ((ValuesSortedByKey next m).get ⟨i, hi⟩)))) ∧
    (∀ (next' : Nat → Nat) (m₀ : GoMap String Int),
      m₀.Perm [("b", 2), ("a", 1), ("c", 3)] → ValuesSortedByKey next' m₀ = [1, 2, 3]) ∧
    (∀ (next' : Nat → Nat) (m₀ : GoMap String Int),
      m₀.Perm [("a", 3), ("b", 1)] → ValuesSortedByKey next' m₀ = [3, 1]) := by
  have hlen : (ValuesSortedByKey next m).length = m.size := by
    rw [ValuesSortedByKey_eq_map, List.length_map, (EntriesSortedByKey_perm next m).length_eq]
    simp [lo.Entries, GoMap.size]
  have hinj : Function.Injective (fun v : Int => some (some v)) :=
    fun a b hab => Option.some.inj (Option.some.inj hab)
  refine ⟨hlen, fun hreg => ?_, ?_, ?_⟩
  · have h := ValuesSortedByKey_lookup next m hm hreg
    refine ⟨h, fun i hi hk => ?_⟩
    have h1 : ((ValuesSortedByKey next m).map (fun v => some (some v)))[i]? =
        ((KeysSorted next m).map m.lookup)[i]? := by rw [h]
    rw [List.getElem?_map, List.getElem?_map, List.getElem?_eq_getElem hi,
      List.getElem?_eq_getElem hk] at h1
    simp only [Option.map_some'] at h1
    exact (Option.some.inj h1).symm
  · intro next' m₀ h₀
    have hm₀ : m₀.WF := GoMap.WF_perm _ m₀ h₀.symm (by decide)
    have hreg₀ := regular_of_linear m₀.keys
    have hk : KeysSorted next' m₀ = ["a", "b", "c"] :=
      KeysSorted_eq_of_sorted next' m₀ hm₀ hreg₀ _
        ((by decide : (["a", "b", "c"] : List String).Perm
          (GoMap.keys ([("b", 2), ("a", 1), ("c", 3)] : GoMap String Int))).trans
          (h₀.map Prod.fst).symm) abc_ascending
    have h1 := ValuesSortedByKey_lookup next' m₀ hm₀ hreg₀
    rw [hk] at h1
    have l1 : m₀.lookup "a" = some (some 1) :=
      (lookup_eq_some_iff m₀ hm₀ hreg₀ _ _).2 (h₀.mem_iff.2 (by decide))
    have l2 : m₀.lookup "b" = some (some 2) :=
      (lookup_eq_some_iff m₀ hm₀ hreg₀ _ _).2 (h₀.mem_iff.2 (by decide))
    have l3 : m₀.lookup "c" = some (some 3) :=
      (lookup_eq_some_iff m₀ hm₀ hreg₀ _ _).2 (h₀.mem_iff.2 (by decide))
    simp only [List.map_cons, List.map_nil] at h1
    rw [l1, l2, l3] at h1
    have h2 : (ValuesSortedByKey next' m₀).map (fun v => some (some v)) =
        ([1, 2, 3] : List Int).map (fun v => some (some v)) := h1
    exact List.map_injective_iff.2 hinj h2
  · intro next' m₀ h₀
    have hm₀ : m₀.WF := GoMap.WF_perm _ m₀ h₀.symm (by decide)
    have hreg₀ := regular_of_linear m₀.keys
    have hk : KeysSorted next' m₀ = ["a", "b"] :=
      KeysSorted_eq_of_sorted next' m₀ hm₀ hreg₀ _
        ((by decide : (["a", "b"] : List String).Perm
          (GoMap.keys ([("a", 3), ("b", 1)] : GoMap String Int))).trans
          (h₀.map Prod.fst).symm) ab_ascending
    have h1 := ValuesSortedByKey_lookup next' m₀ hm₀ hreg₀
    rw [hk] at h1
    have l1 : m₀.lookup "a" = some (some 3) :=
      (lookup_eq_some_iff m₀ hm₀ hreg₀ _ _).2 (h₀.mem_iff.2 (by decide))
    have l2 : m₀.lookup "b" = some (some 1) :=
      (lookup_eq_some_iff m₀ hm₀ hreg₀ _ _).2 (h₀.mem_iff.2 (by decide))
    simp only [List.map_cons, List.map_nil] at h1
    rw [l1, l2] at h1
    have h2 : (ValuesSortedByKey next' m₀).map (fun v => some (some v)) =
        ([3, 1] : List Int).map (fun v => some (some v)) := h1
    exact List.map_injective_iff.2 hinj h2

theorem ValuesSortedByKey_spec_witness :
    GoMap.WF ([("b", 2), ("a", 1), ("c", 3)] : GoMap String Int) ∧
    (∀ k ∈ GoMap.keys ([("b", 2), ("a", 1), ("c", 3)] : GoMap String Int),
      GoOrdered.isNaN k = false) ∧
    (ValuesSortedByKey (fun r => r) ([("b", 2), ("a", 1), ("c", 3)] : GoMap String Int)).map
      (fun v => some (some v)) =
      (KeysSorted (fun r => r) ([("b", 2), ("a", 1), ("c", 3)] : GoMap String Int)).map
        (GoMap.lookup ([("b", 2), ("a", 1), ("c", 3)] : GoMap String Int)) :=
  ⟨by decide, fun _ _ => rfl, ((ValuesSortedByKey_spec (fun r => r)
    ([("b", 2), ("a", 1), ("c", 3)] : GoMap String Int) (by decide)).2.1 (fun _ _ => rfl)).1⟩

end lox

/-! ## Conditional selection, composition and narrowing with one callback -/

namespace lox

variable {T : Type} {R : Type} {K : Type} {V : Type}

/-- C12: `IfOrEmptyF` is lazy.  With a false condition it returns the zero value and does
not run the thunk: the result is the pure zero value for a thunk with any effects, a
panicking thunk included, and a logged thunk leaves the log empty.  With a true condition
it is one run of the thunk and returns `f()`. -/
theorem IfOrEmptyF_lazy [GoZero T] (f : Unit → T) :
    IfOrEmptyF false f = GoZero.zero ∧
    IfOrEmptyF true f = f () ∧
    (∀ (m : Type → Type) [Monad m] (g : Unit → m T),
      IfOrEmptyFM false g = pure GoZero.zero ∧ IfOrEmptyFM true g = g ()) ∧
    (∀ msg : String, IfOrEmptyFM false (panicking T msg) = Except.ok GoZero.zero) ∧
    (∀ msg : String, IfOrEmptyFM true (panicking T msg) = Except.error msg) ∧
    (IfOrEmptyFM false (logged () f)).run [] = ((GoZero.zero : T), []) ∧
    (IfOrEmptyFM true (logged () f)).run [] = (f (), [()]) :=
  ⟨rfl, rfl, fun _ _ _ => ⟨rfl, rfl⟩, fun _ => rfl, fun _ => rfl, rfl, rfl⟩

/-- C13: `IfOrEmpty(true, result) = result` and `IfOrEmpty(false, result)` is the zero
value of the type; `IfOrEmpty(true, 5) = 5` and `IfOrEmpty(false, 5) = 0`. -/
theorem IfOrEmpty_spec [GoZero T] (result : T) :
    IfOrEmpty true result = result ∧
    IfOrEmpty false result = GoZero.zero ∧
    IfOrEmpty true (5 : Int) = 5 ∧
    IfOrEmpty false (5 : Int) = 0 :=
  ⟨rfl, rfl, rfl, rfl⟩

/-- C16: `OnlyEmptyBy(seq, keyFn)` is the subsequence of the elements whose key is the
zero value of the key type, `WithoutEmptyBy(seq, keyFn)` the subsequence of the elements
whose key differs from it. -/
theorem OnlyEmptyBy_WithoutEmptyBy_spec [GoZero R] [DecidableEq R] (seq : List T)
    (keyFn : T → R) :
    OnlyEmptyBy seq keyFn = seq.filter (fun e => decide (keyFn e = GoZero.zero)) ∧
    WithoutEmptyBy seq keyFn = seq.filter (fun e => decide (keyFn e ≠ GoZero.zero)) ∧
    (OnlyEmptyBy seq keyFn).Sublist seq ∧ (WithoutEmptyBy seq keyFn).Sublist seq ∧
    (∀ e, e ∈ OnlyEmptyBy seq keyFn ↔ e ∈ seq ∧ keyFn e = GoZero.zero) ∧
    (∀ e, e ∈ WithoutEmptyBy seq keyFn ↔ e ∈ seq ∧ keyFn e ≠ GoZero.zero) := by
  have h1 : OnlyEmptyBy seq keyFn = seq.filter (fun e => decide (keyFn e = GoZero.zero)) := by
    rw [OnlyEmptyBy_eq_filter]
    congr 1
    funext e
    simp only [eq_comm]
  have h2 : WithoutEmptyBy seq keyFn =
      seq.filter (fun e => decide (keyFn e ≠ GoZero.zero)) := by
    rw [WithoutEmptyBy_eq_filter]
    congr 1
    funext e
    simp [eq_comm]
  refine ⟨h1, h2, ?_, ?_, fun e => ?_, fun e => ?_⟩
  · rw [h1]; exact List.filter_sublist seq
  · rw [h2]; exact List.filter_sublist seq
  · rw [h1, List.mem_filter, decide_eq_true_eq]
  · rw [h2, List.mem_filter, decide_eq_true_eq]

/-- C17: `FilterWithoutIndex(seq, p)` is the subsequence of the elements of `seq` on which
`p` holds, in their order: it is the list filter, and the index handed to the adapted
predicate plays no part (the loop of `lo.Filter` gives the same result from any starting
index). -/
theorem FilterWithoutIndex_spec (seq : List V) (p : V → Bool) :
    FilterWithoutIndex seq p = seq.filter p ∧
    (FilterWithoutIndex seq p).Sublist seq ∧
    (∀ e, e ∈ FilterWithoutIndex seq p ↔ e ∈ seq ∧ p e = true) ∧
    (∀ i : Int, lo.Filter.loop (IgnoreSecond p) seq i [] = FilterWithoutIndex seq p) := by
  have h := FilterWithoutIndex_eq_filter seq p
  refine ⟨h, ?_, fun e => ?_, fun i => ?_⟩
  · rw [h]; exact List.filter_sublist seq
  · rw [h, List.mem_filter]
  · rw [h, lo.Filter_loop_ignoreIndex, List.nil_append]

/-- C18: `MapWithoutIndex(seq, g)` has the length of `seq` and its i-th element is
`g(seq[i])`: it is the list map. -/
theorem MapWithoutIndex_spec (seq : List T) (g : T → R) :
    MapWithoutIndex seq g = seq.map g ∧
    (MapWithoutIndex seq g).length = seq.length ∧
    (∀ i (hi : i < seq.length) (hi' : i < (MapWithoutIndex seq g).length),
      (MapWithoutIndex seq g).get ⟨i, hi'⟩ = g (seq.get ⟨i, hi⟩)) := by
  have h := MapWithoutIndex_eq_map seq g
  refine ⟨h, ?_, fun i hi hi' => ?_⟩
  · rw [h, List.length_map]
  · simp only [List.get_eq_getElem, h, List.getElem_map]

/-- C19: `Compose(f, g)(x) = f(g(x))`; with effects `g` runs first and `f` runs on its
result, so logged functions leave the log `g, f`, and `f` is not called when `g` panics. -/
theorem Compose_apply {T1 : Type} {T2 : Type} (f : T2 → R) (g : T1 → T2) (x : T1) :
    Compose f g x = f (g x) ∧
    (ComposeM (logged "f" f) (logged "g" g) x).run [] = (f (g x), ["g", "f"]) ∧
    (∀ (msg : String) (f' : T2 → Except String R),
      ComposeM f' (fun _ => (Except.error msg : Except String T2)) x = Except.error msg) :=
  ⟨rfl, rfl, fun _ _ => rfl⟩

/-- C20: a nil interface value matches no target type, `any` included: `InstanceOf[T](nil)`
is false, `IfInstanceOfF[T](nil, ifFunc, elseFunc)` is `elseFunc(nil)`, and
`FilterByType[R]` drops the nil elements of its input. -/
theorem nil_matches_no_type {Ty : Type} {El : Ty → Type} [DecidableEq Ty]
    [∀ t, GoZero (El t)] (T : GoTarget Ty) (ifFunc : T.Narrowed El → R)
    (elseFunc : GoAny El → R) (elems : List (GoAny El)) :
    InstanceOf T (GoAny.nil : GoAny El) = false ∧
    InstanceOf (GoTarget.iface (fun _ : Ty => true)) (GoAny.nil : GoAny El) = false ∧
    IfInstanceOfF T GoAny.nil ifFunc elseFunc = elseFunc GoAny.nil ∧
    FilterByType T (GoAny.nil :: elems) = FilterByType T elems ∧
    FilterByType T elems =
      FilterByType T (elems.filter (fun v => match v with
        | GoAny.nil => false
        | GoAny.val _ _ => true)) ∧
    FilterByType T (List.replicate elems.length (GoAny.nil : GoAny El)) = [] := by
  have hn : T.typeCase (GoAny.nil : GoAny El) = none := by
    cases T <;> rfl
  refine ⟨?_, rfl, ?_, ?_, ?_, ?_⟩
  · simp [InstanceOf, hn]
  · simp [IfInstanceOfF, hn]
  · rw [FilterByType_eq_filterMap, FilterByType_eq_filterMap, List.filterMap_cons, hn]
  · rw [FilterByType_eq_filterMap, FilterByType_eq_filterMap]
    induction elems with
    | nil => rfl
    | cons v rest ih =>
      cases v with
      | nil => simp only [List.filterMap_cons, hn, List.filter_cons]; simpa using ih
      | val t x =>
        simp only [List.filter_cons, if_true, List.filterMap_cons]
        rw [ih]
  · rw [FilterByType_eq_filterMap]
    induction elems.length with
    | zero => rfl
    | succ n ih => rw [List.replicate_succ, List.filterMap_cons, hn, ih]

end lox

/-! ## Sets built from slices -/

namespace GoMap

variable {K : Type} {V : Type}

theorem keys_store [DecidableEq K] [GoComparable K] (m : GoMap K V) (k : K) (v : V) :
    (m.store k v).keys =
      if k ∈ m.keys ∧ GoComparable.selfEqual k = true then m.keys else m.keys ++ [k] := by
  induction m with
  | nil => simp [store, keys]
  | cons e rest ih =>
    obtain ⟨k₀, v₀⟩ := e
    by_cases h : goEq k₀ k = true
    · obtain ⟨h1, h2⟩ := (goEq_iff k₀ k).1 h
      subst h1
      simp [store, keys, h, h2]
    · have hc : (k ∈ keys ((k₀, v₀) :: rest) ∧ GoComparable.selfEqual k = true) ↔
          (k ∈ keys rest ∧ GoComparable.selfEqual k = true) := by
        unfold keys
        rw [List.map_cons, List.mem_cons]
        constructor
        · rintro ⟨h1 | h1, h2⟩
          · have h1 : k = k₀ := h1
            exact absurd ((goEq_iff k₀ k).2 ⟨h1.symm, by rw [← h1]; exact h2⟩) h
          · exact ⟨h1, h2⟩
        · rintro ⟨h1, h2⟩
          exact ⟨Or.inr h1, h2⟩
      rw [Bool.not_eq_true] at h
      simp only [store, h, Bool.false_eq_true, if_false]
      have hk : keys ((k₀, v₀) :: store rest k v) = k₀ :: keys (store rest k v) := rfl
      rw [hk, ih]
      by_cases hr : k ∈ keys rest ∧ GoComparable.selfEqual k = true
      · rw [if_pos hr, if_pos (hc.2 hr)]
        rfl
      · rw [if_neg hr, if_neg (fun hh => hr (hc.1 hh))]
        rfl

theorem mem_keys_store [DecidableEq K] [GoComparable K] (m : GoMap K V) (k k' : K) (v : V) :
    k' ∈ (m.store k v).keys ↔ k' = k ∨ k' ∈ m.keys := by
  rw [keys_store]
  split
  · rename_i h
    constructor
    · exact Or.inr
    · rintro (rfl | h')
      · exact h.1
      · exact h'
  · simp only [List.mem_append, List.mem_singleton]
    exact or_comm

theorem WF_store [DecidableEq K] [GoComparable K] (m : GoMap K V) (hm : m.WF) (k : K) (v : V)
    (hk : GoComparable.hashable k = true) : (m.store k v).WF := by
  have h := keys_store m k v
  unfold WF
  unfold keys at h
  rw [h]
  split
  · exact hm
  · rename_i hc
    refine ⟨?_, fun k' hk' => ?_⟩
    · rw [List.pairwise_append]
      refine ⟨hm.1, List.pairwise_singleton _ _, fun a ha b hb => ?_⟩
      rw [List.mem_singleton] at hb
      subst hb
      cases hg : goEq a b with
      | false => rfl
      | true =>
        obtain ⟨h1, h2⟩ := (goEq_iff a b).1 hg
        subst h1
        exact absurd ⟨ha, h2⟩ hc
    · rw [List.mem_append, List.mem_singleton] at hk'
      rcases hk' with hk' | hk'
      · exact hm.2 k' hk'
      · rw [hk']
        exact hk

theorem find_store [DecidableEq K] [GoComparable K] (m : GoMap K V) (k k' : K) (v : V) :
    ((m.store k v).find k').isSome = true ↔
      goEq k k' = true ∨ (m.find k').isSome = true := by
  rw [find_isSome_iff, find_isSome_iff, mem_keys_store, goEq_iff]
  constructor
  · rintro ⟨h1 | h1, h2⟩
    · exact Or.inl ⟨h1.symm, by rw [← h1]; exact h2⟩
    · exact Or.inr ⟨h1, h2⟩
  · rintro (⟨h1, h2⟩ | ⟨h1, h2⟩)
    · exact ⟨Or.inl h1.symm, by rw [← h1]; exact h2⟩
    · exact ⟨Or.inr h1, h2⟩

theorem filter_nan_store [DecidableEq K] [GoComparable K] (m : GoMap K V) (k : K) (v : V) :
    (m.store k v).keys.filter (fun k => !GoComparable.selfEqual k) =
      m.keys.filter (fun k => !GoComparable.selfEqual k) ++
        [k].filter (fun k => !GoComparable.selfEqual k) := by
  rw [keys_store]
  cases hk : GoComparable.selfEqual k with
  | true =>
    have : [k].filter (fun k => !GoComparable.selfEqual k) = [] := by
      simp [List.filter_cons, hk]
    rw [this, List.append_nil]
    split
    · rfl
    · rw [List.filter_append, this, List.append_nil]
  | false =>
    rw [if_neg (by simp)]
    rw [List.filter_append]

theorem WF_filter_nodup [DecidableEq K] [GoComparable K] (m : GoMap K V) (hm : m.WF) :
    (m.keys.filter (fun k => GoComparable.selfEqual k)).Nodup := by
  have h1 : (m.keys.filter (fun k => GoComparable.selfEqual k)).Pairwise
      (fun k k' => goEq k k' = false) := hm.1.sublist (List.filter_sublist _)
  refine h1.imp_of_mem (fun {a b} ha _ hab => ?_)
  intro e
  have := (goEq_iff a b).2 ⟨e, by simpa using (List.mem_filter.1 ha).2⟩
  rw [hab] at this
  cases this

end GoMap

namespace lo

variable {T : Type} {K : Type} {V : Type}

theorem Associate_loop_panics [DecidableEq K] [GoComparable K] (transform : T → K × V)
    (l : List T) (m : GoMap K V)
    (h : ∃ x ∈ l, GoComparable.hashable (transform x).1 = false) :
    Associate.loop transform l m = none := by
  induction l generalizing m with
  | nil =>
    obtain ⟨x, hx, _⟩ := h
    cases hx
  | cons x rest ih =>
    rw [Associate.loop]
    unfold GoMap.assign
    cases hx : GoComparable.hashable (transform x).1 with
    | false => simp
    | true =>
      simp only [if_true]
      apply ih
      obtain ⟨y, hy, hy'⟩ := h
      rcases List.mem_cons.1 hy with e | e
      · rw [e, hx] at hy'
        cases hy'
      · exact ⟨y, e, hy'⟩

theorem Associate_loop_spec [DecidableEq K] [GoComparable K] (transform : T → K × V)
    (l : List T) (m : GoMap K V) (hm : m.WF)
    (h : ∀ x ∈ l, GoComparable.hashable (transform x).1 = true) :
    ∃ r, Associate.loop transform l m = some r ∧ r.WF ∧
      (∀ k, k ∈ r.keys ↔ (∃ x ∈ l, (transform x).1 = k) ∨ k ∈ m.keys) ∧
      (∀ k, (r.find k).isSome = true ↔
        (∃ x ∈ l, goEq (transform x).1 k = true) ∨ (m.find k).isSome = true) ∧
      r.keys.filter (fun k => !GoComparable.selfEqual k) =
        m.keys.filter (fun k => !GoComparable.selfEqual k) ++
          (l.map (fun x => (transform x).1)).filter (fun k => !GoComparable.selfEqual k) := by
  induction l generalizing m with
  | nil =>
    exact ⟨m, rfl, hm, fun k => by simp, fun k => by simp, by simp⟩
  | cons x rest ih =>
    have hx := h x (List.mem_cons_self _ _)
    obtain ⟨r, h1, h2, h3, h4, h5⟩ := ih (m.store (transform x).1 (transform x).2)
      (GoMap.WF_store m hm _ _ hx) (fun y hy => h y (List.mem_cons_of_mem _ hy))
    refine ⟨r, ?_, h2, fun k => ?_, fun k => ?_, ?_⟩
    · rw [Associate.loop]
      unfold GoMap.assign
      rw [hx]
      exact h1
    · rw [h3, GoMap.mem_keys_store]
      simp only [List.mem_cons, exists_eq_or_imp]
      constructor
      · rintro (h | h | h)
        · exact Or.inl (Or.inr h)
        · exact Or.inl (Or.inl h.symm)
        · exact Or.inr h
      · rintro ((h | h) | h)
        · exact Or.inr (Or.inl h.symm)
        · exact Or.inl h
        · exact Or.inr (Or.inr h)
    · rw [h4, GoMap.find_store]
      simp only [List.mem_cons, exists_eq_or_imp]
      constructor
      · rintro (h | h | h)
        · exact Or.inl (Or.inr h)
        · exact Or.inl (Or.inl h)
        · exact Or.inr h
      · rintro ((h | h) | h)
        · exact Or.inr (Or.inl h)
        · exact Or.inl h
        · exact Or.inr (Or.inr h)
    · rw [h5, GoMap.filter_nan_store, List.map_cons, List.append_assoc]
      congr 1
      rw [← List.filter_append]
      rfl

end lo

namespace lox

variable {K : Type} {V : Type}

theorem SliceToSetBy_spec [DecidableEq K] [GoComparable K] (seq : List V) (keyFn : V → K)
    (hh : ∀ e ∈ seq, GoComparable.hashable (keyFn e) = true) :
    ∃ set, SliceToSetBy seq keyFn = some set ∧ set.WF ∧
      (∀ k, k ∈ set.keys ↔ ∃ e ∈ seq, keyFn e = k) ∧
      (∀ k, (set.find k).isSome = true ↔ ∃ e ∈ seq, goEq (keyFn e) k = true) ∧
      set.keys.filter (fun k => !GoComparable.selfEqual k) =
        (seq.map keyFn).filter (fun k => !GoComparable.selfEqual k) := by
  obtain ⟨r, h1, h2, h3, h4, h5⟩ := lo.Associate_loop_spec (fun item : V => (keyFn item, ()))
    seq [] ⟨List.Pairwise.nil, fun _ hk => by cases hk⟩ hh
  refine ⟨r, h1, h2, fun k => ?_, fun k => ?_, ?_⟩
  · rw [h3]
    simp [GoMap.keys]
  · rw [h4]
    simp [GoMap.find]
  · rw [h5]
    simp [GoMap.keys]

theorem SliceToSetBy_panics [DecidableEq K] [GoComparable K] (seq : List V) (keyFn : V → K)
    (hh : ∃ e ∈ seq, GoComparable.hashable (keyFn e) = false) :
    SliceToSetBy seq keyFn = none :=
  lo.Associate_loop_panics (fun item : V => (keyFn item, ())) seq [] hh

end lox

namespace lox

variable {K : Type} {V : Type}

/-- C15 (counterexample): `SliceToSet` of the `float64` slice `[NaN, NaN, 1]` has three
entries, one for each NaN, while the slice has two distinct values; and `SliceToSet` of a
slice of `any` holding a `[]int` panics instead of returning a set. -/
theorem SliceToSet_NaN_size :
    SliceToSet [GoFloat.nan, GoFloat.nan, GoFloat.num 1] =
      some [(GoFloat.nan, ()), (GoFloat.nan, ()), (GoFloat.num 1, ())] ∧
    GoMap.size ([(GoFloat.nan, ()), (GoFloat.nan, ()), (GoFloat.num 1, ())] :
      GoMap GoFloat Unit) = 3 ∧
    ([GoFloat.nan, GoFloat.nan, GoFloat.num 1].map Identity).dedup.length = 2 ∧
    SliceToSetBy [GoAnyKey.int 1, GoAnyKey.ints [1, 2]] Identity = none := by
  refine ⟨by decide!, rfl, by decide!, by decide⟩

/-- C15 (amended): when every key `keyFn(e)` can be hashed, `SliceToSetBy(seq, keyFn)` returns
a set whose keys are exactly `{ keyFn(e) | e in seq }`.  Elements whose keys are `==`
collapse to one entry, and every element whose key is not equal to itself (a NaN) adds an
entry of its own: the size of the result is the number of distinct keys equal to themselves
plus the number of elements with another key, and at most `len(seq)`.  When every key is
equal to itself each key is bound once and the size is the number of distinct keys.
`SliceToSet(seq)` is the case `keyFn = Identity`. -/
theorem SliceToSetBy_keys [DecidableEq K] [GoComparable K] (seq : List V) (keyFn : V → K)
    (hh : ∀ e ∈ seq, GoComparable.hashable (keyFn e) = true) :
    ∃ set, SliceToSetBy seq keyFn = some set ∧ set.WF ∧
      (∀ k, k ∈ set.keys ↔ ∃ e ∈ seq, keyFn e = k) ∧
      (∀ k, GoComparable.hashable k = true →
        (set.lookup k = some (some ()) ↔ ∃ e ∈ seq, goEq (keyFn e) k = true)) ∧
      set.size =
        ((seq.map keyFn).filter (fun k => GoComparable.selfEqual k)).dedup.length +
          ((seq.map keyFn).filter (fun k => !GoComparable.selfEqual k)).length ∧
      set.size ≤ seq.length ∧
      ((∀ e ∈ seq, GoComparable.selfEqual (keyFn e) = true) →
        set.keys.Nodup ∧ set.keys.Perm (seq.map keyFn).dedup ∧
        set.size = (seq.map keyFn).dedup.length) ∧
      (∀ s : List K, SliceToSet s = SliceToSetBy s Identity) := by
  obtain ⟨set, h1, h2, h3, h4, h5⟩ := SliceToSetBy_spec seq keyFn hh
  have hperm : (set.keys.filter (fun k => GoComparable.selfEqual k)).Perm
      ((seq.map keyFn).filter (fun k => GoComparable.selfEqual k)).dedup := by
    rw [List.perm_ext_iff_of_nodup (GoMap.WF_filter_nodup set h2) (List.nodup_dedup _)]
    intro k
    rw [List.mem_dedup, List.mem_filter, List.mem_filter, h3, List.mem_map]
  have hsize : set.size =
      ((seq.map keyFn).filter (fun k => GoComparable.selfEqual k)).dedup.length +
        ((seq.map keyFn).filter (fun k => !GoComparable.selfEqual k)).length := by
    rw [← hperm.length_eq, ← h5]
    have := List.length_eq_length_filter_add (l := set.keys)
      (fun k => GoComparable.selfEqual k)
    simpa [GoMap.size, GoMap.keys] using this
  have hle : set.size ≤ seq.length := by
    rw [hsize]
    have h6 := (List.dedup_sublist
      ((seq.map keyFn).filter (fun k => GoComparable.selfEqual k))).length_le
    have h7 := List.length_eq_length_filter_add (l := seq.map keyFn)
      (fun k => GoComparable.selfEqual k)
    rw [List.length_map] at h7
    omega
  refine ⟨set, h1, h2, h3, fun k hk => ?_, hsize, hle, fun hself => ?_, fun s => rfl⟩
  · rw [← h4]
    unfold GoMap.lookup
    rw [hk]
    simp only [if_true, Option.some.injEq]
    cases set.find k <;> simp
  · have hall : (seq.map keyFn).filter (fun k => GoComparable.selfEqual k) = seq.map keyFn := by
      rw [List.filter_eq_self]
      intro k hk
      obtain ⟨e, he, rfl⟩ := List.mem_map.1 hk
      exact hself e he
    have hall' : set.keys.filter (fun k => GoComparable.selfEqual k) = set.keys := by
      rw [List.filter_eq_self]
      intro k hk
      obtain ⟨e, he, rfl⟩ := (h3 k).1 hk
      exact hself e he
    have hnone : (seq.map keyFn).filter (fun k => !GoComparable.selfEqual k) = [] := by
      rw [List.filter_eq_nil_iff]
      intro k hk
      obtain ⟨e, he, rfl⟩ := List.mem_map.1 hk
      simp [hself e he]
    rw [hall, hall'] at hperm
    refine ⟨?_, hperm, ?_⟩
    · rw [← hall']
      exact GoMap.WF_filter_nodup set h2
    · rw [hsize, hall, hnone]
      rfl

theorem SliceToSetBy_keys_witness :
    (∀ e ∈ [("a", GoFloat.nan), ("b", GoFloat.num 1), ("c", GoFloat.num 1)],
      GoComparable.hashable (Prod.snd e) = true) ∧
    ∃ set, SliceToSetBy [("a", GoFloat.nan), ("b", GoFloat.num 1), ("c", GoFloat.num 1)]
        Prod.snd = some set ∧ set.WF ∧ set.size ≤ 3 :=
  ⟨fun _ _ => rfl,
    (SliceToSetBy_keys [("a", GoFloat.nan), ("b", GoFloat.num 1), ("c", GoFloat.num 1)]
      Prod.snd (fun _ _ => rfl)).imp (fun _ h => ⟨h.1, h.2.1, h.2.2.2.2.2.1⟩)⟩

end lox
